import Mathlib

/-!
Verification of the ai-news article selection pipeline.

This file gives a shallow embedding, in Lean 4, of the pure core of the
ai-news repository (src/main.py, src/process/dedupe.py,
src/process/info_cluster.py, src/llm/article_evaluator.py,
src/process/source_quality.py) and settles the frozen claims about it.

Modelling conventions:
- Python `str` values are modelled as `List Char` (code points).  Python's
  `str.lower`/`str.strip` are modelled for the ASCII range; the source only
  relies on them for ASCII scheme/host/title characters.
- Python `float` is modelled as `ℚ` (exact rational arithmetic).
- Python `int` is `ℤ` (or `ℕ` where the source value is a length/count).
- SHA-256 digests (`hashlib.sha256(...).hexdigest()`) are modelled by the
  digested byte string itself: the model is the collision-free idealisation
  of the hash, which is the reading the spec's cache-key claims assume.
- Functions that can raise in Python (`urllib.parse.urlsplit` raises
  `ValueError` on bracketed netlocs) return `Option`; `none` models the
  exception propagating.
- The `urllib.parse` model follows CPython's `urlsplit`/`urlparse`/
  `parse_qsl`/`urlencode`/`quote_plus`/`unquote_plus` for ASCII and general
  unicode code points, with two documented simplifications: bracketed
  (IPv6) netlocs are modelled as parse failures, and the NFKC netloc check
  (a no-op on ASCII) is omitted.
-/

/-! ## Python string primitives (ASCII model) -/

/-- Python whitespace characters in the ASCII range (`str.strip()`). -/
def isPyWs (c : Char) : Bool :=
  c = ' ' || c = '\t' || c = '\n' || c = '\r' || c.toNat = 11 || c.toNat = 12

/-- Drop trailing characters satisfying `p`. -/
def dropTrailing (p : Char → Bool) (l : List Char) : List Char :=
  (l.reverse.dropWhile p).reverse

/-- Python `str.strip()` (ASCII whitespace model). -/
def pyStrip (l : List Char) : List Char :=
  dropTrailing isPyWs (l.dropWhile isPyWs)

/-- Python `str.lower()` for one character (ASCII range, as in the source's
scheme/host/title usage). -/
def pyLowerChar (c : Char) : Char :=
  if 65 ≤ c.toNat ∧ c.toNat ≤ 90 then Char.ofNat (c.toNat + 32) else c

/-- Python `str.lower()` (ASCII model). -/
def pyLower (l : List Char) : List Char := l.map pyLowerChar

def isAsciiAlpha (c : Char) : Bool :=
  (97 ≤ c.toNat && c.toNat ≤ 122) || (65 ≤ c.toNat && c.toNat ≤ 90)

def isAsciiDigit (c : Char) : Bool :=
  48 ≤ c.toNat && c.toNat ≤ 57

/-! ## difflib.SequenceMatcher model

`src/process/dedupe.py` computes title similarity with
`SequenceMatcher(None, a, b).ratio()`.  For inputs shorter than 200
characters (titles) the autojunk heuristic is off and the junk predicate is
`None`, so `ratio` is: recursively split both strings around the longest
common substring (ties resolved towards the smallest start index in `a`,
then in `b`, exactly as the `find_longest_match` dynamic program resolves
them), sum the matched sizes `M`, and return `2*M/(len a + len b)`. -/

/-- Length of the common prefix of two character lists. -/
def commonRun : List Char → List Char → Nat
  | a :: as_, b :: bs => if a = b then commonRun as_ bs + 1 else 0
  | _, _ => 0

/-- `find_longest_match` on the windows `[alo, ahi)` × `[blo, bhi)`:
the longest common run, preferring the smallest start in `a`, then the
smallest start in `b` (difflib's tie-breaking). -/
def findLongestMatch (a b : List Char) (alo ahi blo bhi : Nat) :
    Nat × Nat × Nat :=
  (((List.range (ahi - alo)).map (· + alo)).foldl
    (fun best i =>
      (((List.range (bhi - blo)).map (· + blo)).foldl
        (fun best j =>
          let k := min (commonRun (a.drop i) (b.drop j))
            (min (ahi - i) (bhi - j))
          if best.2.2 < k then (i, j, k) else best)
        best))
    (alo, blo, 0))

/-- Total size of the matching blocks (fuel-indexed recursion mirroring
`get_matching_blocks`; fuel `len a + len b + 1` always suffices because
every recursive window is strictly smaller). -/
def matchTotal (fuel : Nat) (a b : List Char) (alo ahi blo bhi : Nat) : Nat :=
  match fuel with
  | 0 => 0
  | fuel + 1 =>
    let r := findLongestMatch a b alo ahi blo bhi
    if r.2.2 = 0 then 0
    else
      matchTotal fuel a b alo r.1 blo r.2.1 + r.2.2 +
        matchTotal fuel a b (r.1 + r.2.2) ahi (r.2.1 + r.2.2) bhi

/-- `SequenceMatcher(None, a, b).ratio()`. -/
def difflibRatio (a b : List Char) : ℚ :=
  let total := a.length + b.length
  if total = 0 then 1
  else (2 * (matchTotal (total + 1) a b 0 a.length 0 b.length) : ℚ) / total

/-! ## Title normalisation (`dedupe._normalized_title`) -/

/-- A character kept by the regex class `[a-z0-9]` (the title is lowered
first, so only lowercase letters and digits match). -/
def isLowerAlnum (c : Char) : Bool :=
  (97 ≤ c.toNat && c.toNat ≤ 122) || (48 ≤ c.toNat && c.toNat ≤ 57)

/-- `re.sub(r"[^a-z0-9]+", " ", l)`: each maximal run of non-matching
characters becomes a single space (`inRun` tracks being inside a run). -/
def squashNonAlnum (inRun : Bool) : List Char → List Char
  | [] => []
  | c :: cs =>
    if isLowerAlnum c then c :: squashNonAlnum false cs
    else if inRun then squashNonAlnum true cs
    else ' ' :: squashNonAlnum true cs

/-- `dedupe._normalized_title`. -/
def normalized_title (t : List Char) : List Char :=
  pyStrip (squashNonAlnum false (pyLower t))

/-- `dedupe._title_similarity`. -/
def title_similarity (a b : List Char) : ℚ :=
  difflibRatio (normalized_title a) (normalized_title b)

/-! ## `main._percentile` -/

/-- Stable ascending insertion (model of one step of Python's stable
`sorted`). -/
def insertAsc (x : ℚ) : List ℚ → List ℚ
  | [] => [x]
  | y :: ys => if x < y then x :: y :: ys else y :: insertAsc x ys

/-- Python `sorted` on rationals: the stable ascending sort, modelled as
left-to-right stable insertion. -/
def pySorted (l : List ℚ) : List ℚ :=
  l.foldl (fun acc x => insertAsc x acc) []

/-- `main._percentile`. -/
def percentile (values : List ℚ) (p : ℚ) : ℚ :=
  if values = [] then 0
  else
    let s := pySorted values
    if p ≤ 0 then s.headD 0
    else if 100 ≤ p then s.getLastD 0
    else
      let index := ((s.length : ℚ) - 1) * (p / 100)
      let lower := ⌊index⌋
      let upper := ⌈index⌉
      if lower = upper then s.getD lower.toNat 0
      else
        let weight := index - (lower : ℚ)
        s.getD lower.toNat 0 * (1 - weight) + s.getD upper.toNat 0 * weight

/-! ## `main._highlight_cap` -/

/-- Python `round` on a rational: nearest integer, ties to even. -/
def roundHalfEven (q : ℚ) : ℤ :=
  let f := ⌊q⌋
  let r := q - (f : ℚ)
  if r < 1 / 2 then f
  else if 1 / 2 < r then f + 1
  else if f % 2 = 0 then f else f + 1

/-- `main._highlight_cap`, with the two environment knobs
(`HIGHLIGHT_SELECTION_RATIO`, `HIGHLIGHT_MIN_COUNT`) passed as arguments. -/
def highlight_cap (total_assessed : Nat) (top_n : ℤ) (ratioEnv : ℚ)
    (minimumEnv : ℤ) : ℤ :=
  let ratio := min 1 (max (1 / 20) ratioEnv)
  let minimum := max 1 minimumEnv
  let capped := max minimum (roundHalfEven ((total_assessed : ℚ) * ratio))
  max 1 (min top_n capped)

/-! ## `urllib.parse` model -/

/-- WHATWG C0-control-or-space class; `urlsplit` strips it only on the
left ("some applications rely on preserving trailing space"). -/
def isC0OrSpace (c : Char) : Bool := c.toNat ≤ 32

def whatwgLStrip (l : List Char) : List Char :=
  l.dropWhile isC0OrSpace

/-- `urlsplit` removes tab, carriage return and newline anywhere. -/
def removeUnsafeBytes (l : List Char) : List Char :=
  l.filter (fun c => !(c == '\t' || c == '\r' || c == '\n'))

/-- `urllib.parse.scheme_chars`. -/
def isSchemeChar (c : Char) : Bool :=
  isAsciiAlpha c || isAsciiDigit c || c == '+' || c == '-' || c == '.'

/-- The scheme-extraction step of `urlsplit`: the part before the first
colon is taken (lower-cased) as the scheme when it starts with an ASCII
letter and continues with scheme characters. -/
def splitScheme (url : List Char) : List Char × List Char :=
  match url.findIdx? (fun c => c == ':') with
  | none => ([], url)
  | some i =>
    if 0 < i ∧ isAsciiAlpha (url.headD ' ') ∧
        (url.take i).all isSchemeChar then
      (pyLower (url.take i), url.drop (i + 1))
    else ([], url)

/-- `_splitnetloc`: the netloc runs until the first `/`, `?` or `#`. -/
def splitNetlocAt (l : List Char) : List Char × List Char :=
  let netloc := l.takeWhile (fun c => !(c == '/' || c == '?' || c == '#'))
  (netloc, l.drop netloc.length)

/-- `str.partition(ch)` restricted to what `urlsplit` needs: the part
before the first `ch`, and the part after it when present. -/
def pySplitFirst (ch : Char) (l : List Char) : List Char × Option (List Char) :=
  let pre := l.takeWhile (fun c => c != ch)
  if pre.length = l.length then (l, none)
  else (pre, some (l.drop (pre.length + 1)))

structure UrlSplitResult where
  scheme : List Char
  netloc : List Char
  path : List Char
  query : List Char
  fragment : List Char
deriving DecidableEq

/-- `urllib.parse.urlsplit` (with `allow_fragments=True`).  `none` models
the `ValueError` raised for bracketed netlocs; this model rejects every
netloc containing a bracket (CPython additionally accepts well-formed
IPv6 literals, which the repository's feeds never use), and omits the
NFKC netloc check, a no-op on ASCII netlocs. -/
def urlsplitModel (url0 : List Char) : Option UrlSplitResult :=
  let url1 := removeUnsafeBytes (whatwgLStrip url0)
  let s := splitScheme url1
  let nl := if s.2.take 2 = ['/', '/'] then splitNetlocAt (s.2.drop 2)
    else ([], s.2)
  if nl.1.any (fun c => c == '[' || c == ']') then none
  else
    let f := pySplitFirst '#' nl.2
    let q := pySplitFirst '?' f.1
    some ⟨s.1, nl.1, q.1, (q.2.getD []), (f.2.getD [])⟩

/-- The part of `l` after its last `/`. -/
def afterLastSlash (l : List Char) : List Char :=
  (l.reverse.takeWhile (fun c => c != '/')).reverse

/-- `urllib.parse._splitparams`: split the last path segment at its first
semicolon. -/
def splitParams (l : List Char) : List Char × List Char :=
  if l.contains '/' then
    let suf := afterLastSlash l
    match (pySplitFirst ';' suf).2 with
    | none => (l, [])
    | some post => (l.take (l.length - 1 - post.length), post)
  else
    match pySplitFirst ';' l with
    | (pre, none) => (pre, [])
    | (pre, some post) => (pre, post)

structure UrlParseResult where
  scheme : List Char
  netloc : List Char
  path : List Char
  params : List Char
  query : List Char
  fragment : List Char
deriving DecidableEq

/-- `urllib.parse.urlparse`. -/
def urlparseModel (u : List Char) : Option UrlParseResult :=
  (urlsplitModel u).map (fun r =>
    let p := splitParams r.path
    ⟨r.scheme, r.netloc, p.1, p.2, r.query, r.fragment⟩)

/-- `urllib.parse.uses_netloc` (the schemes that get a `//` authority
section when rebuilt). -/
def usesNetloc : List (List Char) :=
  [[], ("ftp").toList, ("http").toList, ("gopher").toList,
    ("nntp").toList, ("telnet").toList, ("imap").toList, ("wais").toList,
    ("file").toList, ("mms").toList, ("https").toList, ("shttp").toList,
    ("snews").toList, ("prospero").toList, ("rtsp").toList,
    ("rtsps").toList, ("rtspu").toList, ("rsync").toList, ("svn").toList,
    ("svn+ssh").toList, ("sftp").toList, ("nfs").toList, ("git").toList,
    ("git+ssh").toList, ("ws").toList, ("wss").toList]

/-- `urllib.parse.urlunsplit`. -/
def urlunsplitModel (scheme netloc path query fragment : List Char) :
    List Char :=
  let u1 := if netloc ≠ [] ∨
      (scheme ≠ [] ∧ scheme ∈ usesNetloc ∧ path.take 2 ≠ ['/', '/']) then
      ('/' :: '/' :: netloc) ++
        (if path ≠ [] ∧ path.take 1 ≠ ['/'] then '/' :: path else path)
    else path
  let u2 := if scheme ≠ [] then scheme ++ ':' :: u1 else u1
  let u3 := if query ≠ [] then u2 ++ '?' :: query else u2
  if fragment ≠ [] then u3 ++ '#' :: fragment else u3

/-- `urllib.parse.urlunparse`. -/
def urlunparseModel (r : UrlParseResult) : List Char :=
  let u := if r.params ≠ [] then r.path ++ ';' :: r.params else r.path
  urlunsplitModel r.scheme r.netloc u r.query r.fragment

/-! ### `quote_plus` / `unquote_plus` -/

/-- Characters `quote` never escapes (letters, digits, `_.-~`; the callers
in the source pass `safe=''`). -/
def isAlwaysSafe (c : Char) : Bool :=
  isAsciiAlpha c || isAsciiDigit c || c == '_' || c == '.' || c == '-' ||
    c == '~'

def hexUpperDigit (n : Nat) : Char :=
  if n < 10 then Char.ofNat (48 + n) else Char.ofNat (55 + n)

def percentEncodeByte (b : Nat) : List Char :=
  ['%', hexUpperDigit (b / 16), hexUpperDigit (b % 16)]

/-- UTF-8 bytes of one code point. -/
def utf8Bytes (c : Char) : List Nat :=
  let n := c.toNat
  if n < 128 then [n]
  else if n < 2048 then [192 + n / 64, 128 + n % 64]
  else if n < 65536 then
    [224 + n / 4096, 128 + (n / 64) % 64, 128 + n % 64]
  else
    [240 + n / 262144, 128 + (n / 4096) % 64, 128 + (n / 64) % 64,
      128 + n % 64]

def quotePlusChar (c : Char) : List Char :=
  if isAlwaysSafe c then [c]
  else if c == ' ' then ['+']
  else List.flatten ((utf8Bytes c).map percentEncodeByte)

/-- `urllib.parse.quote_plus` with `safe=''`. -/
def quotePlus (l : List Char) : List Char :=
  List.flatten (l.map quotePlusChar)

def hexVal (c : Char) : Option Nat :=
  if 48 ≤ c.toNat ∧ c.toNat ≤ 57 then some (c.toNat - 48)
  else if 65 ≤ c.toNat ∧ c.toNat ≤ 70 then some (c.toNat - 55)
  else if 97 ≤ c.toNat ∧ c.toNat ≤ 102 then some (c.toNat - 87)
  else none

/-- First phase of `unquote`: turn each valid `%XX` triple into a byte,
leave everything else as characters. -/
def collectPercents : List Char → List (Char ⊕ Nat)
  | [] => []
  | '%' :: h1 :: h2 :: rest =>
    match hexVal h1, hexVal h2 with
    | some a, some b => Sum.inr (16 * a + b) :: collectPercents rest
    | _, _ => Sum.inl '%' :: collectPercents (h1 :: h2 :: rest)
  | '%' :: rest => Sum.inl '%' :: collectPercents rest
  | c :: rest => Sum.inl c :: collectPercents rest

def uRepl : Char := Char.ofNat 65533

/-- Pending state of the streaming UTF-8 decoder: how many continuation
bytes are still needed, the accumulated bits, and the allowed range for
the next byte (the first continuation byte has a lead-dependent range,
which is how overlong and surrogate encodings are rejected). -/
structure PendingUtf8 where
  need : Nat
  acc : Nat
  nextLo : Nat
  nextHi : Nat
deriving DecidableEq

/-- Classify a byte as a lead: either immediate output (ASCII byte or a
replacement for an invalid lead) or the start of a multi-byte sequence. -/
def classifyLead (b : Nat) : List Char ⊕ PendingUtf8 :=
  if b < 128 then Sum.inl [Char.ofNat b]
  else if b < 194 then Sum.inl [uRepl]
  else if b < 224 then Sum.inr ⟨1, b - 192, 128, 191⟩
  else if b = 224 then Sum.inr ⟨2, 0, 160, 191⟩
  else if b = 237 then Sum.inr ⟨2, 13, 128, 159⟩
  else if b < 240 then Sum.inr ⟨2, b - 224, 128, 191⟩
  else if b = 240 then Sum.inr ⟨3, 0, 144, 191⟩
  else if b < 244 then Sum.inr ⟨3, b - 240, 128, 191⟩
  else if b = 244 then Sum.inr ⟨3, 4, 128, 143⟩
  else Sum.inl [uRepl]

/-- One byte step of the `errors='replace'` UTF-8 decoder (the "maximal
valid subpart" rule: an invalid continuation byte flushes one replacement
character and is reprocessed as a lead). -/
def stepUtf8 (st : Option PendingUtf8) (b : Nat) :
    List Char × Option PendingUtf8 :=
  match st with
  | none =>
    match classifyLead b with
    | Sum.inl out => (out, none)
    | Sum.inr p => ([], some p)
  | some p =>
    if p.nextLo ≤ b ∧ b ≤ p.nextHi then
      let acc := p.acc * 64 + (b - 128)
      if p.need = 1 then ([Char.ofNat acc], none)
      else ([], some ⟨p.need - 1, acc, 128, 191⟩)
    else
      match classifyLead b with
      | Sum.inl out => (uRepl :: out, none)
      | Sum.inr p2 => ([uRepl], some p2)

/-- One step of `unquote`'s output assembly: literal characters flush any
pending (necessarily incomplete) byte sequence. -/
def stepStream (st : Option PendingUtf8) (x : Char ⊕ Nat) :
    List Char × Option PendingUtf8 :=
  match x with
  | Sum.inr b => stepUtf8 st b
  | Sum.inl c =>
    match st with
    | none => ([c], none)
    | some _ => ([uRepl, c], none)

/-- Run the decoder over the mixed stream; a dangling incomplete sequence
at the end yields a final replacement character. -/
def decodeStreamGo (st : Option PendingUtf8) : List (Char ⊕ Nat) → List Char
  | [] =>
    match st with
    | none => []
    | some _ => [uRepl]
  | x :: rest =>
    let r := stepStream st x
    r.1 ++ decodeStreamGo r.2 rest

/-- `urllib.parse.unquote`. -/
def unquoteChars (l : List Char) : List Char :=
  decodeStreamGo none (collectPercents l)

def plusToSpace (l : List Char) : List Char :=
  l.map (fun c => if c == '+' then ' ' else c)

/-- `urllib.parse.unquote_plus`. -/
def unquotePlus (l : List Char) : List Char :=
  unquoteChars (plusToSpace l)

/-- One `name=value` piece of `parse_qsl` with `keep_blank_values=False`:
pieces without `=` or with an empty value are dropped. -/
def parseQslPair (piece : List Char) : Option (List Char × List Char) :=
  if piece = [] then none
  else
    match pySplitFirst '=' piece with
    | (_, none) => none
    | (name, some value) =>
      if value = [] then none
      else some (unquotePlus name, unquotePlus value)

/-- `urllib.parse.parse_qsl` (modern CPython: separator `&` only). -/
def parseQsl (qs : List Char) : List (List Char × List Char) :=
  (qs.splitOn '&').filterMap parseQslPair

/-- `urllib.parse.urlencode` with `doseq=True` on string pairs. -/
def urlencodePairs (pairs : List (List Char × List Char)) : List Char :=
  List.intercalate ['&']
    (pairs.map (fun kv => quotePlus kv.1 ++ '=' :: quotePlus kv.2))

/-! ## `dedupe.normalize_url` and `info_cluster` keys -/

def TRACKING_PARAM_PREFIXES : List (List Char) :=
  [("utm_").toList, ("spm").toList, ("fbclid").toList, ("gclid").toList,
    ("ref").toList]

/-- `k.lower().startswith(TRACKING_PARAM_PREFIXES)`. -/
def isTrackingKey (k : List Char) : Bool :=
  TRACKING_PARAM_PREFIXES.any (fun p => p.isPrefixOf (pyLower k))

def rstripSlash (l : List Char) : List Char :=
  dropTrailing (fun c => c == '/') l

/-- The query pairs kept by `normalize_url`: `parse_qsl` minus
tracking-prefixed names. -/
def filteredQueryOf (q : List Char) : List (List Char × List Char) :=
  (parseQsl q).filter (fun kv => !(isTrackingKey kv.1))

/-- `parsed.path.rstrip("/") or "/"`. -/
def npathOf (path : List Char) : List Char :=
  if rstripSlash path = [] then ['/'] else rstripSlash path

/-- The `parsed._replace(...)` record built by `normalize_url`. -/
def normalizeParts (p : UrlParseResult) : UrlParseResult :=
  ⟨pyLower p.scheme, pyLower p.netloc, npathOf p.path, p.params,
    urlencodePairs (filteredQueryOf p.query), []⟩

/-- `dedupe.normalize_url`; `none` models a `ValueError` from `urlparse`
propagating out. -/
def normalize_url (url : List Char) : Option (List Char) :=
  (urlparseModel (pyStrip url)).map (fun p =>
    urlunparseModel (normalizeParts p))

/-- `info_cluster._normalize_url`: like `normalize_url` but empty when the
URL has no scheme or no netloc. -/
def icNormalizeUrl (url : List Char) : Option (List Char) :=
  (urlparseModel (pyStrip url)).map (fun p =>
    if p.scheme = [] ∨ p.netloc = [] then []
    else urlunparseModel (normalizeParts p))

/-- `info_cluster.build_title_key`.  The SHA-256 digest prefix is modelled
by the digested (normalised) string itself. -/
def build_title_key (title : List Char) : List Char :=
  let normalized := normalized_title title
  if normalized = [] then ("title:empty").toList
  else ("title:").toList ++ normalized

/-- `info_cluster.build_info_key` on the raw `(info_url, url, title)`
fields. -/
def build_info_key_raw (info_url url title : List Char) :
    Option (List Char) :=
  match icNormalizeUrl info_url with
  | none => none
  | some n1 =>
    if n1 ≠ [] then some n1
    else
      match icNormalizeUrl url with
      | none => none
      | some n2 =>
        if n2 ≠ [] then some n2 else some (build_title_key title)

/-! ## Data model (`src/models.py`, as used by `src/main.py`)

`main.py` reads `article.info_url` and passes `primary_type` /
`secondary_types` through `ScoredArticle`, so those fields are part of the
model even though the checked-in `models.py` dataclass lags behind its
users. -/

def WORTH_MUST_READ : List Char := ("必读").toList
def WORTH_WORTH_READING : List Char := ("可读").toList
def WORTH_SKIP : List Char := ("跳过").toList

structure Article where
  id : List Char
  title : List Char
  url : List Char
  source_id : List Char
  source_name : List Char
  published_at : Option ℤ
  summary_raw : List Char
  lead_paragraph : List Char
  content_text : List Char
  info_url : List Char
  tags : List (List Char)
deriving DecidableEq

structure ArticleAssessment where
  article_id : List Char
  worth : List Char
  quality_score : ℚ
  practicality_score : ℚ
  actionability_score : ℚ
  novelty_score : ℚ
  clarity_score : ℚ
  one_line_summary : List Char
  reason_short : List Char
  company_impact : ℚ
  team_impact : ℚ
  personal_impact : ℚ
  execution_clarity : ℚ
  action_hint : List Char
  best_for_roles : List (List Char)
  evidence_signals : List (List Char)
  confidence : ℚ
  primary_type : List Char
  secondary_types : List (List Char)
  cache_key : List Char
deriving DecidableEq

structure AIHighlight where
  article_id : List Char
  rank : ℤ
  one_line_summary : List Char
  worth : List Char
  reason_short : List Char
deriving DecidableEq

structure ScoredArticle where
  id : List Char
  title : List Char
  url : List Char
  source_id : List Char
  source_name : List Char
  published_at : Option ℤ
  summary_raw : List Char
  lead_paragraph : List Char
  content_text : List Char
  info_url : List Char
  tags : List (List Char)
  primary_type : List Char
  secondary_types : List (List Char)
  score : ℚ
  worth : List Char
  reason_short : List Char
deriving DecidableEq

structure TaggedArticle where
  article : ScoredArticle
  generated_tags : List (List Char)
deriving DecidableEq

structure SourceConfig where
  id : List Char
  name : List Char
  url : List Char
  source_weight : ℚ
deriving DecidableEq

/-- Association-list lookup (first match), the model of a Python `dict`
whose keys are inserted at most once. -/
def alookup {β : Type} (k : List Char) : List (List Char × β) → Option β
  | [] => none
  | kv :: rest => if kv.1 = k then some kv.2 else alookup k rest

/-- Lookup in a `dict` built by repeated assignment: the last binding of a
key wins (`{a.id: a for a in deduped}`). -/
def dictLookupLast {β : Type} (k : List Char) (l : List (List Char × β)) :
    Option β :=
  alookup k l.reverse

/-- `d[k] = v` on an association list: overwrite in place, else append. -/
def aupsert {β : Type} (k : List Char) (v : β) :
    List (List Char × β) → List (List Char × β)
  | [] => [(k, v)]
  | kv :: rest => if kv.1 = k then (k, v) :: rest else kv :: aupsert k v rest

/-- `Article.info_url` then `Article.url` then the title key
(`info_cluster.build_info_key`). -/
def build_info_key (a : Article) : Option (List Char) :=
  build_info_key_raw a.info_url a.url a.title

/-! ## `dedupe.dedupe_articles` -/

/-- Python `round(x, 4)` (ties to even at the fourth decimal). -/
def pyRound4 (q : ℚ) : ℚ := (roundHalfEven (q * 10000) : ℚ) / 10000

structure DroppedItem where
  reason : List Char
  article_id : List Char
  title : List Char
  source_id : List Char
  url : List Char
  matched_article_id : List Char
  matched_title : List Char
  matched_url : List Char
  similarity : ℚ
deriving DecidableEq

structure DedupeStats where
  total_input : Nat
  kept : Nat
  url_duplicates : Nat
  title_duplicates : Nat
  dropped_items : List DroppedItem
deriving DecidableEq

/-- The first already-kept article whose title is at least
`θ`-similar to `title` (the inner `for existing in deduped` loop). -/
def findSimilar (θ : ℚ) (title : List Char) :
    List Article → Option (Article × ℚ)
  | [] => none
  | e :: rest =>
    let s := title_similarity title e.title
    if θ ≤ s then some (e, s) else findSimilar θ title rest

def urlDupItem (a : Article) (matched : Option Article) : DroppedItem :=
  ⟨("url_duplicate").toList, a.id, a.title, a.source_id, a.url,
    ((matched.map (fun m => m.id)).getD []),
    ((matched.map (fun m => m.title)).getD []),
    ((matched.map (fun m => m.url)).getD []), 1⟩

def titleDupItem (a : Article) (m : Article) (s : ℚ) : DroppedItem :=
  ⟨("title_similar").toList, a.id, a.title, a.source_id, a.url,
    m.id, m.title, m.url, pyRound4 s⟩

/-- State threaded through the dedupe loop.  `normMap` carries both the
`seen_urls` set (its key set) and the `normalized_to_article` dict, which
the source always updates together. -/
structure DedupeState where
  deduped : List Article
  normMap : List (List Char × Article)
  url_dups : Nat
  title_dups : Nat
  dropped : List DroppedItem

def dedupeGo (θ : ℚ) (st : DedupeState) :
    List Article → Option DedupeState
  | [] => some st
  | article :: rest =>
    match normalize_url article.url with
    | none => none
    | some normalized =>
      match alookup normalized st.normMap with
      | some matched =>
        dedupeGo θ
          { st with
            url_dups := st.url_dups + 1,
            dropped := st.dropped ++ [urlDupItem article (some matched)] }
          rest
      | none =>
        match findSimilar θ article.title st.deduped with
        | some ms =>
          dedupeGo θ
            { st with
              title_dups := st.title_dups + 1,
              dropped := st.dropped ++ [titleDupItem article ms.1 ms.2] }
            rest
        | none =>
          dedupeGo θ
            { st with
              deduped := st.deduped ++ [article],
              normMap := st.normMap ++ [(normalized, article)] }
            rest

/-- `dedupe.dedupe_articles`.  The model always returns the statistics the
source computes for `return_stats=True`; `none` models the `ValueError`
a malformed URL makes `normalize_url` raise. -/
def dedupe_articles (articles : List Article) (θ : ℚ := 93 / 100) :
    Option (List Article × DedupeStats) :=
  (dedupeGo θ ⟨[], [], 0, 0, []⟩ articles).map (fun st =>
    (st.deduped,
      ⟨articles.length, st.deduped.length, st.url_dups, st.title_dups,
        st.dropped⟩))

/-! ## `article_evaluator` -/

/-- `compute_article_content_hash`: the SHA-256 of
`"|".join([title.strip(), summary_raw.strip(), lead_paragraph.strip()])`,
modelled by the digested string. -/
def compute_article_content_hash (a : Article) : List Char :=
  pyStrip a.title ++ '|' :: pyStrip a.summary_raw ++ '|' ::
    pyStrip a.lead_paragraph

/-- `build_article_cache_key`: the SHA-256 of
`"|".join([model.strip(), prompt_version.strip(), url.strip().lower(),
content_hash])`, modelled by the digested string. -/
def build_article_cache_key (a : Article)
    (model_name prompt_version : List Char) : List Char :=
  pyStrip model_name ++ '|' :: pyStrip prompt_version ++ '|' ::
    pyLower (pyStrip a.url) ++ '|' :: compute_article_content_hash a

/-- Per-article record of what `evaluate_articles` did: cache hit or not,
how many LLM calls were made and which back-off sleeps were taken. -/
structure EvalLog where
  article_id : List Char
  cache_hit : Bool
  llm_calls : Nat
  sleeps : List ℚ
deriving DecidableEq

/-- The retry loop of `evaluate_articles` for one cache-missed article:
the oracle `llm a i` is the outcome of attempt `i` on article `a` (`none`
models a `DeepSeekError`); `remaining` counts the retries still allowed.
Returns the assessment (if any attempt succeeded), the number of calls
made, and the sleeps (`0.35 * (attempt + 1)`) taken between attempts. -/
def attemptGo (llm : Article → Nat → Option ArticleAssessment)
    (article : Article) (attempt : Nat) :
    Nat → Option ArticleAssessment × Nat × List ℚ
  | 0 =>
    match llm article attempt with
    | some a => (some a, 1, [])
    | none => (none, 1, [])
  | remaining + 1 =>
    match llm article attempt with
    | some a => (some a, 1, [])
    | none =>
      let r := attemptGo llm article (attempt + 1) remaining
      (r.1, r.2.1 + 1, (35 / 100 * ((attempt : ℚ) + 1)) :: r.2.2)

def evaluateGo (llm : Article → Nat → Option ArticleAssessment)
    (mn pv : List Char) (maxR : Nat)
    (cache assessments : List (List Char × ArticleAssessment))
    (log : List EvalLog) :
    List Article →
      List (List Char × ArticleAssessment) ×
        List (List Char × ArticleAssessment) × List EvalLog
  | [] => (assessments, cache, log)
  | article :: rest =>
    let ck := build_article_cache_key article mn pv
    match alookup ck cache with
    | some cached =>
      evaluateGo llm mn pv maxR cache
        (aupsert article.id { cached with cache_key := ck } assessments)
        (log ++ [⟨article.id, true, 0, []⟩]) rest
    | none =>
      let r := attemptGo llm article 0 maxR
      match r.1 with
      | some a =>
        let a2 := { a with cache_key := ck }
        evaluateGo llm mn pv maxR (cache ++ [(ck, a2)])
          (aupsert article.id a2 assessments)
          (log ++ [⟨article.id, false, r.2.1, r.2.2⟩]) rest
      | none =>
        evaluateGo llm mn pv maxR cache assessments
          (log ++ [⟨article.id, false, r.2.1, r.2.2⟩]) rest

/-- `ArticleEvaluator.evaluate_articles` with `max_retries = maxR`,
returning `(assessments, cache after the run, per-article log)`.  The
trailing `cache.prune(max_rows=5000)` only bounds the persisted store and
is not part of the returned mapping. -/
def evaluate_articles (llm : Article → Nat → Option ArticleAssessment)
    (mn pv : List Char) (maxR : Nat)
    (cache : List (List Char × ArticleAssessment))
    (articles : List Article) :
    List (List Char × ArticleAssessment) ×
      List (List Char × ArticleAssessment) × List EvalLog :=
  evaluateGo llm mn pv maxR cache [] [] articles

/-! ## `source_quality.build_budgeted_source_limits` -/

def intSum (l : List ℤ) : ℤ := l.foldr (fun a b => a + b) 0

/-- `source_limits.get(sid, default)` coerced with `int(...)`. -/
def capOf (limits : List (List Char × ℤ)) (sid : List Char) (dflt : ℤ) : ℤ :=
  (alookup sid limits).getD dflt

/-- Second distribution pass: fill leftovers by priority order. -/
def budgetPass2 : List (SourceConfig × ℤ × ℤ) → ℤ → List (List Char × ℤ)
  | [], _ => []
  | sar :: rest, rem =>
    if rem ≤ 0 then (sar.1.id, sar.2.1) :: budgetPass2 rest rem
    else if sar.2.2 ≤ 0 then (sar.1.id, sar.2.1) :: budgetPass2 rest rem
    else
      let add := min sar.2.2 rem
      (sar.1.id, sar.2.1 + add) :: budgetPass2 rest (rem - add)

/-- `build_budgeted_source_limits`.  The returned dict (keyed by the
pairwise-distinct source ids) is modelled positionally, in prioritized
order. -/
def build_budgeted_source_limits (prioritized : List SourceConfig)
    (source_limits : List (List Char × ℤ)) (total_budget : ℤ)
    (min_per_source : ℤ) : List (List Char × ℤ) :=
  if total_budget ≤ 0 ∨ prioritized = [] then source_limits
  else
    let count : ℤ := prioritized.length
    if total_budget < count then
      prioritized.enum.map (fun ie =>
        (ie.2.id, if (ie.1 : ℤ) < total_budget then 1 else 0))
    else
      let base := if count * min_per_source ≤ total_budget then
          min_per_source
        else max 1 (Int.fdiv total_budget count)
      let alloc0 := prioritized.map (fun s =>
        (s, min base (max 0 (capOf source_limits s.id base))))
      let used := intSum (alloc0.map (fun sa => sa.2))
      let remaining := max 0 (total_budget - used)
      if remaining = 0 then alloc0.map (fun sa => (sa.1.id, sa.2))
      else
        let rooms := alloc0.map (fun sa =>
          (sa.1, sa.2, max 0 (capOf source_limits sa.1.id sa.2 - sa.2)))
        let total_room := intSum (rooms.map (fun t => t.2.2))
        if total_room ≤ 0 then alloc0.map (fun sa => (sa.1.id, sa.2))
        else
          let afterP1 := rooms.map (fun t =>
            let add := if t.2.2 ≤ 0 then 0
              else min t.2.2 (Int.fdiv (remaining * t.2.2) (max total_room 1))
            (t.1, t.2.1 + add, t.2.2 - add))
          let spent := intSum (afterP1.map (fun t => t.2.1)) -
            intSum (rooms.map (fun t => t.2.1))
          budgetPass2 afterP1 (remaining - spent)

/-! ## `main._reorder_candidates_by_type_preference` -/

/-- `main._personalized_quality_score`. -/
def personalized_quality_score (base_quality : ℚ) (primary_type : List Char)
    (type_multipliers : List (List Char × ℚ)) (blend : ℚ) : ℚ :=
  if blend ≤ 0 then base_quality
  else
    let multiplier := (alookup primary_type type_multipliers).getD 1
    base_quality * (1 + (multiplier - 1) * blend)

/-- One `(index, highlight, scored_article, assessment)` tuple of the
candidate lists in `run`. -/
structure RankedCand where
  index : Nat
  highlight : AIHighlight
  scored : ScoredArticle
  assessment : ArticleAssessment
deriving DecidableEq

structure EnrichedCand where
  cand : RankedCand
  pscore : ℚ
deriving DecidableEq

/-- The sort key `(personalized_score, base_score, -index)`. -/
def enrichedKey (e : EnrichedCand) : ℚ × ℚ × ℤ :=
  (e.pscore, e.cand.scored.score, -(e.cand.index : ℤ))

def keyLtB (x y : ℚ × ℚ × ℤ) : Bool :=
  decide (x.1 < y.1) ||
    (decide (x.1 = y.1) && (decide (x.2.1 < y.2.1) ||
      (decide (x.2.1 = y.2.1) && decide (x.2.2 < y.2.2))))

/-- Stable descending insertion for `sorted(..., reverse=True)`: the new
(later) element goes after every existing element with an equal or larger
key. -/
def insertDescBy (x : EnrichedCand) : List EnrichedCand → List EnrichedCand
  | [] => [x]
  | y :: ys =>
    if keyLtB (enrichedKey y) (enrichedKey x) then x :: y :: ys
    else y :: insertDescBy x ys

/-- Python's stable `sorted(enriched, key=..., reverse=True)`. -/
def sortEnrichedDesc (l : List EnrichedCand) : List EnrichedCand :=
  l.foldl (fun acc x => insertDescBy x acc) []

/-- One in-place left-to-right pass of the quality-gap guard: swap
adjacent entries whenever the later one's base score exceeds the earlier
one's by more than `gap`; the carried element keeps moving right after a
swap, exactly like the indexed loop in the source. -/
def sweepCarry (gap : ℚ) (cur : EnrichedCand) :
    List EnrichedCand → List EnrichedCand × Bool
  | [] => ([cur], false)
  | b :: rest =>
    if gap < b.cand.scored.score - cur.cand.scored.score then
      let r := sweepCarry gap cur rest
      (b :: r.1, true)
    else
      let r := sweepCarry gap b rest
      (cur :: r.1, r.2)

def sweepGuard (gap : ℚ) : List EnrichedCand → List EnrichedCand × Bool
  | [] => ([], false)
  | a :: rest => sweepCarry gap a rest

/-- The `while changed` loop around the sweep.  Any fuel of at least the
number of score inversions reaches the fixpoint; the callers pass
`length² + 1`, which always suffices. -/
def sweepLoop (gap : ℚ) : Nat → List EnrichedCand → List EnrichedCand
  | 0, l => l
  | fuel + 1, l =>
    let r := sweepGuard gap l
    if r.2 then sweepLoop gap fuel r.1 else r.1

/-- `main._reorder_candidates_by_type_preference`. -/
def reorder_candidates_by_type_preference (candidates : List RankedCand)
    (type_multipliers : List (List Char × ℚ)) (blend : ℚ)
    (quality_gap_guard : ℚ) : List RankedCand × Nat :=
  if candidates = [] ∨ type_multipliers = [] ∨ blend ≤ 0 then
    (candidates, 0)
  else
    let enriched := candidates.map (fun c =>
      ⟨c, personalized_quality_score c.scored.score c.scored.primary_type
        type_multipliers blend⟩)
    let ordered0 := sortEnrichedDesc enriched
    let gap := max 0 quality_gap_guard
    let ordered := if 0 < gap then
        sweepLoop gap (enriched.length * enriched.length + 1) ordered0
      else ordered0
    let before := candidates.map (fun c => c.scored.id)
    let after := ordered.map (fun e => e.cand.scored.id)
    let reordered_count :=
      ((before.zip after).countP (fun p => !(p.1 == p.2)))
    (ordered.map (fun e => e.cand), reordered_count)

/-! ## The highlight selection gate (`run`, lines 342-456) -/

structure GateParams where
  min_highlight_score : ℚ
  min_worth_reading_score : ℚ
  min_highlight_confidence : ℚ
  dynamic_percentile : ℚ
  max_info_dup_env : ℤ
  top_n : ℤ
  ratioEnv : ℚ
  minimumEnv : ℤ
  type_multipliers : List (List Char × ℚ)
  type_blend : ℚ
  type_quality_gap_guard : ℚ

/-- `[a.quality_score for a in assessments.values() if a.worth != SKIP]`. -/
def scored_pool (assessments : List (List Char × ArticleAssessment)) :
    List ℚ :=
  assessments.filterMap (fun kv =>
    if kv.2.worth ≠ WORTH_SKIP then some kv.2.quality_score else none)

/-- The `ScoredArticle` literal built in the selection loop. -/
def mkScoredArticle (article : Article) (h : AIHighlight)
    (assessment : ArticleAssessment) : ScoredArticle :=
  ⟨article.id, article.title, article.url, article.source_id,
    article.source_name, article.published_at, article.summary_raw,
    (if h.one_line_summary ≠ [] then h.one_line_summary
      else assessment.one_line_summary),
    article.content_text, article.info_url, [],
    assessment.primary_type, assessment.secondary_types,
    assessment.quality_score, assessment.worth,
    (if h.reason_short ≠ [] then h.reason_short
      else assessment.reason_short)⟩

/-- The filtering loop over `enumerate(ai_highlights)` that builds
`must_read_candidates` and `fallback_worth_reading`. -/
def buildCandidatesGo (amap : List (List Char × Article))
    (assess : List (List Char × ArticleAssessment))
    (minConf effTh minWR : ℚ) (idx : Nat) :
    List AIHighlight → List RankedCand × List RankedCand
  | [] => ([], [])
  | h :: rest =>
    let r := buildCandidatesGo amap assess minConf effTh minWR (idx + 1) rest
    if h.worth = WORTH_SKIP then r
    else
      match dictLookupLast h.article_id amap with
      | none => r
      | some article =>
        match dictLookupLast article.id assess with
        | none => r
        | some assessment =>
          if assessment.worth = WORTH_SKIP then r
          else if assessment.confidence < minConf then r
          else if assessment.worth = WORTH_MUST_READ ∧
              assessment.quality_score < effTh then r
          else if assessment.worth = WORTH_WORTH_READING ∧
              assessment.quality_score < minWR then r
          else
            let c : RankedCand := ⟨idx, h, mkScoredArticle article h
              assessment, assessment⟩
            if assessment.worth = WORTH_MUST_READ then (c :: r.1, r.2)
            else (r.1, c :: r.2)

def counterGet (k : List Char) (c : List (List Char × Nat)) : Nat :=
  (alookup k c).getD 0

def counterBump (k : List Char) : List (List Char × Nat) →
    List (List Char × Nat)
  | [] => [(k, 1)]
  | kv :: rest =>
    if kv.1 = k then (kv.1, kv.2 + 1) :: rest else kv :: counterBump k rest

/-- `_reserve_info_slot`: `none` models `build_info_key` raising through a
malformed URL. -/
def reserveStep (maxDup : Nat) (icounts tcounts : List (List Char × Nat))
    (sa : ScoredArticle) :
    Option (Bool × List (List Char × Nat) × List (List Char × Nat)) :=
  match build_info_key_raw sa.info_url sa.url sa.title with
  | none => none
  | some ik =>
    let tk := build_title_key sa.title
    if maxDup ≤ counterGet ik icounts then some (false, icounts, tcounts)
    else if maxDup ≤ counterGet tk tcounts then some (false, icounts, tcounts)
    else some (true, counterBump ik icounts, counterBump tk tcounts)

/-- The selection loop: reserve a cluster slot, append, stop at the cap. -/
def selectLoop (cap : ℤ) (maxDup : Nat) :
    List RankedCand → List TaggedArticle →
      List (List Char × Nat) → List (List Char × Nat) →
      Option (List TaggedArticle ×
        List (List Char × Nat) × List (List Char × Nat))
  | [], acc, ic, tc => some (acc, ic, tc)
  | c :: rest, acc, ic, tc =>
    match reserveStep maxDup ic tc c.scored with
    | none => none
    | some r =>
      if r.1 then
        let acc2 := acc ++ [⟨c.scored, []⟩]
        if cap ≤ (acc2.length : ℤ) then some (acc2, r.2.1, r.2.2)
        else selectLoop cap maxDup rest acc2 r.2.1 r.2.2
      else selectLoop cap maxDup rest acc r.2.1 r.2.2

/-- The whole gate of `run` (thresholds, candidate filter, personalized
reorder, cluster caps, selection cap). -/
def select_highlights (ai_highlights : List AIHighlight)
    (deduped : List Article)
    (assessments : List (List Char × ArticleAssessment)) (P : GateParams) :
    Option (List TaggedArticle) :=
  let amap := deduped.map (fun a => (a.id, a))
  let pool := scored_pool assessments
  let dynThreshold := if pool ≠ [] then percentile pool P.dynamic_percentile
    else P.min_highlight_score
  let effTh := max P.min_highlight_score dynThreshold
  let cap := highlight_cap pool.length P.top_n P.ratioEnv P.minimumEnv
  let maxDup := (max 1 P.max_info_dup_env).toNat
  let cands := buildCandidatesGo amap assessments P.min_highlight_confidence
    effTh P.min_worth_reading_score 0 ai_highlights
  let must := (reorder_candidates_by_type_preference cands.1
    P.type_multipliers P.type_blend P.type_quality_gap_guard).1
  let fallback := (reorder_candidates_by_type_preference cands.2
    P.type_multipliers P.type_blend P.type_quality_gap_guard).1
  match selectLoop cap maxDup must [] [] [] with
  | none => none
  | some r =>
    if (r.1.length : ℤ) < cap then
      (selectLoop cap maxDup fallback r.1 r.2.1 r.2.2).map (fun t => t.1)
    else some r.1

/-! ## `normalize.normalize_articles` and the `run` pipeline -/

/-- `re.sub(r"\s+", " ", value)`. -/
def squashWs (inRun : Bool) : List Char → List Char
  | [] => []
  | c :: cs =>
    if isPyWs c then
      if inRun then squashWs true cs else ' ' :: squashWs true cs
    else c :: squashWs false cs

/-- `normalize._normalize_text`. -/
def normalize_text (value : List Char) (max_len : Nat) : List Char :=
  let v := pyStrip (squashWs false value)
  if v.length ≤ max_len then v
  else dropTrailing isPyWs (v.take max_len) ++ ("...").toList

/-- `normalize.normalize_articles` (timestamps are already UTC instants in
the model, so the timezone coercion is the identity). -/
def normalize_articles (l : List Article) : List Article :=
  l.map (fun a =>
    { a with
      title := normalize_text a.title 240,
      url := pyStrip a.url,
      summary_raw := normalize_text a.summary_raw 1600,
      lead_paragraph := normalize_text a.lead_paragraph 320,
      content_text := normalize_text a.content_text 2400 })

/-- `published_at or datetime.min` comparison used to order the deduped
pool by recency (missing timestamps sort last). -/
def pubLtB (x y : Option ℤ) : Bool :=
  match x, y with
  | none, none => false
  | none, some _ => true
  | some _, none => false
  | some a, some b => decide (a < b)

def insertPubDesc (x : Article) : List Article → List Article
  | [] => [x]
  | y :: ys =>
    if pubLtB y.published_at x.published_at then x :: y :: ys
    else y :: insertPubDesc x ys

/-- `sorted(deduped, key=published_at or datetime.min, reverse=True)`. -/
def sortPubDesc (l : List Article) : List Article :=
  l.foldl (fun acc x => insertPubDesc x acc) []

/-- Everything `run` consumes, with the external interactions (environment
variables, fetchers, the LLM, the summarizer) as oracles. -/
structure RunEnv where
  api_key : List Char
  article_types_ok : Bool
  fetched : List Article
  llm : Article → Nat → Option ArticleAssessment
  cache : List (List Char × ArticleAssessment)
  model_name : List Char
  prompt_version : List Char
  max_retries : Nat
  max_eval_articles : ℤ
  summarizer : Option (List Char × List AIHighlight × List (List Char))
  gate : GateParams

/-- The fetched pool after normalize, dedupe, the recency sort and the
`MAX_EVAL_ARTICLES` truncation. -/
def run_deduped (env : RunEnv) : Option (List Article) :=
  (dedupe_articles (normalize_articles env.fetched)).map (fun dd =>
    (sortPubDesc dd.1).take (max 1 env.max_eval_articles).toNat)

/-- The assessments map produced inside `run`. -/
def run_assessments (env : RunEnv) (deduped : List Article) :
    List (List Char × ArticleAssessment) :=
  (evaluate_articles env.llm env.model_name env.prompt_version
    env.max_retries env.cache deduped).1

/-- The exit-code skeleton of `main.run`: `some code` is a completed run
returning `code`; `none` models an uncaught exception (a malformed URL in
dedupe or in the info-cluster keys).  Stages with no effect on control
flow (source-quality persistence, markdown/flomo output, whose failures
are caught or out of scope) are omitted. -/
def run_model (env : RunEnv) : Option ℤ :=
  if env.api_key = [] then some 2
  else if ¬env.article_types_ok then some 2
  else
    match run_deduped env with
    | none => none
    | some deduped =>
      if deduped = [] then some 3
      else
        let assessments := run_assessments env deduped
        if assessments = [] then some 4
        else
          match env.summarizer with
          | none => some 5
          | some s =>
            match select_highlights s.2.1 deduped assessments env.gate with
            | none => none
            | some tagged =>
              if tagged = [] then some 6 else some 0

/-! ## Concrete instances used by counterexamples and witnesses -/

def articleOf (aid title url summary lead info : List Char) : Article :=
  ⟨aid, title, url, ("s").toList, ("s").toList, none, summary, lead, [],
    info, []⟩

/-- Same stripped title/summary/lead content, different URLs. -/
def c3a : Article :=
  articleOf (("1").toList) (("T").toList) (("http://a/x").toList)
    (("S").toList) (("L").toList) []

def c3b : Article :=
  articleOf (("2").toList) (("T").toList) (("http://b/x").toList)
    (("S").toList) (("L").toList) []

/-- Three articles with identical normalised titles and distinct URLs. -/
def c4c : Article :=
  articleOf (("c").toList) (("Hello World").toList)
    (("http://a.com/1").toList) [] [] []

def c4a : Article :=
  articleOf (("a").toList) (("hello, world").toList)
    (("http://a.com/2").toList) [] [] []

def c4b : Article :=
  articleOf (("b").toList) (("hello world!").toList)
    (("http://a.com/3").toList) [] [] []

/-- A two-article pair for the dedupe witnesses. -/
def w4a : Article :=
  articleOf (("a").toList) (("Big AI news").toList)
    (("http://a.com/1").toList) [] [] []

def w4b : Article :=
  articleOf (("b").toList) (("big ai news").toList)
    (("http://b.com/2").toList) [] [] []

def cexScored (aid : List Char) (score : ℚ) (pt : List Char) :
    ScoredArticle :=
  ⟨aid, aid, aid, [], [], none, [], [], [], [], [], pt, [], score,
    WORTH_MUST_READ, []⟩

def cexAssessment (aid : List Char) (score : ℚ) (pt : List Char) :
    ArticleAssessment :=
  ⟨aid, WORTH_MUST_READ, score, 0, 0, 0, 0, aid, aid, 0, 0, 0, 0, [], [],
    [], 1, pt, [], []⟩

def cexCand (i : Nat) (aid : List Char) (score : ℚ) (pt : List Char) :
    RankedCand :=
  ⟨i, ⟨aid, 0, [], WORTH_MUST_READ, []⟩, cexScored aid score pt,
    cexAssessment aid score pt⟩

/-- Ranked candidates with base scores 100, 95, 91 (descending) and
personalised scores 90, 99.75, 104.65: the sort reverses them, and with
guard 8 the sweep keeps the order `b, m, a` because both adjacent base
gaps (4 and 5) are inside the guard, even though the swapped pair
`(a, b)` has base gap 9. -/
def c2cands : List RankedCand :=
  [cexCand 0 (("a").toList) 100 (("ta").toList),
    cexCand 1 (("m").toList) 95 (("tm").toList),
    cexCand 2 (("b").toList) 91 (("tb").toList)]

def c2mult : List (List Char × ℚ) :=
  [((("ta").toList), 9 / 10), ((("tm").toList), 105 / 100),
    ((("tb").toList), 115 / 100)]

/-- The repository's own type-personalization test pair. -/
def w2cands : List RankedCand :=
  [cexCand 0 (("a1").toList) 80 (("research_progress").toList),
    cexCand 1 (("a2").toList) 76 (("benchmark").toList)]

def w2mult : List (List Char × ℚ) :=
  [((("benchmark").toList), 115 / 100),
    ((("research_progress").toList), 9 / 10)]

def srcOf (sid : List Char) : SourceConfig :=
  ⟨sid, sid, ("https://x").toList, 1⟩

def c9sources : List SourceConfig :=
  [srcOf (("s0").toList), srcOf (("s1").toList), srcOf (("s2").toList),
    srcOf (("s3").toList)]

def c9limits : List (List Char × ℤ) :=
  [((("s0").toList), 30), ((("s1").toList), 20), ((("s2").toList), 10),
    ((("s3").toList), 10)]

def gate0 : GateParams :=
  ⟨62, 58, 55 / 100, 70, 2, 16, 45 / 100, 4, [], 2 / 10, 8⟩

def w7env : RunEnv :=
  ⟨[], true, [], fun _ _ => none, [], ("deepseek-chat").toList,
    ("v7").toList, 2, 120, none, gate0⟩

def w8article : Article :=
  articleOf (("w8").toList) (("t").toList) (("http://w8/x").toList)
    (("s").toList) (("l").toList) []

/-- Termination measure for the `while changed` sweep of
`_reorder_candidates_by_type_preference`: the number of ordered pairs
`(i, j)`, `i < j`, whose base scores still violate the quality-gap guard.
Each swap of the source's bubble pass removes exactly one such pair, so
the loop reaches its fixpoint within `length²` passes and the
`length² + 1` fuel of `reorder_candidates_by_type_preference` is enough. -/
def countViol (gap : ℚ) : List EnrichedCand → Nat
  | [] => 0
  | a :: rest =>
    rest.countP
        (fun b => decide (gap < b.cand.scored.score - a.cand.scored.score)) +
      countViol gap rest

/-!
# Theorems

Helper lemmas come first, then one theorem per claim (with its witness or
counterexample).
-/

/-- The general interpolation identity behind `_percentile` (helper). -/
theorem percentile_interp_general :
    ∀ (v : List ℚ) (p : ℚ), v ≠ [] → 0 < p → p < 100 →
      percentile v p =
        (pySorted v).getD
            (⌊(((pySorted v).length : ℚ) - 1) * (p / 100)⌋.toNat) 0 *
          (1 - ((((pySorted v).length : ℚ) - 1) * (p / 100) -
            (⌊(((pySorted v).length : ℚ) - 1) * (p / 100)⌋ : ℚ))) +
        (pySorted v).getD
            (⌈(((pySorted v).length : ℚ) - 1) * (p / 100)⌉.toNat) 0 *
          ((((pySorted v).length : ℚ) - 1) * (p / 100) -
            (⌊(((pySorted v).length : ℚ) - 1) * (p / 100)⌋ : ℚ)) := by
  intro v p hv hp0 hp100
  rw [percentile, if_neg hv, if_neg (by linarith), if_neg (by linarith)]
  set s := pySorted v with hs
  set idx : ℚ := ((s.length : ℚ) - 1) * (p / 100) with hidx
  by_cases hfc : ⌊idx⌋ = ⌈idx⌉
  · have hidxint : (⌊idx⌋ : ℚ) = idx := by
      have h1 : (⌊idx⌋ : ℚ) ≤ idx := Int.floor_le idx
      have h2 : idx ≤ (⌈idx⌉ : ℚ) := Int.le_ceil idx
      rw [← hfc] at h2
      linarith
    rw [if_pos hfc, ← hfc, hidxint]
    ring
  · rw [if_neg hfc]

/-- C6: `_percentile` returns 0 on the empty list, exactly 78 on
`[50, 60, 70, 80, 90]` at the 70th percentile, and for every non-empty
list and percentile strictly between 0 and 100 it returns the linear
interpolation between the two adjacent order statistics of the sorted
list at fractional rank `(n - 1) * p / 100`. -/
theorem C6_percentile_spec :
    (∀ p : ℚ, percentile [] p = 0) ∧
    percentile [50, 60, 70, 80, 90] 70 = 78 ∧
    (∀ (v : List ℚ) (p : ℚ), v ≠ [] → 0 < p → p < 100 →
      percentile v p =
        (pySorted v).getD
            (⌊(((pySorted v).length : ℚ) - 1) * (p / 100)⌋.toNat) 0 *
          (1 - ((((pySorted v).length : ℚ) - 1) * (p / 100) -
            (⌊(((pySorted v).length : ℚ) - 1) * (p / 100)⌋ : ℚ))) +
        (pySorted v).getD
            (⌈(((pySorted v).length : ℚ) - 1) * (p / 100)⌉.toNat) 0 *
          ((((pySorted v).length : ℚ) - 1) * (p / 100) -
            (⌊(((pySorted v).length : ℚ) - 1) * (p / 100)⌋ : ℚ))) := by
  refine ⟨fun p => rfl, ?_, percentile_interp_general⟩
  have hs : pySorted [50, 60, 70, 80, 90] = [50, 60, 70, 80, 90] := by
    norm_num [pySorted, insertAsc]
  have h := percentile_interp_general [50, 60, 70, 80, 90] 70 (by simp)
    (by norm_num) (by norm_num)
  rw [h, hs]
  have hfl : ⌊(((([50, 60, 70, 80, 90] : List ℚ).length : ℚ) - 1) *
      ((70 : ℚ) / 100))⌋ = 2 := by norm_num
  have hcl : ⌈(((([50, 60, 70, 80, 90] : List ℚ).length : ℚ) - 1) *
      ((70 : ℚ) / 100))⌉ = 3 := by
    rw [Int.ceil_eq_iff]
    norm_num
  rw [hfl, hcl]
  have hg2 : ([50, 60, 70, 80, 90] : List ℚ).getD ((2 : ℤ).toNat) 0 = 70 :=
    rfl
  have hg3 : ([50, 60, 70, 80, 90] : List ℚ).getD ((3 : ℤ).toNat) 0 = 80 :=
    rfl
  rw [hg2, hg3]
  norm_num

/-- C6 witness: the interpolation clause instantiated at
`[50, 60, 70, 80, 90]`, `p = 70`, with the hypotheses discharged. -/
theorem C6_percentile_witness :
    percentile [50, 60, 70, 80, 90] 70 =
      (pySorted [50, 60, 70, 80, 90]).getD
          (⌊(((pySorted [50, 60, 70, 80, 90]).length : ℚ) - 1) *
            ((70 : ℚ) / 100)⌋.toNat) 0 *
        (1 - ((((pySorted [50, 60, 70, 80, 90]).length : ℚ) - 1) *
            ((70 : ℚ) / 100) -
          (⌊(((pySorted [50, 60, 70, 80, 90]).length : ℚ) - 1) *
            ((70 : ℚ) / 100)⌋ : ℚ))) +
      (pySorted [50, 60, 70, 80, 90]).getD
          (⌈(((pySorted [50, 60, 70, 80, 90]).length : ℚ) - 1) *
            ((70 : ℚ) / 100)⌉.toNat) 0 *
        ((((pySorted [50, 60, 70, 80, 90]).length : ℚ) - 1) *
            ((70 : ℚ) / 100) -
          (⌊(((pySorted [50, 60, 70, 80, 90]).length : ℚ) - 1) *
            ((70 : ℚ) / 100)⌋ : ℚ)) :=
  C6_percentile_spec.2.2 [50, 60, 70, 80, 90] 70 (by simp) (by norm_num)
    (by norm_num)

/-- C7: the exit-code skeleton of `run` returns 0 on success and a
distinct non-zero exit code per pipeline-level failure stage: 2 when the
LLM API key is missing (also for a failed article-types config load), 3
when no articles remain after fetch/normalize/dedupe, 4 when no article
evaluations are produced, 5 when digest summarization fails, 6 when no
highlights are selected.  The fetch/personalization wiring between the
code-2 checks and the dedupe stage is abstracted into `RunEnv`; as
committed, that wiring passes keyword arguments that
`rank_sources_by_priority` and `build_budgeted_source_limits` do not
accept, so a CPython run that passes the two initial checks raises
`TypeError` before fetching and the later codes are unreachable — this
theorem verifies the stage logic itself. -/
theorem C7_run_exit_codes :
    (∀ env : RunEnv, env.api_key = [] → run_model env = some 2) ∧
    (∀ env : RunEnv, env.api_key ≠ [] → env.article_types_ok = false →
      run_model env = some 2) ∧
    (∀ env : RunEnv, env.api_key ≠ [] → env.article_types_ok = true →
      run_deduped env = some [] → run_model env = some 3) ∧
    (∀ (env : RunEnv) (deduped : List Article), env.api_key ≠ [] →
      env.article_types_ok = true → run_deduped env = some deduped →
      deduped ≠ [] → run_assessments env deduped = [] →
      run_model env = some 4) ∧
    (∀ (env : RunEnv) (deduped : List Article), env.api_key ≠ [] →
      env.article_types_ok = true → run_deduped env = some deduped →
      deduped ≠ [] → run_assessments env deduped ≠ [] →
      env.summarizer = none → run_model env = some 5) ∧
    (∀ (env : RunEnv) (deduped : List Article)
      (s : List Char × List AIHighlight × List (List Char)),
      env.api_key ≠ [] → env.article_types_ok = true →
      run_deduped env = some deduped → deduped ≠ [] →
      run_assessments env deduped ≠ [] → env.summarizer = some s →
      select_highlights s.2.1 deduped (run_assessments env deduped)
        env.gate = some [] →
      run_model env = some 6) ∧
    (∀ (env : RunEnv) (deduped : List Article)
      (s : List Char × List AIHighlight × List (List Char))
      (tagged : List TaggedArticle),
      env.api_key ≠ [] → env.article_types_ok = true →
      run_deduped env = some deduped → deduped ≠ [] →
      run_assessments env deduped ≠ [] → env.summarizer = some s →
      select_highlights s.2.1 deduped (run_assessments env deduped)
        env.gate = some tagged →
      tagged ≠ [] → run_model env = some 0) ∧
    (([2, 3, 4, 5, 6] : List ℤ).Nodup ∧ (0 : ℤ) ∉ ([2, 3, 4, 5, 6] : List ℤ)) := by
  refine ⟨?_, ?_, ?_, ?_, ?_, ?_, ?_, by decide, by decide⟩
  · intro env h
    simp [run_model, h]
  · intro env h1 h2
    simp [run_model, h1, h2]
  · intro env h1 h2 h3
    simp [run_model, h1, h2, h3]
  · intro env deduped h1 h2 h3 h4 h5
    simp [run_model, h1, h2, h3, h4, h5]
  · intro env deduped h1 h2 h3 h4 h5 h6
    simp [run_model, h1, h2, h3, h4, h5, h6]
  · intro env deduped s h1 h2 h3 h4 h5 h6 h7
    simp [run_model, h1, h2, h3, h4, h5, h6, h7]
  · intro env deduped s tagged h1 h2 h3 h4 h5 h6 h7 h8
    simp [run_model, h1, h2, h3, h4, h5, h6, h7, h8]

/-- C7 witness: a run environment with no API key exits with code 2. -/
theorem C7_run_exit_codes_witness : run_model w7env = some 2 :=
  C7_run_exit_codes.1 w7env rfl

/-! ### Helper lemmas for the budget allocator -/

theorem intSum_cons (a : ℤ) (l : List ℤ) : intSum (a :: l) = a + intSum l :=
  rfl

theorem intSum_map_le {α : Type} (l : List α) (f g : α → ℤ)
    (h : ∀ x ∈ l, f x ≤ g x) : intSum (l.map f) ≤ intSum (l.map g) := by
  induction l with
  | nil => simp [intSum]
  | cons a t ih =>
    simp only [List.map_cons, intSum_cons]
    have h1 := h a (by simp)
    have h2 := ih (fun x hx => h x (by simp [hx]))
    linarith

theorem intSum_map_add {α : Type} (l : List α) (f g : α → ℤ) :
    intSum (l.map (fun x => f x + g x)) =
      intSum (l.map f) + intSum (l.map g) := by
  induction l with
  | nil => simp [intSum]
  | cons a t ih =>
    simp only [List.map_cons, intSum_cons, ih]
    ring

theorem intSum_map_mul_left {α : Type} (l : List α) (f : α → ℤ) (c : ℤ) :
    intSum (l.map (fun x => c * f x)) = c * intSum (l.map f) := by
  induction l with
  | nil => simp [intSum]
  | cons a t ih =>
    simp only [List.map_cons, intSum_cons, ih]
    ring

theorem intSum_le_card_mul {α : Type} (l : List α) (f : α → ℤ) (c : ℤ)
    (h : ∀ x ∈ l, f x ≤ c) : intSum (l.map f) ≤ (l.length : ℤ) * c := by
  induction l with
  | nil => simp [intSum]
  | cons a t ih =>
    simp only [List.map_cons, intSum_cons, List.length_cons]
    have h1 := h a (by simp)
    have h2 := ih (fun x hx => h x (by simp [hx]))
    push_cast
    linarith

theorem intSum_nonneg (l : List ℤ) (h : ∀ x ∈ l, 0 ≤ x) : 0 ≤ intSum l := by
  induction l with
  | nil => simp [intSum]
  | cons a t ih =>
    rw [intSum_cons]
    have h1 := h a (by simp)
    have h2 := ih (fun x hx => h x (by simp [hx]))
    linarith

theorem fdiv_add_fdiv_le {x y T : ℤ} (hT : 0 < T) :
    x.fdiv T + y.fdiv T ≤ (x + y).fdiv T := by
  rw [Int.fdiv_eq_ediv _ hT.le, Int.fdiv_eq_ediv _ hT.le,
    Int.fdiv_eq_ediv _ hT.le]
  apply (Int.le_ediv_iff_mul_le hT).mpr
  have h1 : x / T * T ≤ x := Int.ediv_mul_le x (by positivity)
  have h2 : y / T * T ≤ y := Int.ediv_mul_le y (by positivity)
  nlinarith

theorem mul_fdiv_self_le {T a : ℤ} (hT : 0 < T) : T * (a.fdiv T) ≤ a := by
  have h := Int.fdiv_add_fmod a T
  have hm : 0 ≤ a.fmod T := Int.fmod_nonneg' a hT
  linarith

theorem intSum_fdiv_le {α : Type} (l : List α) (f : α → ℤ) (T : ℤ)
    (hT : 0 < T) :
    intSum (l.map (fun x => (f x).fdiv T)) ≤ (intSum (l.map f)).fdiv T := by
  induction l with
  | nil => simp [intSum]
  | cons a t ih =>
    simp only [List.map_cons, intSum_cons]
    calc (f a).fdiv T + intSum (t.map (fun x => (f x).fdiv T))
        ≤ (f a).fdiv T + (intSum (t.map f)).fdiv T := by linarith
      _ ≤ (f a + intSum (t.map f)).fdiv T := fdiv_add_fdiv_le hT

theorem budgetPass2_sum_le (l : List (SourceConfig × ℤ × ℤ)) (rem : ℤ) :
    intSum ((budgetPass2 l rem).map (fun kv => kv.2)) ≤
      intSum (l.map (fun t => t.2.1)) + max 0 rem := by
  induction l generalizing rem with
  | nil => simp [budgetPass2, intSum, le_max_iff]
  | cons a t ih =>
    rw [budgetPass2]
    by_cases h1 : rem ≤ 0
    · rw [if_pos h1]
      simp only [List.map_cons, intSum_cons]
      have := ih rem
      omega
    · rw [if_neg h1]
      by_cases h2 : a.2.2 ≤ 0
      · rw [if_pos h2]
        simp only [List.map_cons, intSum_cons]
        have := ih rem
        omega
      · rw [if_neg h2]
        simp only [List.map_cons, intSum_cons]
        have := ih (rem - min a.2.2 rem)
        have hmin : min a.2.2 rem ≤ rem := min_le_right _ _
        have hminpos : 0 < min a.2.2 rem := lt_min (by omega) (by omega)
        omega

theorem budgetPass2_mem (l : List (SourceConfig × ℤ × ℤ)) (rem : ℤ) :
    ∀ kv ∈ budgetPass2 l rem, ∃ t ∈ l, kv.1 = t.1.id ∧ t.2.1 ≤ kv.2 := by
  induction l generalizing rem with
  | nil => simp [budgetPass2]
  | cons a t ih =>
    intro kv hkv
    rw [budgetPass2] at hkv
    by_cases h1 : rem ≤ 0
    · rw [if_pos h1] at hkv
      rcases List.mem_cons.mp hkv with h | h
      · exact ⟨a, by simp, by simp [h], by simp [h]⟩
      · obtain ⟨u, hu, he⟩ := ih rem kv h
        exact ⟨u, by simp [hu], he⟩
    · rw [if_neg h1] at hkv
      by_cases h2 : a.2.2 ≤ 0
      · rw [if_pos h2] at hkv
        rcases List.mem_cons.mp hkv with h | h
        · exact ⟨a, by simp, by simp [h], by simp [h]⟩
        · obtain ⟨u, hu, he⟩ := ih rem kv h
          exact ⟨u, by simp [hu], he⟩
      · rw [if_neg h2] at hkv
        rcases List.mem_cons.mp hkv with h | h
        · refine ⟨a, by simp, by simp [h], ?_⟩
          have : 0 < min a.2.2 rem := lt_min (by omega) (by omega)
          simp only [h]
          omega
        · obtain ⟨u, hu, he⟩ := ih (rem - min a.2.2 rem) kv h
          exact ⟨u, by simp [hu], he⟩

theorem enumFrom_indicator_sum_le (B : ℤ) : ∀ (n : ℕ) (l : List SourceConfig),
    intSum ((List.enumFrom n l).map
      (fun ie => if ((ie.1 : ℤ) < B) then (1 : ℤ) else 0)) ≤ max 0 (B - n) := by
  intro n l
  induction l generalizing n with
  | nil => simp [intSum, le_max_iff]
  | cons a t ih =>
    simp only [List.enumFrom, List.map_cons, intSum_cons]
    have h := ih (n + 1)
    push_cast at h ⊢
    split_ifs with hlt
    · omega
    · omega

/-- The allocator never hands out more than the (positive) total budget. -/
theorem budget_sum_le (prioritized : List SourceConfig)
    (limits : List (List Char × ℤ)) (B minp : ℤ) (hne : prioritized ≠ [])
    (hB : 1 ≤ B) :
    intSum ((build_budgeted_source_limits prioritized limits B minp).map
      (fun kv => kv.2)) ≤ B := by
  have hA : ¬(B ≤ 0 ∨ prioritized = []) := by
    push_neg
    exact ⟨by omega, hne⟩
  simp only [build_budgeted_source_limits]
  rw [if_neg hA]
  by_cases hTiny : B < (prioritized.length : ℤ)
  · rw [if_pos hTiny]
    have h := enumFrom_indicator_sum_le B 0 prioritized
    simp only [List.enum, List.map_map] at *
    calc intSum (List.map ((fun kv => kv.2) ∘ fun ie =>
          (ie.2.id, if (ie.1 : ℤ) < B then (1 : ℤ) else 0))
          (List.enumFrom 0 prioritized))
        = intSum (List.map (fun ie => if ((ie.1 : ℤ) < B) then (1 : ℤ) else 0)
            (List.enumFrom 0 prioritized)) := by
          congr 1
      _ ≤ max 0 (B - 0) := h
      _ ≤ B := by omega
  · rw [if_neg hTiny]
    set base : ℤ := if (prioritized.length : ℤ) * minp ≤ B then minp
      else max 1 (Int.fdiv B prioritized.length) with hbase
    have hcb : (prioritized.length : ℤ) * base ≤ B := by
      rw [hbase]
      split_ifs with hc
      · exact hc
      · have hlen : (1 : ℤ) ≤ (prioritized.length : ℤ) := by
          have : prioritized.length ≠ 0 := by
            simpa using (fun hl => hne (List.length_eq_zero.mp hl))
          omega
        have hfd : 1 ≤ Int.fdiv B prioritized.length := by
          have h2 : (prioritized.length : ℤ) ≤ B := by omega
          have := mul_fdiv_self_le (a := B) (T := (prioritized.length : ℤ))
            (by omega)
          by_contra hcon
          push_neg at hcon
          have hf0 : Int.fdiv B prioritized.length ≤ 0 := by omega
          have hmul : (prioritized.length : ℤ) *
              Int.fdiv B prioritized.length ≤ 0 := by
            exact mul_nonpos_of_nonneg_of_nonpos (by omega) hf0
          have hfm := Int.fmod_lt_of_pos B
            (b := (prioritized.length : ℤ)) (by omega)
          have heq := Int.fdiv_add_fmod B (prioritized.length : ℤ)
          omega
        rw [max_eq_right hfd]
        exact mul_fdiv_self_le (by omega)
    have halloc0 : intSum ((prioritized.map (fun s =>
        (s, min base (max 0 (capOf limits s.id base))))).map
          (fun sa => sa.2)) ≤ (prioritized.length : ℤ) * base := by
      rw [List.map_map]
      have := intSum_le_card_mul prioritized
        ((fun sa => sa.2) ∘ (fun s =>
          (s, min base (max 0 (capOf limits s.id base))))) base
        (fun s _ => by simp [min_le_left])
      simpa using this
    set A0 := List.map (fun s =>
      (s, base ⊓ (0 ⊔ capOf limits s.id base))) prioritized with hA0
    set used := intSum (List.map (fun sa => sa.2) A0) with hused
    have husedB : used ≤ B := le_trans halloc0 hcb
    set RM := List.map (fun sa =>
      (sa.1, sa.2, 0 ⊔ (capOf limits sa.1.id sa.2 - sa.2))) A0 with hRM
    have hRMnn : ∀ t ∈ RM, (0 : ℤ) ≤ t.2.2 := by
      intro t ht
      rw [hRM] at ht
      obtain ⟨sa, _, he⟩ := List.mem_map.mp ht
      rw [← he]
      exact le_max_left _ _
    set T := intSum (List.map (fun t => t.2.2) RM) with hT
    by_cases hR0 : 0 ⊔ (B - used) = 0
    · rw [if_pos hR0]
      rw [List.map_map]
      have : intSum (List.map ((fun kv : List Char × ℤ => kv.2) ∘
          (fun sa : SourceConfig × ℤ => (sa.1.id, sa.2))) A0) = used := by
        rw [hused]
        rfl
      rw [this]
      exact husedB
    · rw [if_neg hR0]
      by_cases hT0 : T ≤ 0
      · rw [if_pos hT0]
        rw [List.map_map]
        have : intSum (List.map ((fun kv : List Char × ℤ => kv.2) ∘
            (fun sa : SourceConfig × ℤ => (sa.1.id, sa.2))) A0) = used := by
          rw [hused]
          rfl
        rw [this]
        exact husedB
      · rw [if_neg hT0]
        have hTpos : 0 < T := by omega
        have hTmax : T ⊔ 1 = T := by omega
        set R := 0 ⊔ (B - used) with hRdef
        have hRB : R = B - used := by omega
        have hRpos : 0 ≤ R := le_max_left _ _
        set addf : SourceConfig × ℤ × ℤ → ℤ := fun t =>
          if t.2.2 ≤ 0 then 0 else t.2.2 ⊓ ((R * t.2.2).fdiv (T ⊔ 1))
          with haddf
        have haddle : ∀ t ∈ RM, addf t ≤ (R * t.2.2).fdiv T := by
          intro t ht
          rw [haddf]
          simp only
          split_ifs with hr
          · have hz : t.2.2 = 0 := le_antisymm hr (hRMnn t ht)
            rw [hz]
            simp
          · rw [hTmax]
            exact min_le_right _ _
        have hspent_le : intSum (RM.map addf) ≤ R := by
          have h1 : intSum (RM.map addf) ≤
              intSum (RM.map (fun t => (R * t.2.2).fdiv T)) :=
            intSum_map_le RM addf _ haddle
          have h2 : intSum (RM.map (fun t => (R * t.2.2).fdiv T)) ≤
              (intSum (RM.map (fun t => R * t.2.2))).fdiv T :=
            intSum_fdiv_le RM (fun t => R * t.2.2) T hTpos
          have h3 : intSum (RM.map (fun t => R * t.2.2)) = R * T := by
            rw [intSum_map_mul_left, ← hT]
          have h4 : (R * T).fdiv T = R := Int.mul_fdiv_cancel R (by omega)
          rw [h3, h4] at h2
          linarith
        have hspent_nn : 0 ≤ intSum (RM.map addf) := by
          apply intSum_nonneg
          intro x hx
          obtain ⟨t, ht, he⟩ := List.mem_map.mp hx
          rw [← he, haddf]
          simp only
          split_ifs with hr
          · exact le_refl 0
          · have hroom : 0 ≤ t.2.2 := hRMnn t ht
            have : 0 ≤ (R * t.2.2).fdiv (T ⊔ 1) :=
              Int.fdiv_nonneg (by positivity) (by omega)
            exact le_min hroom this
        have hlam : (fun t : SourceConfig × ℤ × ℤ =>
            (t.1, t.2.1 + (if t.2.2 ≤ 0 then (0 : ℤ)
                else t.2.2 ⊓ ((R * t.2.2).fdiv (T ⊔ 1))),
              t.2.2 - (if t.2.2 ≤ 0 then (0 : ℤ)
                else t.2.2 ⊓ ((R * t.2.2).fdiv (T ⊔ 1))))) =
            (fun t => (t.1, t.2.1 + addf t, t.2.2 - addf t)) := rfl
        rw [hlam]
        set AP1 := RM.map (fun t => (t.1, t.2.1 + addf t, t.2.2 - addf t))
          with hAP1
        have hc2 : intSum (RM.map (fun t => t.2.1)) = used := by
          rw [hRM, List.map_map, hused]
          rfl
        have hS1 : intSum (AP1.map (fun t => t.2.1)) =
            used + intSum (RM.map addf) := by
          rw [hAP1, List.map_map]
          have hc : ((fun t : SourceConfig × ℤ × ℤ => t.2.1) ∘
              (fun t : SourceConfig × ℤ × ℤ =>
                (t.1, t.2.1 + addf t, t.2.2 - addf t))) =
              (fun t => t.2.1 + addf t) := rfl
          rw [hc, intSum_map_add, hc2]
        have hfinal := budgetPass2_sum_le AP1
          (R - (intSum (AP1.map (fun t => t.2.1)) -
            intSum (RM.map (fun t => t.2.1))))
        refine le_trans hfinal ?_
        rw [hS1, hc2]
        omega

/-- When the budget covers `count * min_per_source` and every per-source
cap is at least `min_per_source`, every source is allocated at least
`min_per_source`. -/
theorem budget_min_coverage (prioritized : List SourceConfig)
    (limits : List (List Char × ℤ)) (B minp : ℤ) (hne : prioritized ≠ [])
    (hminp : 1 ≤ minp) (hcov : (prioritized.length : ℤ) * minp ≤ B)
    (hcaps : ∀ s ∈ prioritized, minp ≤ capOf limits s.id minp) :
    ∀ kv ∈ build_budgeted_source_limits prioritized limits B minp,
      minp ≤ kv.2 := by
  have hlen : (1 : ℤ) ≤ (prioritized.length : ℤ) := by
    have : prioritized.length ≠ 0 := by
      simpa using (fun hl => hne (List.length_eq_zero.mp hl))
    omega
  have hcb : (prioritized.length : ℤ) ≤ B := by nlinarith
  have hA : ¬(B ≤ 0 ∨ prioritized = []) := by
    push_neg
    exact ⟨by omega, hne⟩
  have hTiny : ¬B < (prioritized.length : ℤ) := by omega
  simp only [build_budgeted_source_limits]
  rw [if_neg hA, if_neg hTiny]
  set base : ℤ := if (prioritized.length : ℤ) * minp ≤ B then minp
    else max 1 (Int.fdiv B prioritized.length) with hbase
  have hbmin : base = minp := by
    rw [hbase, if_pos hcov]
  have halloc : ∀ s ∈ prioritized,
      base ⊓ (0 ⊔ capOf limits s.id base) = minp := by
    intro s hs
    rw [hbmin]
    have h1 := hcaps s hs
    have h2 : (0 : ℤ) ⊔ capOf limits s.id minp = capOf limits s.id minp := by
      omega
    rw [h2]
    omega
  intro kv hkv
  split_ifs at hkv with hR0 hT0
  · obtain ⟨sa, hsa, he⟩ := List.mem_map.mp hkv
    obtain ⟨s, hsp, he2⟩ := List.mem_map.mp hsa
    rw [← he]
    simp only
    rw [← he2]
    simp only
    rw [halloc s hsp]
  · obtain ⟨sa, hsa, he⟩ := List.mem_map.mp hkv
    obtain ⟨s, hsp, he2⟩ := List.mem_map.mp hsa
    rw [← he]
    simp only
    rw [← he2]
    simp only
    rw [halloc s hsp]
  · obtain ⟨t, ht, hid, hle⟩ := budgetPass2_mem _ _ kv hkv
    refine le_trans ?_ hle
    obtain ⟨rm, hrm, he⟩ := List.mem_map.mp ht
    obtain ⟨sa, hsa, he2⟩ := List.mem_map.mp hrm
    obtain ⟨s, hsp, he3⟩ := List.mem_map.mp hsa
    have hroom : (0 : ℤ) ≤ rm.2.2 := by
      rw [← he2]
      simp only
      exact le_max_left _ _
    have haddnn : (0 : ℤ) ≤ (if rm.2.2 ≤ 0 then (0 : ℤ)
        else rm.2.2 ⊓ ((((0 : ℤ) ⊔ (B - intSum (List.map (fun sa => sa.2)
          (List.map (fun s => (s, base ⊓ (0 ⊔ capOf limits s.id base)))
            prioritized)))) * rm.2.2).fdiv
          ((intSum (List.map (fun t => t.2.2)
            (List.map (fun sa =>
              (sa.1, sa.2, 0 ⊔ (capOf limits sa.1.id sa.2 - sa.2)))
              (List.map (fun s => (s, base ⊓ (0 ⊔ capOf limits s.id base)))
                prioritized)))) ⊔ 1))) := by
      split_ifs with hr
      · exact le_refl 0
      · refine le_min (by omega) ?_
        refine Int.fdiv_nonneg ?_ (by omega)
        have : (0 : ℤ) ≤ (0 : ℤ) ⊔ (B - intSum (List.map (fun sa => sa.2)
            (List.map (fun s => (s, base ⊓ (0 ⊔ capOf limits s.id base)))
              prioritized))) := le_max_left _ _
        positivity
    have hval : rm.2.1 = minp := by
      rw [← he2]
      simp only
      rw [← he3]
      simp only
      exact halloc s hsp
    rw [← he]
    simp only
    rw [hval]
    omega

theorem fdiv_le_fdiv_num {a b T : ℤ} (h : a ≤ b) (hT : 0 < T) :
    a.fdiv T ≤ b.fdiv T := by
  rw [Int.fdiv_eq_ediv _ hT.le, Int.fdiv_eq_ediv _ hT.le]
  exact Int.ediv_le_ediv hT h

theorem mul_fdiv_cancel_left_pos {T : ℤ} (r : ℤ) (hT : 0 < T) :
    (T * r).fdiv T = r := by
  rw [Int.fdiv_eq_ediv _ hT.le]
  exact Int.mul_ediv_cancel_left r (ne_of_gt hT)

theorem add_mul_fdiv_right_pos (a b : ℤ) {T : ℤ} (hT : 0 < T) :
    (a + b * T).fdiv T = a.fdiv T + b := by
  rw [Int.fdiv_eq_ediv _ hT.le, Int.fdiv_eq_ediv _ hT.le]
  exact Int.add_mul_ediv_right a b (ne_of_gt hT)

/-- Pass-1 proportional adds are monotone in the room, and so are the
leftover rooms. -/
theorem p1AddMono (R T r1 r2 : ℤ) (hR : 0 ≤ R) (hT : 0 < T) (h1 : 0 ≤ r1)
    (h12 : r1 ≤ r2) :
    (if r1 ≤ 0 then 0 else min r1 (Int.fdiv (R * r1) T)) ≤
        (if r2 ≤ 0 then 0 else min r2 (Int.fdiv (R * r2) T)) ∧
      r1 - (if r1 ≤ 0 then 0 else min r1 (Int.fdiv (R * r1) T)) ≤
        r2 - (if r2 ≤ 0 then 0 else min r2 (Int.fdiv (R * r2) T)) := by
  have h2 : 0 ≤ r2 := le_trans h1 h12
  have hnn1 : 0 ≤ (R * r1).fdiv T := Int.fdiv_nonneg (mul_nonneg hR h1) hT.le
  have hnn2 : 0 ≤ (R * r2).fdiv T := Int.fdiv_nonneg (mul_nonneg hR h2) hT.le
  have hff : (R * r1).fdiv T ≤ (R * r2).fdiv T :=
    fdiv_le_fdiv_num (mul_le_mul_of_nonneg_left h12 hR) hT
  by_cases hRT : R ≤ T
  · have hf1 : (R * r1).fdiv T ≤ r1 := by
      calc (R * r1).fdiv T ≤ (T * r1).fdiv T :=
            fdiv_le_fdiv_num (mul_le_mul_of_nonneg_right hRT h1) hT
        _ = r1 := mul_fdiv_cancel_left_pos r1 hT
    have hf2 : (R * r2).fdiv T ≤ r2 := by
      calc (R * r2).fdiv T ≤ (T * r2).fdiv T :=
            fdiv_le_fdiv_num (mul_le_mul_of_nonneg_right hRT h2) hT
        _ = r2 := mul_fdiv_cancel_left_pos r2 hT
    have hub : R * r2 ≤ R * r1 + (r2 - r1) * T := by nlinarith
    have hstep : (R * r2).fdiv T ≤ (R * r1).fdiv T + (r2 - r1) := by
      calc (R * r2).fdiv T ≤ (R * r1 + (r2 - r1) * T).fdiv T :=
            fdiv_le_fdiv_num hub hT
        _ = (R * r1).fdiv T + (r2 - r1) := add_mul_fdiv_right_pos _ _ hT
    constructor <;> (split_ifs <;> omega)
  · push_neg at hRT
    have hf1 : r1 ≤ (R * r1).fdiv T := by
      calc r1 = (T * r1).fdiv T := (mul_fdiv_cancel_left_pos r1 hT).symm
        _ ≤ (R * r1).fdiv T :=
            fdiv_le_fdiv_num (mul_le_mul_of_nonneg_right hRT.le h1) hT
    have hf2 : r2 ≤ (R * r2).fdiv T := by
      calc r2 = (T * r2).fdiv T := (mul_fdiv_cancel_left_pos r2 hT).symm
        _ ≤ (R * r2).fdiv T :=
            fdiv_le_fdiv_num (mul_le_mul_of_nonneg_right hRT.le h2) hT
    constructor <;> (split_ifs <;> omega)

theorem budgetPass2_cons (x : SourceConfig × ℤ × ℤ)
    (rest : List (SourceConfig × ℤ × ℤ)) (rem : ℤ) :
    budgetPass2 (x :: rest) rem =
      (x.1.id, x.2.1 +
        (if rem ≤ 0 then 0 else if x.2.2 ≤ 0 then 0 else min x.2.2 rem)) ::
      budgetPass2 rest
        (rem -
          (if rem ≤ 0 then 0 else if x.2.2 ≤ 0 then 0
            else min x.2.2 rem)) := by
  simp only [budgetPass2]
  split_ifs with h1 h2 <;> simp

/-- If both the pass-1 allocations and the leftover rooms are weakly
decreasing along the priority order, the pass-2 fill keeps the final
allocations weakly decreasing. -/
theorem budgetPass2_chain (l : List (SourceConfig × ℤ × ℤ)) (rem : ℤ)
    (hv : List.Chain' (fun a b => b.2.1 ≤ a.2.1) l)
    (hw : List.Chain' (fun a b => b.2.2 ≤ a.2.2) l) :
    List.Chain' (fun a b : List Char × ℤ => b.2 ≤ a.2)
      (budgetPass2 l rem) := by
  induction l generalizing rem with
  | nil => simp [budgetPass2]
  | cons x t ih =>
    rw [budgetPass2_cons, List.chain'_cons']
    refine ⟨?_, ih _ (List.chain'_cons'.mp hv).2 (List.chain'_cons'.mp hw).2⟩
    intro z hz
    cases t with
    | nil => simp [budgetPass2] at hz
    | cons y rest =>
      rw [budgetPass2_cons] at hz
      simp only [List.head?_cons, Option.mem_def, Option.some_inj] at hz
      have hv1 : y.2.1 ≤ x.2.1 := (List.chain'_cons.mp hv).1
      have hw1 : y.2.2 ≤ x.2.2 := (List.chain'_cons.mp hw).1
      rw [← hz]
      simp only
      split_ifs <;> omega

theorem capOf_dflt_self (limits : List (List Char × ℤ)) (sid : List Char)
    (m : ℤ) :
    capOf limits sid (min m (max 0 (capOf limits sid m))) =
      capOf limits sid m := by
  cases h : alookup sid limits <;> simp [capOf, h]

/-- When the budget covers `count * min_per_source` and the per-source
caps are weakly decreasing along the priority order, the allocated
quotas are weakly decreasing along the priority order: a
higher-priority source never receives less than a lower-priority one. -/
theorem budget_alloc_chain (prioritized : List SourceConfig)
    (limits : List (List Char × ℤ)) (B minp : ℤ) (hne : prioritized ≠ [])
    (hminp : 1 ≤ minp) (hcov : (prioritized.length : ℤ) * minp ≤ B)
    (hchain : List.Chain' (fun a b =>
      capOf limits b.id minp ≤ capOf limits a.id minp) prioritized) :
    List.Chain' (fun a b : List Char × ℤ => b.2 ≤ a.2)
      (build_budgeted_source_limits prioritized limits B minp) := by
  have hlen : (1 : ℤ) ≤ (prioritized.length : ℤ) := by
    have : prioritized.length ≠ 0 := by
      simpa using (fun hl => hne (List.length_eq_zero.mp hl))
    omega
  have hcb : (prioritized.length : ℤ) ≤ B := by nlinarith
  have hA : ¬(B ≤ 0 ∨ prioritized = []) := by
    push_neg
    exact ⟨by omega, hne⟩
  have hTiny : ¬B < (prioritized.length : ℤ) := by omega
  simp only [build_budgeted_source_limits]
  rw [if_neg hA, if_neg hTiny]
  set base : ℤ := if (prioritized.length : ℤ) * minp ≤ B then minp
    else max 1 (Int.fdiv B prioritized.length) with hbase
  have hbmin : base = minp := by
    rw [hbase, if_pos hcov]
  rw [hbmin]
  split_ifs with hR0 hT0
  · rw [List.map_map, List.chain'_map]
    refine List.Chain'.imp ?_ hchain
    intro a b hab
    simp only [Function.comp_apply]
    omega
  · rw [List.map_map, List.chain'_map]
    refine List.Chain'.imp ?_ hchain
    intro a b hab
    simp only [Function.comp_apply]
    omega
  · apply budgetPass2_chain
    · rw [List.map_map, List.map_map, List.chain'_map]
      refine List.Chain'.imp ?_ hchain
      intro a b hab
      simp only [Function.comp_apply]
      rw [capOf_dflt_self limits b.id minp, capOf_dflt_self limits a.id minp]
      have hrooms : (0 : ℤ) ⊔ (capOf limits b.id minp -
          minp ⊓ (0 ⊔ capOf limits b.id minp)) ≤
          (0 : ℤ) ⊔ (capOf limits a.id minp -
            minp ⊓ (0 ⊔ capOf limits a.id minp)) := by omega
      have hrbnn : (0 : ℤ) ≤ (0 : ℤ) ⊔ (capOf limits b.id minp -
          minp ⊓ (0 ⊔ capOf limits b.id minp)) := le_max_left _ _
      have hmono := p1AddMono
        ((0 : ℤ) ⊔ (B - intSum (List.map (fun sa => sa.2)
          (List.map (fun s => (s, minp ⊓ (0 ⊔ capOf limits s.id minp)))
            prioritized))))
        ((intSum (List.map (fun t => t.2.2)
          (List.map (fun sa =>
            (sa.1, sa.2, 0 ⊔ (capOf limits sa.1.id sa.2 - sa.2)))
            (List.map (fun s => (s, minp ⊓ (0 ⊔ capOf limits s.id minp)))
              prioritized)))) ⊔ 1)
        _ _ (le_max_left _ _) (by omega) hrbnn hrooms
      have hvv : minp ⊓ (0 ⊔ capOf limits b.id minp) ≤
          minp ⊓ (0 ⊔ capOf limits a.id minp) := by omega
      exact add_le_add hvv hmono.1
    · rw [List.map_map, List.map_map, List.chain'_map]
      refine List.Chain'.imp ?_ hchain
      intro a b hab
      simp only [Function.comp_apply]
      rw [capOf_dflt_self limits b.id minp, capOf_dflt_self limits a.id minp]
      have hrooms : (0 : ℤ) ⊔ (capOf limits b.id minp -
          minp ⊓ (0 ⊔ capOf limits b.id minp)) ≤
          (0 : ℤ) ⊔ (capOf limits a.id minp -
            minp ⊓ (0 ⊔ capOf limits a.id minp)) := by omega
      have hrbnn : (0 : ℤ) ≤ (0 : ℤ) ⊔ (capOf limits b.id minp -
          minp ⊓ (0 ⊔ capOf limits b.id minp)) := le_max_left _ _
      have hmono := p1AddMono
        ((0 : ℤ) ⊔ (B - intSum (List.map (fun sa => sa.2)
          (List.map (fun s => (s, minp ⊓ (0 ⊔ capOf limits s.id minp)))
            prioritized))))
        ((intSum (List.map (fun t => t.2.2)
          (List.map (fun sa =>
            (sa.1, sa.2, 0 ⊔ (capOf limits sa.1.id sa.2 - sa.2)))
            (List.map (fun s => (s, minp ⊓ (0 ⊔ capOf limits s.id minp)))
              prioritized)))) ⊔ 1)
        _ _ (le_max_left _ _) (by omega) hrbnn hrooms
      exact hmono.2

/-- **C9** (amended).  For a non-empty prioritized source list, a budget
`B ≥ 1` and a positive `min_per_source`: (i) the aggregate allocation of
`build_budgeted_source_limits` never exceeds the total budget; (ii)
whenever the budget covers `count · min_per_source` and every per-source
cap is at least `min_per_source`, every source is allocated at least
`min_per_source`; (iii) whenever the budget covers
`count · min_per_source` and the per-source caps are weakly decreasing
along the priority order (as produced by `build_source_fetch_limits` on
the ranked list), the allocations are weakly decreasing along the
priority order, so a higher-priority source never receives less quota
than a lower-priority one.  (The original claim's unconditional
minimum-per-source reservation is refuted by the counterexample, and the
code reserves no exploration fraction for untested sources.) -/
theorem C9_budget_allocator (prioritized : List SourceConfig)
    (limits : List (List Char × ℤ)) (B minp : ℤ)
    (hne : prioritized ≠ []) (hB : 1 ≤ B) (hminp : 1 ≤ minp) :
    intSum ((build_budgeted_source_limits prioritized limits B minp).map
      (fun kv => kv.2)) ≤ B ∧
    ((prioritized.length : ℤ) * minp ≤ B →
      (∀ s ∈ prioritized, minp ≤ capOf limits s.id minp) →
      ∀ kv ∈ build_budgeted_source_limits prioritized limits B minp,
        minp ≤ kv.2) ∧
    ((prioritized.length : ℤ) * minp ≤ B →
      List.Chain' (fun a b =>
        capOf limits b.id minp ≤ capOf limits a.id minp) prioritized →
      List.Chain' (fun a b : List Char × ℤ => b.2 ≤ a.2)
        (build_budgeted_source_limits prioritized limits B minp)) :=
  ⟨budget_sum_le prioritized limits B minp hne hB,
    fun hcov hcaps =>
      budget_min_coverage prioritized limits B minp hne hminp hcov hcaps,
    fun hcov hch =>
      budget_alloc_chain prioritized limits B minp hne hminp hcov hch⟩

/-- **C9 counterexample.**  With four prioritized sources, a positive
total budget of 2 and `min_per_source = 3`, the allocator assigns source
`s2` zero items, strictly below the configured minimum per source: the
original claim's unconditional "reserving at least the configured
minimum number of items per source" fails. -/
theorem C9_budget_allocator_counterexample :
    (0 : ℤ) < 2 ∧
      alookup (("s2").toList)
        (build_budgeted_source_limits c9sources c9limits 2 3) =
          some 0 ∧
      ¬((3 : ℤ) ≤ 0) := by decide

/-- **C9 witness.**  The amended theorem applied to the repository's own
test scenario: four sources with caps 30/20/10/10, budget 12,
`min_per_source = 2`. -/
theorem C9_budget_allocator_witness :
    intSum ((build_budgeted_source_limits c9sources c9limits 12 2).map
      (fun kv => kv.2)) ≤ 12 ∧
    (∀ kv ∈ build_budgeted_source_limits c9sources c9limits 12 2,
      (2 : ℤ) ≤ kv.2) ∧
    List.Chain' (fun a b : List Char × ℤ => b.2 ≤ a.2)
      (build_budgeted_source_limits c9sources c9limits 12 2) := by
  obtain ⟨h1, h2, h3⟩ := C9_budget_allocator c9sources c9limits 12 2
    (by decide) (by decide) (by decide)
  refine ⟨h1, h2 (by decide) (by decide), h3 (by decide) ?_⟩
  unfold c9sources
  refine List.chain'_cons.mpr ⟨by decide, ?_⟩
  refine List.chain'_cons.mpr ⟨by decide, ?_⟩
  refine List.chain'_cons.mpr ⟨by decide, ?_⟩
  simp

/-! ### Helper lemmas for the type-preference reorder -/

theorem sweepCarry_not_changed (gap : ℚ) (cur : EnrichedCand)
    (l : List EnrichedCand) (h : (sweepCarry gap cur l).2 = false) :
    (sweepCarry gap cur l).1 = cur :: l := by
  induction l generalizing cur with
  | nil => simp [sweepCarry]
  | cons b rest ih =>
    simp only [sweepCarry] at h ⊢
    by_cases hv : gap < b.cand.scored.score - cur.cand.scored.score
    · simp [if_pos hv] at h
    · simp only [if_neg hv] at h ⊢
      rw [ih b h]

theorem sweepCarry_perm (gap : ℚ) (cur : EnrichedCand)
    (l : List EnrichedCand) :
    List.Perm (sweepCarry gap cur l).1 (cur :: l) := by
  induction l generalizing cur with
  | nil => simp [sweepCarry]
  | cons b rest ih =>
    simp only [sweepCarry]
    by_cases hv : gap < b.cand.scored.score - cur.cand.scored.score
    · simp only [if_pos hv]
      exact ((ih cur).cons b).trans (List.Perm.swap cur b rest)
    · simp only [if_neg hv]
      exact (ih b).cons cur

theorem sweepCarry_chain (gap : ℚ) (cur : EnrichedCand)
    (l : List EnrichedCand) (h : (sweepCarry gap cur l).2 = false) :
    List.Chain' (fun a b =>
      b.cand.scored.score - a.cand.scored.score ≤ gap) (cur :: l) := by
  induction l generalizing cur with
  | nil => simp
  | cons b rest ih =>
    simp only [sweepCarry] at h
    by_cases hv : gap < b.cand.scored.score - cur.cand.scored.score
    · simp [if_pos hv] at h
    · simp only [if_neg hv] at h
      exact List.chain'_cons.mpr ⟨not_lt.mp hv, ih b h⟩

theorem sweepCarry_countViol_le (gap : ℚ) (hg : 0 ≤ gap)
    (cur : EnrichedCand) (l : List EnrichedCand) :
    countViol gap (sweepCarry gap cur l).1 ≤ countViol gap (cur :: l) := by
  induction l generalizing cur with
  | nil => simp [sweepCarry]
  | cons b rest ih =>
    simp only [sweepCarry]
    by_cases hv : gap < b.cand.scored.score - cur.cand.scored.score
    · simp only [if_pos hv]
      have hcnt := (sweepCarry_perm gap cur rest).countP_eq
        (fun x => decide (gap < x.cand.scored.score - b.cand.scored.score))
      have hbc : ¬(gap < cur.cand.scored.score - b.cand.scored.score) := by
        linarith
      have hih := ih cur
      simp only [countViol, List.countP_cons, hcnt, decide_eq_true_eq,
        if_pos hv, if_neg hbc] at *
      omega
    · simp only [if_neg hv]
      have hcnt := (sweepCarry_perm gap b rest).countP_eq
        (fun x => decide (gap < x.cand.scored.score - cur.cand.scored.score))
      have hih := ih b
      simp only [countViol, List.countP_cons, hcnt, decide_eq_true_eq,
        if_neg hv] at *
      omega

theorem sweepCarry_countViol_lt (gap : ℚ) (hg : 0 ≤ gap)
    (cur : EnrichedCand) (l : List EnrichedCand)
    (hch : (sweepCarry gap cur l).2 = true) :
    countViol gap (sweepCarry gap cur l).1 < countViol gap (cur :: l) := by
  induction l generalizing cur with
  | nil => simp [sweepCarry] at hch
  | cons b rest ih =>
    simp only [sweepCarry] at hch ⊢
    by_cases hv : gap < b.cand.scored.score - cur.cand.scored.score
    · simp only [if_pos hv]
      have hcnt := (sweepCarry_perm gap cur rest).countP_eq
        (fun x => decide (gap < x.cand.scored.score - b.cand.scored.score))
      have hbc : ¬(gap < cur.cand.scored.score - b.cand.scored.score) := by
        linarith
      have hle := sweepCarry_countViol_le gap hg cur rest
      simp only [countViol, List.countP_cons, hcnt, decide_eq_true_eq,
        if_pos hv, if_neg hbc] at *
      omega
    · simp only [if_neg hv] at hch ⊢
      have hcnt := (sweepCarry_perm gap b rest).countP_eq
        (fun x => decide (gap < x.cand.scored.score - cur.cand.scored.score))
      have hih := ih b hch
      simp only [countViol, List.countP_cons, hcnt, decide_eq_true_eq,
        if_neg hv] at *
      omega

theorem sweepLoop_fixpoint (gap : ℚ) (hg : 0 ≤ gap) :
    ∀ (fuel : Nat) (l : List EnrichedCand), countViol gap l < fuel →
      sweepGuard gap (sweepLoop gap fuel l) =
        (sweepLoop gap fuel l, false) := by
  intro fuel
  induction fuel with
  | zero => intro l h; omega
  | succ n ih =>
    intro l h
    rcases l with _ | ⟨a, rest⟩
    · simp [sweepLoop, sweepGuard]
    · by_cases hc : (sweepCarry gap a rest).2 = true
      · have hm := sweepCarry_countViol_lt gap hg a rest hc
        simp only [sweepLoop, sweepGuard, hc, if_true]
        refine ih _ ?_
        have hin : countViol gap (a :: rest) < n + 1 := h
        omega
      · have hflag : (sweepCarry gap a rest).2 = false := by
          simpa using hc
        have hfix := sweepCarry_not_changed gap a rest hflag
        simp only [sweepLoop, sweepGuard, hflag, Bool.false_eq_true,
          if_false]
        rw [hfix]
        simp only [sweepGuard]
        rw [Prod.ext_iff]
        exact ⟨hfix, hflag⟩

theorem sweepLoop_perm (gap : ℚ) :
    ∀ (fuel : Nat) (l : List EnrichedCand),
      List.Perm (sweepLoop gap fuel l) l := by
  intro fuel
  induction fuel with
  | zero => intro l; simp [sweepLoop]
  | succ n ih =>
    intro l
    rcases l with _ | ⟨a, rest⟩
    · simp [sweepLoop, sweepGuard]
    · by_cases hc : (sweepCarry gap a rest).2 = true
      · simp only [sweepLoop, sweepGuard, hc, if_true]
        exact (ih _).trans (sweepCarry_perm gap a rest)
      · simp only [sweepLoop, sweepGuard, hc, if_false]
        exact sweepCarry_perm gap a rest

theorem sweepGuard_chain (gap : ℚ) (m : List EnrichedCand)
    (h : (sweepGuard gap m).2 = false) :
    List.Chain' (fun a b =>
      b.cand.scored.score - a.cand.scored.score ≤ gap) m := by
  rcases m with _ | ⟨a, rest⟩
  · simp
  · exact sweepCarry_chain gap a rest h

theorem insertDescBy_perm (x : EnrichedCand) (l : List EnrichedCand) :
    List.Perm (insertDescBy x l) (x :: l) := by
  induction l with
  | nil => simp [insertDescBy]
  | cons y ys ih =>
    simp only [insertDescBy]
    by_cases h : keyLtB (enrichedKey y) (enrichedKey x) = true
    · rw [if_pos h]
    · rw [if_neg h]
      exact (ih.cons y).trans (List.Perm.swap x y ys)

theorem sortEnrichedDesc_perm (l : List EnrichedCand) :
    List.Perm (sortEnrichedDesc l) l := by
  suffices h : ∀ (t acc : List EnrichedCand),
      List.Perm (t.foldl (fun acc x => insertDescBy x acc) acc) (t ++ acc) by
    simpa [sortEnrichedDesc] using h l []
  intro t
  induction t with
  | nil => intro acc; simp
  | cons x u ih =>
    intro acc
    simp only [List.foldl_cons]
    exact ((ih _).trans
      ((List.Perm.append_left u (insertDescBy_perm x acc)).trans
        List.perm_middle))

theorem countViol_le (gap : ℚ) (l : List EnrichedCand) :
    countViol gap l ≤ l.length * l.length := by
  induction l with
  | nil => simp [countViol]
  | cons a rest ih =>
    simp only [countViol, List.length_cons]
    have h1 := List.countP_le_length
      (fun b => decide (gap < b.cand.scored.score - a.cand.scored.score))
      (l := rest)
    nlinarith

/-- **C2** (amended).  The type-personalization reorder (i) returns the
input untouched (with reorder count 0) whenever personalization is
disabled — no candidates, empty multipliers or non-positive blend; (ii)
always returns a permutation of the input candidates; and (iii) with
personalization enabled and a positive quality-gap guard, enforces the
guard between *adjacent* output candidates: every candidate's base score
exceeds its predecessor's by at most the guard.  The source's bubble
pass only ever swaps adjacent pairs within the guard, but a chain of
such swaps can move a candidate past another whose score differs by more
than the guard, so the original claim's bound on every reordered *pair*
fails (see the counterexample). -/
theorem C2_reorder_quality_gap_guard (candidates : List RankedCand)
    (tm : List (List Char × ℚ)) (blend gap_guard : ℚ) :
    (candidates = [] ∨ tm = [] ∨ blend ≤ 0 →
      reorder_candidates_by_type_preference candidates tm blend
        gap_guard = (candidates, 0)) ∧
    List.Perm
      (reorder_candidates_by_type_preference candidates tm blend
        gap_guard).1 candidates ∧
    (candidates ≠ [] → tm ≠ [] → 0 < blend → 0 < gap_guard →
      List.Chain' (fun a b =>
          b.scored.score - a.scored.score ≤ gap_guard)
        (reorder_candidates_by_type_preference candidates tm blend
          gap_guard).1) := by
  refine ⟨?_, ?_, ?_⟩
  · intro h
    simp only [reorder_candidates_by_type_preference, if_pos h]
  · by_cases hd : candidates = [] ∨ tm = [] ∨ blend ≤ 0
    · simp only [reorder_candidates_by_type_preference, if_pos hd]
      exact List.Perm.refl _
    · simp only [reorder_candidates_by_type_preference, if_neg hd]
      set enr := candidates.map (fun c => (⟨c,
        personalized_quality_score c.scored.score c.scored.primary_type
          tm blend⟩ : EnrichedCand)) with henr
      have hordperm : List.Perm
          (if 0 < max 0 gap_guard then
            sweepLoop (max 0 gap_guard) (enr.length * enr.length + 1)
              (sortEnrichedDesc enr)
          else sortEnrichedDesc enr) enr := by
        split_ifs with hgap
        · exact (sweepLoop_perm _ _ _).trans (sortEnrichedDesc_perm enr)
        · exact sortEnrichedDesc_perm enr
      have he2 : enr.map (fun e => e.cand) = candidates := by
        rw [henr, List.map_map]
        exact List.map_id candidates
      exact (hordperm.map _).trans (he2 ▸ List.Perm.refl _)
  · intro h1 h2 h3 hgg
    have hd : ¬(candidates = [] ∨ tm = [] ∨ blend ≤ 0) := by
      push_neg
      exact ⟨h1, h2, h3⟩
    simp only [reorder_candidates_by_type_preference, if_neg hd]
    set enr := candidates.map (fun c => (⟨c,
      personalized_quality_score c.scored.score c.scored.primary_type
        tm blend⟩ : EnrichedCand)) with henr
    have hgap : (0 : ℚ) < max 0 gap_guard := lt_max_iff.mpr (Or.inr hgg)
    rw [if_pos hgap]
    have hmax : max 0 gap_guard = gap_guard := max_eq_right hgg.le
    rw [hmax]
    have hcv : countViol gap_guard (sortEnrichedDesc enr) <
        enr.length * enr.length + 1 := by
      have hb := countViol_le gap_guard (sortEnrichedDesc enr)
      have hl : (sortEnrichedDesc enr).length = enr.length :=
        (sortEnrichedDesc_perm enr).length_eq
      rw [hl] at hb
      omega
    have hfix := sweepLoop_fixpoint gap_guard hgg.le
      (enr.length * enr.length + 1) (sortEnrichedDesc enr) hcv
    have hflag : (sweepGuard gap_guard (sweepLoop gap_guard
        (enr.length * enr.length + 1) (sortEnrichedDesc enr))).2 =
          false := by
      rw [hfix]
    have hchain := sweepGuard_chain gap_guard _ hflag
    exact (List.chain'_map _).mpr hchain

/-- **C2 counterexample.**  Candidates with base scores 100, 95, 91 and
guard 8: the personalized sort reverses the order and both adjacent base
gaps (4 and 5) are inside the guard, so the sweep changes nothing — yet
the pair `(a, b)` ends up in the opposite relative order with a base
score gap of 9 > 8, refuting the original claim's bound on every
reordered pair. -/
theorem C2_reorder_quality_gap_guard_counterexample :
    (c2cands.map (fun c => c.scored.id)) =
      [("a").toList, ("m").toList, ("b").toList] ∧
    (c2cands.map (fun c => c.scored.score)) = [100, 95, 91] ∧
    ((reorder_candidates_by_type_preference c2cands c2mult 1 8).1.map
        (fun c => c.scored.id)) =
      [("b").toList, ("m").toList, ("a").toList] ∧
    ¬((100 : ℚ) - 91 ≤ 8) := by
  refine ⟨rfl, rfl, ?_, by norm_num⟩
  have hd : ¬(c2cands = [] ∨ c2mult = [] ∨ (1 : ℚ) ≤ 0) := by
    push_neg
    refine ⟨by decide, by decide, by norm_num⟩
  simp only [reorder_candidates_by_type_preference]
  rw [if_neg hd]
  norm_num [c2cands, c2mult,
    cexCand, cexScored, cexAssessment, personalized_quality_score,
    alookup, sortEnrichedDesc, insertDescBy, enrichedKey, keyLtB,
    sweepLoop, sweepGuard, sweepCarry, WORTH_MUST_READ,
    show (('a' : Char) = 'm') = False from by decide,
    show (('m' : Char) = 'a') = False from by decide,
    show (('a' : Char) = 'b') = False from by decide,
    show (('b' : Char) = 'a') = False from by decide,
    show (('m' : Char) = 'b') = False from by decide,
    show (('b' : Char) = 'm') = False from by decide]

/-- **C2 witness.**  The amended theorem at the repository's own
type-personalization test data (scores 80 and 76, blend 1/2, guard 8),
plus the disabled case with empty multipliers. -/
theorem C2_reorder_quality_gap_guard_witness :
    reorder_candidates_by_type_preference w2cands [] 1 8 =
      (w2cands, 0) ∧
    List.Perm (reorder_candidates_by_type_preference w2cands w2mult
      (1 / 2) 8).1 w2cands ∧
    List.Chain' (fun a b => b.scored.score - a.scored.score ≤ 8)
      (reorder_candidates_by_type_preference w2cands w2mult
        (1 / 2) 8).1 :=
  ⟨(C2_reorder_quality_gap_guard w2cands [] 1 8).1 (Or.inr (Or.inl rfl)),
    (C2_reorder_quality_gap_guard w2cands w2mult (1 / 2) 8).2.1,
    (C2_reorder_quality_gap_guard w2cands w2mult (1 / 2) 8).2.2
      (by decide) (by decide) (by norm_num) (by norm_num)⟩

/-! ### Helper lemmas for dedupe -/

/-- Induction workhorse for `dedupeGo`: the kept list only grows by a
subsequence of the remaining input, and kept + url-dropped +
title-dropped grows by exactly the number of consumed articles. -/
theorem dedupeGo_spec (θ : ℚ) :
    ∀ (l : List Article) (st st' : DedupeState),
      dedupeGo θ st l = some st' →
      (∃ app : List Article, st'.deduped = st.deduped ++ app ∧
        app.Sublist l) ∧
      st'.deduped.length + st'.url_dups + st'.title_dups =
        st.deduped.length + st.url_dups + st.title_dups + l.length := by
  intro l
  induction l with
  | nil =>
    intro st st' h
    simp only [dedupeGo, Option.some_inj] at h
    subst h
    exact ⟨⟨[], by simp, List.Sublist.refl _⟩, by simp⟩
  | cons a rest ih =>
    intro st st' h
    simp only [dedupeGo] at h
    split at h
    · simp at h
    · split at h
      · obtain ⟨⟨app, happ, hsub⟩, hcnt⟩ := ih _ _ h
        refine ⟨⟨app, by simpa using happ, hsub.cons a⟩, ?_⟩
        simp only [List.length_cons]
        simp at hcnt
        omega
      · split at h
        · obtain ⟨⟨app, happ, hsub⟩, hcnt⟩ := ih _ _ h
          refine ⟨⟨app, by simpa using happ, hsub.cons a⟩, ?_⟩
          simp only [List.length_cons]
          simp at hcnt
          omega
        · obtain ⟨⟨app, happ, hsub⟩, hcnt⟩ := ih _ _ h
          refine ⟨⟨a :: app, ?_, hsub.cons₂ a⟩, ?_⟩
          · simp at happ
            rw [happ]
          · simp only [List.length_cons]
            simp at hcnt
            omega

/-- **C10.**  `dedupe_articles` keeps a subsequence of its input (order
preserved), and when it completes, the returned statistics balance:
`total_input` is the input length, `kept` is the length of the returned
list, and kept + url-duplicates + title-duplicates equals the input
length. -/
theorem C10_dedupe_subsequence_and_stats (articles : List Article)
    (θ : ℚ) (out : List Article) (stats : DedupeStats)
    (h : dedupe_articles articles θ = some (out, stats)) :
    out.Sublist articles ∧
    stats.total_input = articles.length ∧
    stats.kept = out.length ∧
    stats.kept + stats.url_duplicates + stats.title_duplicates =
      articles.length := by
  simp only [dedupe_articles] at h
  cases hg : dedupeGo θ ⟨[], [], 0, 0, []⟩ articles with
  | none => rw [hg] at h; simp at h
  | some st =>
    rw [hg] at h
    simp only [Option.map_some', Option.some_inj, Prod.mk.injEq] at h
    obtain ⟨hout, hstats⟩ := h
    obtain ⟨⟨app, happ, hsub⟩, hcnt⟩ := dedupeGo_spec θ articles _ _ hg
    simp at happ hcnt
    rw [← hstats, ← hout]
    refine ⟨?_, rfl, rfl, ?_⟩
    · rw [happ]
      exact hsub
    · simpa using hcnt

/-- **C10 witness.**  A one-article run: the article is kept, the stats
balance as `1 = 1 + 0 + 0`. -/
theorem C10_dedupe_subsequence_and_stats_witness :
    [w4a].Sublist [w4a] ∧
    (⟨1, 1, 0, 0, []⟩ : DedupeStats).total_input = [w4a].length ∧
    (⟨1, 1, 0, 0, []⟩ : DedupeStats).kept = [w4a].length ∧
    (⟨1, 1, 0, 0, []⟩ : DedupeStats).kept +
        (⟨1, 1, 0, 0, []⟩ : DedupeStats).url_duplicates +
        (⟨1, 1, 0, 0, []⟩ : DedupeStats).title_duplicates =
      [w4a].length :=
  C10_dedupe_subsequence_and_stats [w4a] (93 / 100) [w4a]
    ⟨1, 1, 0, 0, []⟩ (by rfl)

theorem findSimilar_none (θ : ℚ) (t : List Char) :
    ∀ l, findSimilar θ t l = none →
      ∀ e ∈ l, title_similarity t e.title < θ := by
  intro l
  induction l with
  | nil => intro _ e he; simp at he
  | cons x rest ih =>
    intro h e he
    simp only [findSimilar] at h
    by_cases hx : θ ≤ title_similarity t x.title
    · rw [if_pos hx] at h
      simp at h
    · rw [if_neg hx] at h
      rcases List.mem_cons.mp he with he1 | he2
      · rw [he1]
        exact not_le.mp hx
      · exact ih h e he2

/-- The articles kept by the dedupe loop stay pairwise dissimilar: each
newly kept article's title is below the threshold against every earlier
kept title. -/
theorem dedupeGo_pairwise (θ : ℚ) :
    ∀ (l : List Article) (st st' : DedupeState),
      dedupeGo θ st l = some st' →
      st.deduped.Pairwise
        (fun x y => title_similarity y.title x.title < θ) →
      st'.deduped.Pairwise
        (fun x y => title_similarity y.title x.title < θ) := by
  intro l
  induction l with
  | nil =>
    intro st st' h hp
    simp only [dedupeGo, Option.some_inj] at h
    subst h
    exact hp
  | cons a rest ih =>
    intro st st' h hp
    simp only [dedupeGo] at h
    split at h
    · simp at h
    · split at h
      · exact ih _ _ h hp
      · split at h
        · exact ih _ _ h hp
        · rename_i hfs
          refine ih _ _ h ?_
          refine List.pairwise_append.mpr ⟨hp, by simp, ?_⟩
          intro x hx y hy
          simp only [List.mem_singleton] at hy
          rw [hy]
          exact findSimilar_none θ a.title st.deduped hfs x hx

set_option maxRecDepth 4000 in
theorem difflibRatio_hello :
    difflibRatio (("hello world").toList) (("hello world").toList) = 1 := by
  simp only [difflibRatio]
  rw [show (("hello world").toList).length = 11 from by decide]
  rw [if_neg (by norm_num)]
  rw [show matchTotal (11 + 11 + 1) (("hello world").toList)
    (("hello world").toList) 0 11 0 11 = 11 from by decide]
  norm_num

set_option maxRecDepth 4000 in
theorem difflibRatio_news :
    difflibRatio (("big ai news").toList)
      (("big ai news").toList) = 1 := by
  simp only [difflibRatio]
  rw [show (("big ai news").toList).length = 11 from by decide]
  rw [if_neg (by norm_num)]
  rw [show matchTotal (11 + 11 + 1) (("big ai news").toList)
    (("big ai news").toList) 0 11 0 11 = 11 from by decide]
  norm_num

theorem tsim_ac : title_similarity c4a.title c4c.title = 1 := by
  have h1 : normalized_title c4a.title = ("hello world").toList := by decide
  have h2 : normalized_title c4c.title = ("hello world").toList := by decide
  simp only [title_similarity, h1, h2, difflibRatio_hello]

theorem tsim_bc : title_similarity c4b.title c4c.title = 1 := by
  have h1 : normalized_title c4b.title = ("hello world").toList := by decide
  have h2 : normalized_title c4c.title = ("hello world").toList := by decide
  simp only [title_similarity, h1, h2, difflibRatio_hello]

theorem tsim_ab : title_similarity c4a.title c4b.title = 1 := by
  have h1 : normalized_title c4a.title = ("hello world").toList := by decide
  have h2 : normalized_title c4b.title = ("hello world").toList := by decide
  simp only [title_similarity, h1, h2, difflibRatio_hello]

theorem tsim_w : title_similarity w4b.title w4a.title = 1 := by
  have h1 : normalized_title w4b.title =
      ("big ai news").toList := by decide
  have h2 : normalized_title w4a.title =
      ("big ai news").toList := by decide
  simp only [title_similarity, h1, h2, difflibRatio_news]

/-- **C4** (amended).  (i) The kept output of `dedupe_articles` is
pairwise title-dissimilar: every later kept article's normalized title
is strictly below the threshold against every earlier kept one.  (ii)
For a pair of articles with distinct normalized URLs whose titles are
at least θ-similar, dedupe keeps exactly the first and drops the second
with reason `title_similar`.  The original "for every pair" form fails
for larger inputs because both members of a similar pair can be dropped
against an earlier kept article (see the counterexample). -/
theorem C4_title_dedupe (θ : ℚ) :
    (∀ (articles out : List Article) (stats : DedupeStats),
      dedupe_articles articles θ = some (out, stats) →
      out.Pairwise (fun x y => title_similarity y.title x.title < θ)) ∧
    (∀ (a b : Article) (na nb : List Char),
      normalize_url a.url = some na → normalize_url b.url = some nb →
      na ≠ nb → θ ≤ title_similarity b.title a.title →
      dedupe_articles [a, b] θ =
        some ([a], ⟨2, 1, 0, 1,
          [titleDupItem b a (title_similarity b.title a.title)]⟩)) := by
  constructor
  · intro articles out stats h
    simp only [dedupe_articles] at h
    cases hg : dedupeGo θ ⟨[], [], 0, 0, []⟩ articles with
    | none => rw [hg] at h; simp at h
    | some st =>
      rw [hg] at h
      simp only [Option.map_some', Option.some_inj, Prod.mk.injEq] at h
      obtain ⟨hout, _⟩ := h
      rw [← hout]
      exact dedupeGo_pairwise θ articles _ _ hg (by simp)
  · intro a b na nb h1 h2 hne hsim
    simp only [dedupe_articles, dedupeGo, h1, h2, alookup, findSimilar,
      eq_false hne, eq_true hsim, if_true, if_false]
    simp

/-- **C4 counterexample.**  Three articles with identically normalized
titles and distinct URLs: the pair `(c4a, c4b)` is ≥ 0.93-similar with
distinct normalized URLs, yet dedupe keeps *neither* of the two — both
are dropped against the earlier `c4c` — refuting "keeps exactly one of
the two" for arbitrary inputs. -/
theorem C4_title_dedupe_counterexample :
    (93 / 100 : ℚ) ≤ title_similarity c4b.title c4a.title ∧
    normalize_url c4a.url ≠ normalize_url c4b.url ∧
    dedupe_articles [c4c, c4a, c4b] (93 / 100) =
      some ([c4c], ⟨3, 1, 0, 2,
        [titleDupItem c4a c4c 1, titleDupItem c4b c4c 1]⟩) ∧
    c4a ∉ [c4c] ∧ c4b ∉ [c4c] := by
  have hba : title_similarity c4b.title c4a.title = 1 := by
    have h1 : normalized_title c4b.title = ("hello world").toList := by
      decide
    have h2 : normalized_title c4a.title = ("hello world").toList := by
      decide
    simp only [title_similarity, h1, h2, difflibRatio_hello]
  have hn1 : normalize_url c4c.url = some (("http://a.com/1").toList) := by
    decide
  have hn2 : normalize_url c4a.url = some (("http://a.com/2").toList) := by
    decide
  have hn3 : normalize_url c4b.url = some (("http://a.com/3").toList) := by
    decide
  refine ⟨by rw [hba]; norm_num, by decide, ?_, by decide, by decide⟩
  norm_num [dedupe_articles, dedupeGo, hn1, hn2, hn3, alookup, findSimilar,
    tsim_ac, tsim_bc,
    show ((("http://a.com/1").toList = ("http://a.com/2").toList)) = False
      from by decide,
    show ((("http://a.com/1").toList = ("http://a.com/3").toList)) = False
      from by decide,
    show ((('1' : Char) = '2')) = False from by decide,
    show ((('1' : Char) = '3')) = False from by decide,
    show ((('2' : Char) = '3')) = False from by decide]

/-- **C4 witness.**  The two-article clause and the pairwise
dissimilarity of the kept list at the concrete pair `w4a`, `w4b`
(identical normalized titles, distinct hosts). -/
theorem C4_title_dedupe_witness :
    dedupe_articles [w4a, w4b] (93 / 100) =
      some ([w4a], ⟨2, 1, 0, 1,
        [titleDupItem w4b w4a (title_similarity w4b.title w4a.title)]⟩) ∧
    List.Pairwise (fun x y =>
      title_similarity y.title x.title < (93 / 100 : ℚ)) [w4a] := by
  have h2 := (C4_title_dedupe (93 / 100)).2 w4a w4b
    (("http://a.com/1").toList) (("http://b.com/2").toList)
    (by decide) (by decide) (by decide)
    (by rw [tsim_w]; norm_num)
  exact ⟨h2, (C4_title_dedupe (93 / 100)).1 [w4a, w4b] [w4a] _ h2⟩

/-! ### Helper lemmas for the evaluator -/

theorem alookup_aupsert_self {β : Type} (k : List Char) (v : β)
    (m : List (List Char × β)) : alookup k (aupsert k v m) = some v := by
  induction m with
  | nil => simp [aupsert, alookup]
  | cons kv rest ih =>
    simp only [aupsert]
    by_cases h : kv.1 = k
    · rw [if_pos h]
      simp [alookup]
    · rw [if_neg h]
      simp only [alookup, if_neg h]
      exact ih

theorem alookup_aupsert_other {β : Type} (k k' : List Char) (hne : k' ≠ k)
    (v : β) (m : List (List Char × β)) :
    alookup k (aupsert k' v m) = alookup k m := by
  induction m with
  | nil => simp [aupsert, alookup, hne]
  | cons kv rest ih =>
    simp only [aupsert]
    by_cases h : kv.1 = k'
    · rw [if_pos h]
      simp only [alookup, if_neg hne, if_neg (h ▸ hne : ¬kv.1 = k)]
    · rw [if_neg h]
      simp only [alookup]
      by_cases h2 : kv.1 = k
      · rw [if_pos h2, if_pos h2]
      · rw [if_neg h2, if_neg h2]
        exact ih

theorem alookup_aupsert_isSome {β : Type} (k k' : List Char) (v : β)
    (m : List (List Char × β)) (h : (alookup k m).isSome) :
    (alookup k (aupsert k' v m)).isSome := by
  by_cases he : k' = k
  · subst he
    rw [alookup_aupsert_self]
    rfl
  · rw [alookup_aupsert_other k k' he]
    exact h

theorem alookup_append_of_none {β : Type} (k : List Char)
    (c e : List (List Char × β)) (h : alookup k c = none) :
    alookup k (c ++ e) = alookup k e := by
  induction c with
  | nil => simp
  | cons kv rest ih =>
    simp only [alookup] at h ⊢
    by_cases h1 : kv.1 = k
    · rw [if_pos h1] at h
      simp at h
    · rw [if_neg h1] at h ⊢
      exact ih h

theorem alookup_append_of_some {β : Type} (k : List Char)
    (c e : List (List Char × β)) (v : β) (h : alookup k c = some v) :
    alookup k (c ++ e) = some v := by
  induction c with
  | nil => simp [alookup] at h
  | cons kv rest ih =>
    simp only [alookup] at h ⊢
    by_cases h1 : kv.1 = k
    · rw [if_pos h1] at h ⊢
      exact h
    · rw [if_neg h1] at h ⊢
      exact ih h

theorem attemptGo_all_fail (llm : Article → Nat → Option ArticleAssessment)
    (a : Article) (hfail : ∀ i, llm a i = none) :
    ∀ (rem attempt : Nat), (attemptGo llm a attempt rem).1 = none := by
  intro rem
  induction rem with
  | zero => intro attempt; simp [attemptGo, hfail]
  | succ n ih =>
    intro attempt
    simp only [attemptGo, hfail]
    exact ih (attempt + 1)

theorem attemptGo_success (llm : Article → Nat → Option ArticleAssessment)
    (a : Article) :
    ∀ (rem attempt : Nat), (∃ d, d ≤ rem ∧ (llm a (attempt + d)).isSome) →
      ((attemptGo llm a attempt rem).1).isSome := by
  intro rem
  induction rem with
  | zero =>
    intro attempt ⟨d, hd, hs⟩
    interval_cases d
    simp only [attemptGo]
    cases hl : llm a (attempt + 0) with
    | none => rw [hl] at hs; simp at hs
    | some v => simp [Nat.add_zero] at hl; simp [hl]
  | succ n ih =>
    intro attempt ⟨d, hd, hs⟩
    simp only [attemptGo]
    cases hl : llm a attempt with
    | some v => simp
    | none =>
      simp only []
      refine ih (attempt + 1) ⟨d - 1, ?_, ?_⟩
      · omega
      · have hd0 : d ≠ 0 := by
          intro h0
          rw [h0, Nat.add_zero] at hs
          rw [hl] at hs
          simp at hs
        have : attempt + 1 + (d - 1) = attempt + d := by omega
        rw [this]
        exact hs

theorem attemptGo_stats (llm : Article → Nat → Option ArticleAssessment)
    (a : Article) :
    ∀ (rem attempt : Nat),
      1 ≤ (attemptGo llm a attempt rem).2.1 ∧
      (attemptGo llm a attempt rem).2.1 ≤ rem + 1 ∧
      (attemptGo llm a attempt rem).2.2 =
        (List.range ((attemptGo llm a attempt rem).2.1 - 1)).map
          (fun i => 35 / 100 * (((attempt + i : Nat) : ℚ) + 1)) := by
  intro rem
  induction rem with
  | zero =>
    intro attempt
    cases hl : llm a attempt with
    | some v => simp [attemptGo, hl]
    | none => simp [attemptGo, hl]
  | succ n ih =>
    intro attempt
    cases hl : llm a attempt with
    | some v => simp [attemptGo, hl]
    | none =>
      obtain ⟨h1, h2, h3⟩ := ih (attempt + 1)
      simp only [attemptGo, hl]
      refine ⟨by omega, by omega, ?_⟩
      have hc : (attemptGo llm a (attempt + 1) n).2.1 + 1 - 1 =
          ((attemptGo llm a (attempt + 1) n).2.1 - 1) + 1 := by omega
      rw [hc, List.range_succ_eq_map, List.map_cons, List.map_map]
      congr 1
      rw [h3]
      refine List.map_congr_left ?_
      intro i _
      simp only [Function.comp_apply]
      have h5 : attempt + (i + 1) = attempt + 1 + i := by omega
      rw [h5]

/-- The evaluator's log covers every input article in order, with at most
`max_retries + 1` LLM calls per article and the linear back-off sleeps
`0.35 * (attempt + 1)`. -/
theorem evaluateGo_log (llm : Article → Nat → Option ArticleAssessment)
    (mn pv : List Char) (maxR : Nat) :
    ∀ (l : List Article) (cache asmts : List (List Char × ArticleAssessment))
      (log : List EvalLog),
      ∃ nl, (evaluateGo llm mn pv maxR cache asmts log l).2.2 = log ++ nl ∧
        nl.map (fun e => e.article_id) = l.map (fun a => a.id) ∧
        ∀ e ∈ nl, e.llm_calls ≤ maxR + 1 ∧
          e.sleeps = (List.range (e.llm_calls - 1)).map
            (fun (i : Nat) => 35 / 100 * ((i : ℚ) + 1)) := by
  intro l
  induction l with
  | nil =>
    intro cache asmts log
    exact ⟨[], by simp [evaluateGo], by simp, by simp⟩
  | cons b rest ih =>
    intro cache asmts log
    simp only [evaluateGo]
    cases hc : alookup (build_article_cache_key b mn pv) cache with
    | some cached =>
      obtain ⟨nl, h1, h2, h3⟩ := ih cache _ (log ++ [⟨b.id, true, 0, []⟩])
      refine ⟨⟨b.id, true, 0, []⟩ :: nl, by simpa using h1, by simpa using h2,
        ?_⟩
      intro e he
      rcases List.mem_cons.mp he with he1 | he2
      · rw [he1]
        exact ⟨by simp, by simp⟩
      · exact h3 e he2
    | none =>
      obtain ⟨hc1, hc2, hc3⟩ := attemptGo_stats llm b maxR 0
      cases hr : (attemptGo llm b 0 maxR).1 with
      | some a =>
        obtain ⟨nl, h1, h2, h3⟩ := ih _ _
          (log ++ [⟨b.id, false, (attemptGo llm b 0 maxR).2.1,
            (attemptGo llm b 0 maxR).2.2⟩])
        refine ⟨⟨b.id, false, (attemptGo llm b 0 maxR).2.1,
          (attemptGo llm b 0 maxR).2.2⟩ :: nl, by simpa using h1,
          by simpa using h2, ?_⟩
        intro e he
        rcases List.mem_cons.mp he with he1 | he2
        · rw [he1]
          refine ⟨hc2, ?_⟩
          rw [hc3]
          simp
        · exact h3 e he2
      | none =>
        obtain ⟨nl, h1, h2, h3⟩ := ih _ _
          (log ++ [⟨b.id, false, (attemptGo llm b 0 maxR).2.1,
            (attemptGo llm b 0 maxR).2.2⟩])
        refine ⟨⟨b.id, false, (attemptGo llm b 0 maxR).2.1,
          (attemptGo llm b 0 maxR).2.2⟩ :: nl, by simpa using h1,
          by simpa using h2, ?_⟩
        intro e he
        rcases List.mem_cons.mp he with he1 | he2
        · rw [he1]
          refine ⟨hc2, ?_⟩
          rw [hc3]
          simp
        · exact h3 e he2

theorem evaluateGo_mono (llm : Article → Nat → Option ArticleAssessment)
    (mn pv : List Char) (maxR : Nat) :
    ∀ (l : List Article) (cache asmts : List (List Char × ArticleAssessment))
      (log : List EvalLog) (k : List Char),
      (alookup k asmts).isSome →
      (alookup k (evaluateGo llm mn pv maxR cache asmts log l).1).isSome := by
  intro l
  induction l with
  | nil =>
    intro cache asmts log k h
    simpa [evaluateGo] using h
  | cons b rest ih =>
    intro cache asmts log k h
    simp only [evaluateGo]
    cases hc : alookup (build_article_cache_key b mn pv) cache with
    | some cached =>
      exact ih _ _ _ k (alookup_aupsert_isSome k b.id _ asmts h)
    | none =>
      cases hr : (attemptGo llm b 0 maxR).1 with
      | some a =>
        exact ih _ _ _ k (alookup_aupsert_isSome k b.id _ asmts h)
      | none => exact ih _ _ _ k h

/-- An article that cache-hits at the start, or whose LLM oracle succeeds
within the retry budget, ends up in the returned mapping. -/
theorem evaluateGo_presence (llm : Article → Nat → Option ArticleAssessment)
    (mn pv : List Char) (maxR : Nat) :
    ∀ (l : List Article) (cache asmts : List (List Char × ArticleAssessment))
      (log : List EvalLog) (a : Article), a ∈ l →
      ((alookup (build_article_cache_key a mn pv) cache).isSome ∨
        ∃ d, d ≤ maxR ∧ (llm a d).isSome) →
      (alookup a.id (evaluateGo llm mn pv maxR cache asmts log l).1).isSome := by
  intro l
  induction l with
  | nil => intro _ _ _ a ha; simp at ha
  | cons b rest ih =>
    intro cache asmts log a ha hcond
    simp only [evaluateGo]
    rcases List.mem_cons.mp ha with hab | har
    · subst hab
      cases hc : alookup (build_article_cache_key a mn pv) cache with
      | some cached =>
        refine evaluateGo_mono llm mn pv maxR _ _ _ _ a.id ?_
        rw [alookup_aupsert_self]
        rfl
      | none =>
        rcases hcond with hcs | ⟨d, hd, hs⟩
        · rw [hc] at hcs
          simp at hcs
        · have hsucc := attemptGo_success llm a maxR 0 ⟨d, hd, by simpa using hs⟩
          cases hr : (attemptGo llm a 0 maxR).1 with
          | none => rw [hr] at hsucc; simp at hsucc
          | some v =>
            refine evaluateGo_mono llm mn pv maxR _ _ _ _ a.id ?_
            rw [alookup_aupsert_self]
            rfl
    · cases hc : alookup (build_article_cache_key b mn pv) cache with
      | some cached =>
        exact ih _ _ _ a har hcond
      | none =>
        cases hr : (attemptGo llm b 0 maxR).1 with
        | some v =>
          refine ih _ _ _ a har ?_
          rcases hcond with hcs | hex
          · left
            cases hcs2 : alookup (build_article_cache_key a mn pv) cache with
            | none => rw [hcs2] at hcs; simp at hcs
            | some w =>
              rw [alookup_append_of_some _ _ _ _ hcs2]
              rfl
          · right
            exact hex
        | none => exact ih _ _ _ a har hcond

/-- An article whose every LLM attempt fails, whose cache key is absent,
and whose id and cache key are unique in the batch, is omitted from the
returned mapping (and nothing else is disturbed). -/
theorem evaluateGo_omits (llm : Article → Nat → Option ArticleAssessment)
    (mn pv : List Char) (maxR : Nat) (a : Article)
    (hfail : ∀ i, llm a i = none) :
    ∀ (l : List Article) (cache asmts : List (List Char × ArticleAssessment))
      (log : List EvalLog),
      alookup (build_article_cache_key a mn pv) cache = none →
      (∀ b ∈ l, b ≠ a → b.id ≠ a.id ∧
        build_article_cache_key b mn pv ≠ build_article_cache_key a mn pv) →
      alookup a.id (evaluateGo llm mn pv maxR cache asmts log l).1 =
        alookup a.id asmts := by
  intro l
  induction l with
  | nil => intro cache asmts log _ _; simp [evaluateGo]
  | cons b rest ih =>
    intro cache asmts log hkey huniq
    simp only [evaluateGo]
    by_cases hba : b = a
    · subst hba
      cases hc : alookup (build_article_cache_key b mn pv) cache with
      | some cached => rw [hc] at hkey; simp at hkey
      | none =>
        have hfa := attemptGo_all_fail llm b hfail maxR 0
        cases hr : (attemptGo llm b 0 maxR).1 with
        | some v => rw [hr] at hfa; simp at hfa
        | none =>
          exact ih _ _ _ hkey (fun c hc hca => huniq c (by simp [hc]) hca)
    · have hbu := huniq b (by simp) hba
      cases hc : alookup (build_article_cache_key b mn pv) cache with
      | some cached =>
        rw [ih _ _ _ hkey (fun c hc hca => huniq c (by simp [hc]) hca)]
        exact alookup_aupsert_other a.id b.id hbu.1 _ asmts
      | none =>
        cases hr : (attemptGo llm b 0 maxR).1 with
        | some v =>
          have hkey2 : ∀ v2 : ArticleAssessment,
              alookup (build_article_cache_key a mn pv)
                (cache ++ [(build_article_cache_key b mn pv, v2)]) =
                none := by
            intro v2
            rw [alookup_append_of_none _ _ _ hkey]
            simp only [alookup]
            rw [if_neg hbu.2]
          rw [ih _ _ _ (hkey2 _)
            (fun c hc hca => huniq c (by simp [hc]) hca)]
          exact alookup_aupsert_other a.id b.id hbu.1 _ asmts
        | none =>
          exact ih _ _ _ hkey (fun c hc hca => huniq c (by simp [hc]) hca)

/-- **C8.**  `evaluate_articles` never propagates an LLM failure: (i) the
run log covers every input article in order, each cache-missed article is
attempted at most `max_retries + 1` times, and the back-off sleeps are
exactly `0.35 * (attempt + 1)` for the failed attempts before the last;
(ii) an article whose every attempt fails (with its key absent from the
cache and its id/key unique in the batch) is simply omitted from the
returned mapping; (iii) every other article that cache-hits or whose LLM
call succeeds within the retry budget is still evaluated — a per-article
failure never aborts the batch. -/
theorem C8_evaluate_skip_not_abort
    (llm : Article → Nat → Option ArticleAssessment) (mn pv : List Char)
    (maxR : Nat) (cache : List (List Char × ArticleAssessment))
    (articles : List Article) :
    ((evaluate_articles llm mn pv maxR cache articles).2.2.map
        (fun e => e.article_id) = articles.map (fun a => a.id) ∧
      ∀ e ∈ (evaluate_articles llm mn pv maxR cache articles).2.2,
        e.llm_calls ≤ maxR + 1 ∧
        e.sleeps = (List.range (e.llm_calls - 1)).map
          (fun (i : Nat) => 35 / 100 * ((i : ℚ) + 1))) ∧
    (∀ a ∈ articles, (∀ i, llm a i = none) →
      alookup (build_article_cache_key a mn pv) cache = none →
      (∀ b ∈ articles, b ≠ a → b.id ≠ a.id ∧
        build_article_cache_key b mn pv ≠ build_article_cache_key a mn pv) →
      alookup a.id (evaluate_articles llm mn pv maxR cache articles).1 =
        none) ∧
    (∀ a ∈ articles,
      ((alookup (build_article_cache_key a mn pv) cache).isSome ∨
        ∃ d, d ≤ maxR ∧ (llm a d).isSome) →
      (alookup a.id
        (evaluate_articles llm mn pv maxR cache articles).1).isSome) := by
  refine ⟨?_, ?_, ?_⟩
  · obtain ⟨nl, h1, h2, h3⟩ := evaluateGo_log llm mn pv maxR articles cache [] []
    simp only [evaluate_articles, h1, List.nil_append]
    exact ⟨h2, h3⟩
  · intro a ha hfail hkey huniq
    simp only [evaluate_articles]
    rw [evaluateGo_omits llm mn pv maxR a hfail articles cache [] [] hkey huniq]
    rfl
  · intro a ha hcond
    exact evaluateGo_presence llm mn pv maxR articles cache [] [] a ha hcond

/-- **C8 witness.**  A single article with an always-failing LLM oracle:
the log covers it with 3 attempts and sleeps `0.35, 0.70`, and the
returned mapping omits it; the same article with a succeeding oracle is
present in the mapping. -/
theorem C8_evaluate_skip_not_abort_witness :
    alookup w8article.id
      (evaluate_articles (fun _ _ => none) (("deepseek-chat").toList)
        (("v7").toList) 2 [] [w8article]).1 = none ∧
    (evaluate_articles (fun _ _ => none) (("deepseek-chat").toList)
        (("v7").toList) 2 [] [w8article]).2.2.map
      (fun e => e.article_id) = [w8article.id] ∧
    (alookup w8article.id
      (evaluate_articles (fun _ _ => some (cexAssessment [] 0 []))
        (("deepseek-chat").toList) (("v7").toList) 2 []
        [w8article]).1).isSome := by
  obtain ⟨hcov, homit, _⟩ := C8_evaluate_skip_not_abort
    (fun _ _ => none) (("deepseek-chat").toList) (("v7").toList) 2 []
    [w8article]
  obtain ⟨_, _, hpres⟩ := C8_evaluate_skip_not_abort
    (fun _ _ => some (cexAssessment [] 0 [])) (("deepseek-chat").toList)
    (("v7").toList) 2 [] [w8article]
  refine ⟨?_, ?_, ?_⟩
  · refine homit w8article (by simp) (fun i => rfl) rfl ?_
    intro b hb hne
    exact absurd (by simpa using hb) hne
  · simpa using hcov.1
  · refine hpres w8article (by simp) (Or.inr ⟨0, by omega, by simp⟩)

/-! ### Helper lemmas for the cache key -/

/-- A pipe-join of pipe-free components is injective. -/
theorem pipe_append_inj : ∀ (x y r1 r2 : List Char), '|' ∉ x → '|' ∉ y →
    x ++ '|' :: r1 = y ++ '|' :: r2 → x = y ∧ r1 = r2 := by
  intro x
  induction x with
  | nil =>
    intro y r1 r2 _ hy h
    cases y with
    | nil => simpa using h
    | cons d ys =>
      simp only [List.nil_append, List.cons_append, List.cons.injEq] at h
      exfalso
      apply hy
      rw [← h.1]
      exact List.mem_cons_self _ _
  | cons c xs ih =>
    intro y r1 r2 hx hy h
    cases y with
    | nil =>
      simp only [List.cons_append, List.nil_append, List.cons.injEq] at h
      exfalso
      apply hx
      rw [← h.1]
      exact List.mem_cons_self _ _
    | cons d ys =>
      simp only [List.cons_append, List.cons.injEq] at h
      obtain ⟨hcd, hrest⟩ := h
      obtain ⟨h1, h2⟩ := ih ys r1 r2
        (fun hm => hx (List.mem_cons_of_mem c hm))
        (fun hm => hy (List.mem_cons_of_mem d hm)) hrest
      exact ⟨by rw [hcd, h1], h2⟩

/-- **C3** (amended).  For a fixed model name and prompt version: (i) two
articles whose stripped title/summary/lead and lowered-stripped URL are
pipe-free produce the same cache key **iff** those four stripped fields
agree — the URL is part of the key, so identical content alone is not
enough (and conversely the key only sees the *stripped* fields); (ii)
re-evaluating an article whose key is in the cache yields a pure cache
hit: the cached assessment is returned and the log records zero LLM
calls. -/
theorem C3_cache_key (mn pv : List Char) :
    (∀ a b : Article,
      '|' ∉ pyLower (pyStrip a.url) → '|' ∉ pyLower (pyStrip b.url) →
      '|' ∉ pyStrip a.title → '|' ∉ pyStrip b.title →
      '|' ∉ pyStrip a.summary_raw → '|' ∉ pyStrip b.summary_raw →
      (build_article_cache_key a mn pv = build_article_cache_key b mn pv ↔
        (pyLower (pyStrip a.url) = pyLower (pyStrip b.url) ∧
          pyStrip a.title = pyStrip b.title ∧
          pyStrip a.summary_raw = pyStrip b.summary_raw ∧
          pyStrip a.lead_paragraph = pyStrip b.lead_paragraph))) ∧
    (∀ (llm : Article → Nat → Option ArticleAssessment) (maxR : Nat)
      (cache : List (List Char × ArticleAssessment)) (a : Article)
      (asmt : ArticleAssessment),
      alookup (build_article_cache_key a mn pv) cache = some asmt →
      evaluate_articles llm mn pv maxR cache [a] =
        ([(a.id,
            { asmt with cache_key := build_article_cache_key a mn pv })],
          cache, [⟨a.id, true, 0, []⟩])) := by
  constructor
  · intro a b hu1 hu2 ht1 ht2 hs1 hs2
    constructor
    · intro h
      simp only [build_article_cache_key, List.append_assoc,
        List.cons_append] at h
      have h2 := List.append_cancel_left h
      simp only [List.cons.injEq, true_and] at h2
      have h3 := List.append_cancel_left h2
      simp only [List.cons.injEq, true_and] at h3
      obtain ⟨hurl, hcontent⟩ := pipe_append_inj _ _ _ _ hu1 hu2 h3
      simp only [compute_article_content_hash, List.append_assoc,
        List.cons_append] at hcontent
      obtain ⟨htitle, hrest⟩ := pipe_append_inj _ _ _ _ ht1 ht2 hcontent
      obtain ⟨hsum, hlead⟩ := pipe_append_inj _ _ _ _ hs1 hs2 hrest
      exact ⟨hurl, htitle, hsum, hlead⟩
    · intro ⟨h1, h2, h3, h4⟩
      simp only [build_article_cache_key, compute_article_content_hash,
        h1, h2, h3, h4]
  · intro llm maxR cache a asmt hhit
    simp only [evaluate_articles, evaluateGo, hhit, aupsert]
    simp

/-- **C3 counterexample.**  Two articles with identical title, summary
and lead but different URLs get different cache keys: content identity
alone does not determine the key, because the URL is hashed into it. -/
theorem C3_cache_key_counterexample :
    c3a.title = c3b.title ∧ c3a.summary_raw = c3b.summary_raw ∧
    c3a.lead_paragraph = c3b.lead_paragraph ∧
    build_article_cache_key c3a (("deepseek-chat").toList)
        (("v7").toList) ≠
      build_article_cache_key c3b (("deepseek-chat").toList)
        (("v7").toList) := by decide

/-- **C3 witness.**  The amended theorem at concrete inputs: the two
same-content articles' keys differ because their URL components differ,
and a cache-hit evaluation returns the cached assessment with zero LLM
calls. -/
theorem C3_cache_key_witness :
    build_article_cache_key c3a (("deepseek-chat").toList)
        (("v7").toList) ≠
      build_article_cache_key c3b (("deepseek-chat").toList)
        (("v7").toList) ∧
    evaluate_articles (fun _ _ => none) (("deepseek-chat").toList)
        (("v7").toList) 2
        [(build_article_cache_key c3a (("deepseek-chat").toList)
          (("v7").toList), cexAssessment [] 0 [])] [c3a] =
      ([(c3a.id,
          { cexAssessment [] 0 [] with
            cache_key := build_article_cache_key c3a
              (("deepseek-chat").toList) (("v7").toList) })],
        [(build_article_cache_key c3a (("deepseek-chat").toList)
          (("v7").toList), cexAssessment [] 0 [])],
        [⟨c3a.id, true, 0, []⟩]) := by
  obtain ⟨hiff, hhit⟩ := C3_cache_key (("deepseek-chat").toList)
    (("v7").toList)
  constructor
  · intro hk
    have hmp := (hiff c3a c3b (by decide) (by decide) (by decide)
      (by decide) (by decide) (by decide)).mp hk
    exact absurd hmp.1 (by decide)
  · exact hhit (fun _ _ => none) 2 _ c3a (cexAssessment [] 0 [])
      (by simp [alookup])

/-! ### Helper lemmas for the selection gate -/

theorem counterGet_bump_self (k : List Char) (c : List (List Char × Nat)) :
    counterGet k (counterBump k c) = counterGet k c + 1 := by
  induction c with
  | nil => simp [counterBump, counterGet, alookup]
  | cons kv rest ih =>
    simp only [counterBump]
    by_cases h : kv.1 = k
    · rw [if_pos h]
      simp [counterGet, alookup, h]
    · rw [if_neg h]
      simp only [counterGet, alookup, if_neg h]
      exact ih

theorem counterGet_bump_other (k k' : List Char) (hne : k ≠ k')
    (c : List (List Char × Nat)) :
    counterGet k' (counterBump k c) = counterGet k' c := by
  induction c with
  | nil =>
    simp [counterBump, counterGet, alookup, hne]
  | cons kv rest ih =>
    simp only [counterBump]
    by_cases h : kv.1 = k
    · rw [if_pos h]
      have h2 : ¬kv.1 = k' := by rw [h]; exact hne
      simp only [counterGet, alookup, if_neg h2]
    · rw [if_neg h]
      simp only [counterGet, alookup]
      by_cases h2 : kv.1 = k'
      · rw [if_pos h2, if_pos h2]
      · rw [if_neg h2, if_neg h2]
        exact ih

/-- The reorder always returns a permutation of its input (helper shared
with the gate analysis). -/
theorem reorder_perm (candidates : List RankedCand)
    (tm : List (List Char × ℚ)) (blend gap_guard : ℚ) :
    List.Perm (reorder_candidates_by_type_preference candidates tm blend
      gap_guard).1 candidates := by
  by_cases hd : candidates = [] ∨ tm = [] ∨ blend ≤ 0
  · simp only [reorder_candidates_by_type_preference, if_pos hd]
    exact List.Perm.refl _
  · simp only [reorder_candidates_by_type_preference, if_neg hd]
    set enr := candidates.map (fun c => (⟨c,
      personalized_quality_score c.scored.score c.scored.primary_type
        tm blend⟩ : EnrichedCand)) with henr
    have hordperm : List.Perm
        (if 0 < max 0 gap_guard then
          sweepLoop (max 0 gap_guard) (enr.length * enr.length + 1)
            (sortEnrichedDesc enr)
        else sortEnrichedDesc enr) enr := by
      split_ifs with hgap
      · exact (sweepLoop_perm _ _ _).trans (sortEnrichedDesc_perm enr)
      · exact sortEnrichedDesc_perm enr
    have he2 : enr.map (fun e => e.cand) = candidates := by
      rw [henr, List.map_map]
      exact List.map_id candidates
    exact (hordperm.map _).trans (he2 ▸ List.Perm.refl _)

/-- Every candidate the gate's filter loop emits passed the worth,
confidence and threshold checks. -/
theorem buildCandidatesGo_mem (amap : List (List Char × Article))
    (assess : List (List Char × ArticleAssessment))
    (minConf effTh minWR : ℚ) :
    ∀ (hs : List AIHighlight) (idx : Nat),
      (∀ c ∈ (buildCandidatesGo amap assess minConf effTh minWR idx hs).1,
        c.scored.worth = c.assessment.worth ∧
        c.scored.score = c.assessment.quality_score ∧
        minConf ≤ c.assessment.confidence ∧
        c.assessment.worth = WORTH_MUST_READ ∧
        effTh ≤ c.assessment.quality_score) ∧
      (∀ c ∈ (buildCandidatesGo amap assess minConf effTh minWR idx hs).2,
        c.scored.worth = c.assessment.worth ∧
        c.scored.score = c.assessment.quality_score ∧
        minConf ≤ c.assessment.confidence ∧
        c.assessment.worth ≠ WORTH_SKIP ∧
        c.assessment.worth ≠ WORTH_MUST_READ ∧
        (c.assessment.worth = WORTH_WORTH_READING →
          minWR ≤ c.assessment.quality_score)) := by
  intro hs
  induction hs with
  | nil =>
    intro idx
    constructor <;> intro c hc <;> simp [buildCandidatesGo] at hc
  | cons h rest ih =>
    intro idx
    obtain ⟨ih1, ih2⟩ := ih (idx + 1)
    have hmain : ∀ c, (c ∈ (buildCandidatesGo amap assess minConf effTh
        minWR idx (h :: rest)).1 →
          c ∈ (buildCandidatesGo amap assess minConf effTh minWR (idx + 1)
            rest).1 ∨
          (∃ (article : Article) (assessment : ArticleAssessment),
            dictLookupLast h.article_id amap = some article ∧
            dictLookupLast article.id assess = some assessment ∧
            ¬assessment.worth = WORTH_SKIP ∧
            ¬assessment.confidence < minConf ∧
            ¬(assessment.worth = WORTH_MUST_READ ∧
              assessment.quality_score < effTh) ∧
            ¬(assessment.worth = WORTH_WORTH_READING ∧
              assessment.quality_score < minWR) ∧
            assessment.worth = WORTH_MUST_READ ∧
            c = ⟨idx, h, mkScoredArticle article h assessment,
              assessment⟩)) ∧
        (c ∈ (buildCandidatesGo amap assess minConf effTh minWR idx
            (h :: rest)).2 →
          c ∈ (buildCandidatesGo amap assess minConf effTh minWR (idx + 1)
            rest).2 ∨
          (∃ (article : Article) (assessment : ArticleAssessment),
            dictLookupLast h.article_id amap = some article ∧
            dictLookupLast article.id assess = some assessment ∧
            ¬assessment.worth = WORTH_SKIP ∧
            ¬assessment.confidence < minConf ∧
            ¬(assessment.worth = WORTH_MUST_READ ∧
              assessment.quality_score < effTh) ∧
            ¬(assessment.worth = WORTH_WORTH_READING ∧
              assessment.quality_score < minWR) ∧
            ¬assessment.worth = WORTH_MUST_READ ∧
            c = ⟨idx, h, mkScoredArticle article h assessment,
              assessment⟩)) := by
      intro c
      simp only [buildCandidatesGo]
      by_cases h1 : h.worth = WORTH_SKIP
      · rw [if_pos h1]
        exact ⟨fun hc => Or.inl hc, fun hc => Or.inl hc⟩
      · rw [if_neg h1]
        cases hd : dictLookupLast h.article_id amap with
        | none => exact ⟨fun hc => Or.inl hc, fun hc => Or.inl hc⟩
        | some article =>
          dsimp only
          cases ha : dictLookupLast article.id assess with
          | none => exact ⟨fun hc => Or.inl hc, fun hc => Or.inl hc⟩
          | some assessment =>
            dsimp only
            by_cases h2 : assessment.worth = WORTH_SKIP
            · rw [if_pos h2]
              exact ⟨fun hc => Or.inl hc, fun hc => Or.inl hc⟩
            · rw [if_neg h2]
              by_cases h3 : assessment.confidence < minConf
              · rw [if_pos h3]
                exact ⟨fun hc => Or.inl hc, fun hc => Or.inl hc⟩
              · rw [if_neg h3]
                by_cases h4 : assessment.worth = WORTH_MUST_READ ∧
                    assessment.quality_score < effTh
                · rw [if_pos h4]
                  exact ⟨fun hc => Or.inl hc, fun hc => Or.inl hc⟩
                · rw [if_neg h4]
                  by_cases h5 : assessment.worth = WORTH_WORTH_READING ∧
                      assessment.quality_score < minWR
                  · rw [if_pos h5]
                    exact ⟨fun hc => Or.inl hc, fun hc => Or.inl hc⟩
                  · rw [if_neg h5]
                    by_cases h6 : assessment.worth = WORTH_MUST_READ
                    · rw [if_pos h6]
                      constructor
                      · intro hc
                        rcases List.mem_cons.mp hc with he | he
                        · exact Or.inr ⟨article, assessment, rfl, ha, h2,
                            h3, h4, h5, h6, he⟩
                        · exact Or.inl he
                      · exact fun hc => Or.inl hc
                    · rw [if_neg h6]
                      constructor
                      · exact fun hc => Or.inl hc
                      · intro hc
                        rcases List.mem_cons.mp hc with he | he
                        · exact Or.inr ⟨article, assessment, rfl, ha, h2,
                            h3, h4, h5, h6, he⟩
                        · exact Or.inl he
    constructor
    · intro c hc
      rcases (hmain c).1 hc with hin | ⟨article, assessment, _, _, h2, h3,
        h4, h5, h6, he⟩
      · exact ih1 c hin
      · rw [he]
        refine ⟨rfl, rfl, not_lt.mp h3, h6, ?_⟩
        by_contra hlt
        exact h4 ⟨h6, not_le.mp hlt⟩
    · intro c hc
      rcases (hmain c).2 hc with hin | ⟨article, assessment, _, _, h2, h3,
        h4, h5, h6, he⟩
      · exact ih2 c hin
      · rw [he]
        refine ⟨rfl, rfl, not_lt.mp h3, h2, h6, ?_⟩
        intro hwr
        by_contra hlt
        exact h5 ⟨hwr, not_le.mp hlt⟩

theorem selectLoop_length (cap : ℤ) (maxDup : Nat) :
    ∀ (l : List RankedCand) (acc : List TaggedArticle)
      (ic tc : List (List Char × Nat)) r,
      selectLoop cap maxDup l acc ic tc = some r →
      (acc.length : ℤ) < cap → ((r.1.length : ℤ)) ≤ cap := by
  intro l
  induction l with
  | nil =>
    intro acc ic tc r h hacc
    simp only [selectLoop, Option.some_inj] at h
    rw [← h]
    exact le_of_lt hacc
  | cons c rest ih =>
    intro acc ic tc r h hacc
    simp only [selectLoop] at h
    cases hr : reserveStep maxDup ic tc c.scored with
    | none => rw [hr] at h; simp at h
    | some rs =>
      rw [hr] at h
      dsimp only at h
      by_cases hb : rs.1 = true
      · rw [if_pos hb] at h
        by_cases hcap : cap ≤ ((acc ++ [(⟨c.scored, []⟩ : TaggedArticle)]).length : ℤ)
        · rw [if_pos hcap] at h
          simp only [Option.some_inj] at h
          rw [← h]
          simp only [List.length_append, List.length_singleton]
          push_cast
          omega
        · rw [if_neg hcap] at h
          refine ih _ _ _ r h ?_
          push_neg at hcap
          exact hcap
      · rw [if_neg hb] at h
        exact ih _ _ _ r h hacc

theorem selectLoop_mem (cap : ℤ) (maxDup : Nat) :
    ∀ (l : List RankedCand) (acc : List TaggedArticle)
      (ic tc : List (List Char × Nat)) r,
      selectLoop cap maxDup l acc ic tc = some r →
      ∀ t ∈ r.1, t ∈ acc ∨ ∃ c ∈ l, t = (⟨c.scored, []⟩ : TaggedArticle) := by
  intro l
  induction l with
  | nil =>
    intro acc ic tc r h t ht
    simp only [selectLoop, Option.some_inj] at h
    rw [← h] at ht
    exact Or.inl ht
  | cons c rest ih =>
    intro acc ic tc r h t ht
    simp only [selectLoop] at h
    cases hr : reserveStep maxDup ic tc c.scored with
    | none => rw [hr] at h; simp at h
    | some rs =>
      rw [hr] at h
      dsimp only at h
      by_cases hb : rs.1 = true
      · rw [if_pos hb] at h
        by_cases hcap : cap ≤ ((acc ++ [(⟨c.scored, []⟩ : TaggedArticle)]).length : ℤ)
        · rw [if_pos hcap] at h
          simp only [Option.some_inj] at h
          rw [← h] at ht
          rcases List.mem_append.mp ht with hin | hin
          · exact Or.inl hin
          · simp only [List.mem_singleton] at hin
            exact Or.inr ⟨c, by simp, hin⟩
        · rw [if_neg hcap] at h
          rcases ih _ _ _ r h t ht with hin | ⟨c2, hc2, he⟩
          · rcases List.mem_append.mp hin with hin2 | hin2
            · exact Or.inl hin2
            · simp only [List.mem_singleton] at hin2
              exact Or.inr ⟨c, by simp, hin2⟩
          · exact Or.inr ⟨c2, by simp [hc2], he⟩
      · rw [if_neg hb] at h
        rcases ih _ _ _ r h t ht with hin | ⟨c2, hc2, he⟩
        · exact Or.inl hin
        · exact Or.inr ⟨c2, by simp [hc2], he⟩

theorem selectLoop_cluster (cap : ℤ) (maxDup : Nat) :
    ∀ (l : List RankedCand) (acc : List TaggedArticle)
      (ic tc : List (List Char × Nat)) r,
      selectLoop cap maxDup l acc ic tc = some r →
      (∀ k, acc.countP (fun t => decide (build_info_key_raw
        t.article.info_url t.article.url t.article.title = some k)) ≤
          counterGet k ic) →
      (∀ k, counterGet k ic ≤ maxDup) →
      (∀ k, acc.countP (fun t =>
        decide (build_title_key t.article.title = k)) ≤ counterGet k tc) →
      (∀ k, counterGet k tc ≤ maxDup) →
      (∀ k, r.1.countP (fun t => decide (build_info_key_raw
        t.article.info_url t.article.url t.article.title = some k)) ≤
          counterGet k r.2.1) ∧
      (∀ k, counterGet k r.2.1 ≤ maxDup) ∧
      (∀ k, r.1.countP (fun t =>
        decide (build_title_key t.article.title = k)) ≤
          counterGet k r.2.2) ∧
      (∀ k, counterGet k r.2.2 ≤ maxDup) := by
  intro l
  induction l with
  | nil =>
    intro acc ic tc r h hic hicb htc htcb
    simp only [selectLoop, Option.some_inj] at h
    rw [← h]
    exact ⟨hic, hicb, htc, htcb⟩
  | cons c rest ih =>
    intro acc ic tc r h hic hicb htc htcb
    simp only [selectLoop] at h
    cases hr : reserveStep maxDup ic tc c.scored with
    | none => rw [hr] at h; simp at h
    | some rs =>
      rw [hr] at h
      dsimp only at h
      simp only [reserveStep] at hr
      cases hbk : build_info_key_raw c.scored.info_url c.scored.url
          c.scored.title with
      | none => rw [hbk] at hr; simp at hr
      | some ik =>
        rw [hbk] at hr
        dsimp only at hr
        split_ifs at hr with g1 g2
        · simp only [Option.some_inj] at hr
          rw [← hr] at h
          simp only [if_neg (by simp : ¬((false, ic, tc).1 = true)),
            if_false] at h
          exact ih _ _ _ r h hic hicb htc htcb
        · simp only [Option.some_inj] at hr
          rw [← hr] at h
          simp only [if_neg (by simp : ¬((false, ic, tc).1 = true)),
            if_false] at h
          exact ih _ _ _ r h hic hicb htc htcb
        · simp only [Option.some_inj] at hr
          rw [← hr] at h
          simp only [if_pos (by simp :
            ((true, counterBump ik ic,
              counterBump (build_title_key c.scored.title) tc).1 =
                true)), if_true] at h
          push_neg at g1 g2
          have hic2 : ∀ k, (acc ++ [(⟨c.scored, []⟩ : TaggedArticle)]).countP
              (fun t => decide (build_info_key_raw t.article.info_url
                t.article.url t.article.title = some k)) ≤
              counterGet k (counterBump ik ic) := by
            intro k
            rw [List.countP_append]
            by_cases hk : k = ik
            · subst hk
              rw [counterGet_bump_self]
              have hone : ([(⟨c.scored, []⟩ : TaggedArticle)]).countP
                  (fun t => decide (build_info_key_raw t.article.info_url
                    t.article.url t.article.title = some k)) ≤ 1 := by
                simp [List.countP_cons, hbk]
              have := hic k
              omega
            · rw [counterGet_bump_other ik k (fun he => hk he.symm)]
              have hzero : ([(⟨c.scored, []⟩ : TaggedArticle)]).countP
                  (fun t => decide (build_info_key_raw t.article.info_url
                    t.article.url t.article.title = some k)) = 0 := by
                simp only [List.countP_cons, List.countP_nil]
                have : ¬(build_info_key_raw c.scored.info_url c.scored.url
                    c.scored.title = some k) := by
                  rw [hbk]
                  simp
                  exact fun he => hk he.symm
                simp [this]
              have := hic k
              omega
          have hicb2 : ∀ k, counterGet k (counterBump ik ic) ≤ maxDup := by
            intro k
            by_cases hk : k = ik
            · subst hk
              rw [counterGet_bump_self]
              omega
            · rw [counterGet_bump_other ik k (fun he => hk he.symm)]
              exact hicb k
          have htc2 : ∀ k, (acc ++ [(⟨c.scored, []⟩ : TaggedArticle)]).countP
              (fun t => decide (build_title_key t.article.title = k)) ≤
              counterGet k (counterBump (build_title_key c.scored.title)
                tc) := by
            intro k
            rw [List.countP_append]
            by_cases hk : k = build_title_key c.scored.title
            · subst hk
              rw [counterGet_bump_self]
              have hone : ([(⟨c.scored, []⟩ : TaggedArticle)]).countP
                  (fun t => decide (build_title_key t.article.title =
                    build_title_key c.scored.title)) ≤ 1 := by
                simp [List.countP_cons]
              have := htc (build_title_key c.scored.title)
              omega
            · rw [counterGet_bump_other _ k (fun he => hk he.symm)]
              have hzero : ([(⟨c.scored, []⟩ : TaggedArticle)]).countP
                  (fun t => decide (build_title_key t.article.title = k)) =
                  0 := by
                simp only [List.countP_cons, List.countP_nil]
                have : ¬(build_title_key c.scored.title = k) :=
                  fun he => hk he.symm
                simp [this]
              have := htc k
              omega
          have htcb2 : ∀ k, counterGet k
              (counterBump (build_title_key c.scored.title) tc) ≤
                maxDup := by
            intro k
            by_cases hk : k = build_title_key c.scored.title
            · subst hk
              rw [counterGet_bump_self]
              omega
            · rw [counterGet_bump_other _ k (fun he => hk he.symm)]
              exact htcb k
          by_cases hcap : cap ≤ ((acc ++ [(⟨c.scored, []⟩ :
              TaggedArticle)]).length : ℤ)
          · rw [if_pos hcap] at h
            simp only [Option.some_inj] at h
            rw [← h]
            exact ⟨hic2, hicb2, htc2, htcb2⟩
          · rw [if_neg hcap] at h
            exact ih _ _ _ r h hic2 hicb2 htc2 htcb2

/-- **C1** (amended).  (i) For a positive `top_n` the selection cap is
between 1 and `top_n` (for `top_n ≤ 0` the cap is still 1, exceeding
`top_n` — see the counterexample).  (ii) Every completed run of the
selection gate returns at most `cap` highlights; each highlight carries
an assessment that is not skip-worthy, meets the minimum-confidence
cutoff, and meets the effective threshold (max of the configured floor
and the dynamic percentile) when must-read, or the worth-reading floor
when worth-reading; and at most `max 1 max_info_dup` highlights share
one info key or one normalized-title key. -/
theorem C1_highlight_gate :
    (∀ (total : Nat) (top_n : ℤ) (ratio : ℚ) (minv : ℤ), 1 ≤ top_n →
      1 ≤ highlight_cap total top_n ratio minv ∧
      highlight_cap total top_n ratio minv ≤ top_n) ∧
    (∀ (ai : List AIHighlight) (deduped : List Article)
      (assess : List (List Char × ArticleAssessment)) (P : GateParams)
      (tagged : List TaggedArticle),
      select_highlights ai deduped assess P = some tagged →
      ((tagged.length : ℤ) ≤ highlight_cap (scored_pool assess).length
          P.top_n P.ratioEnv P.minimumEnv) ∧
      (∀ t ∈ tagged, ∃ a : ArticleAssessment,
        t.article.worth = a.worth ∧ t.article.score = a.quality_score ∧
        P.min_highlight_confidence ≤ a.confidence ∧
        a.worth ≠ WORTH_SKIP ∧
        (a.worth = WORTH_MUST_READ →
          max P.min_highlight_score
            (if scored_pool assess ≠ [] then
              percentile (scored_pool assess) P.dynamic_percentile
            else P.min_highlight_score) ≤ a.quality_score) ∧
        (a.worth = WORTH_WORTH_READING →
          P.min_worth_reading_score ≤ a.quality_score)) ∧
      (∀ k, tagged.countP (fun t => decide (build_info_key_raw
        t.article.info_url t.article.url t.article.title = some k)) ≤
          (max 1 P.max_info_dup_env).toNat) ∧
      (∀ k, tagged.countP (fun t =>
        decide (build_title_key t.article.title = k)) ≤
          (max 1 P.max_info_dup_env).toNat)) := by
  have hwne1 : WORTH_MUST_READ ≠ WORTH_SKIP := by decide
  have hwne2 : WORTH_MUST_READ ≠ WORTH_WORTH_READING := by decide
  constructor
  · intro total top_n ratio minv htop
    simp only [highlight_cap]
    exact ⟨le_max_left _ _, max_le htop (min_le_left _ _)⟩
  · intro ai deduped assess P tagged h
    have hcap1 : (1 : ℤ) ≤ highlight_cap (scored_pool assess).length
        P.top_n P.ratioEnv P.minimumEnv := by
      simp only [highlight_cap]
      exact le_max_left _ _
    simp only [select_highlights] at h
    split at h
    · simp at h
    · rename_i r h1
      have hmem1 := selectLoop_mem _ _ _ _ _ _ _ h1
      have hcl1 := selectLoop_cluster _ _ _ _ _ _ _ h1
        (by intro k; simp) (by intro k; simp [counterGet, alookup])
        (by intro k; simp) (by intro k; simp [counterGet, alookup])
      have hbc := buildCandidatesGo_mem
        (deduped.map (fun a => (a.id, a))) assess
        P.min_highlight_confidence
        (max P.min_highlight_score
          (if scored_pool assess ≠ [] then
            percentile (scored_pool assess) P.dynamic_percentile
          else P.min_highlight_score))
        P.min_worth_reading_score ai 0
      have hmustsub := (reorder_perm
        (buildCandidatesGo (deduped.map (fun a => (a.id, a))) assess
          P.min_highlight_confidence
          (max P.min_highlight_score
            (if scored_pool assess ≠ [] then
              percentile (scored_pool assess) P.dynamic_percentile
            else P.min_highlight_score))
          P.min_worth_reading_score 0 ai).1
        P.type_multipliers P.type_blend P.type_quality_gap_guard).subset
      have hfbsub := (reorder_perm
        (buildCandidatesGo (deduped.map (fun a => (a.id, a))) assess
          P.min_highlight_confidence
          (max P.min_highlight_score
            (if scored_pool assess ≠ [] then
              percentile (scored_pool assess) P.dynamic_percentile
            else P.min_highlight_score))
          P.min_worth_reading_score 0 ai).2
        P.type_multipliers P.type_blend P.type_quality_gap_guard).subset
      have hprops : ∀ t : TaggedArticle,
          (t ∈ [] ∨ ∃ c ∈ (reorder_candidates_by_type_preference
            (buildCandidatesGo (deduped.map (fun a => (a.id, a))) assess
              P.min_highlight_confidence
              (max P.min_highlight_score
                (if scored_pool assess ≠ [] then
                  percentile (scored_pool assess) P.dynamic_percentile
                else P.min_highlight_score))
              P.min_worth_reading_score 0 ai).1
            P.type_multipliers P.type_blend P.type_quality_gap_guard).1,
              t = (⟨c.scored, []⟩ : TaggedArticle)) ∨
          (∃ c ∈ (reorder_candidates_by_type_preference
            (buildCandidatesGo (deduped.map (fun a => (a.id, a))) assess
              P.min_highlight_confidence
              (max P.min_highlight_score
                (if scored_pool assess ≠ [] then
                  percentile (scored_pool assess) P.dynamic_percentile
                else P.min_highlight_score))
              P.min_worth_reading_score 0 ai).2
            P.type_multipliers P.type_blend P.type_quality_gap_guard).1,
              t = (⟨c.scored, []⟩ : TaggedArticle)) →
          ∃ a : ArticleAssessment,
            t.article.worth = a.worth ∧
            t.article.score = a.quality_score ∧
            P.min_highlight_confidence ≤ a.confidence ∧
            a.worth ≠ WORTH_SKIP ∧
            (a.worth = WORTH_MUST_READ →
              max P.min_highlight_score
                (if scored_pool assess ≠ [] then
                  percentile (scored_pool assess) P.dynamic_percentile
                else P.min_highlight_score) ≤ a.quality_score) ∧
            (a.worth = WORTH_WORTH_READING →
              P.min_worth_reading_score ≤ a.quality_score) := by
        intro t hdis
        rcases hdis with hdis | hR
        · rcases hdis with ht | hL
          · simp at ht
          · obtain ⟨c, hc, he⟩ := hL
            obtain ⟨p1, p2, p3, p4, p5⟩ := hbc.1 c (hmustsub hc)
            refine ⟨c.assessment, ?_, ?_, p3, ?_, fun _ => p5, ?_⟩
            · rw [he]; exact p1
            · rw [he]; exact p2
            · rw [p4]; exact hwne1
            · intro hwr
              rw [p4] at hwr
              exact absurd hwr hwne2
        · obtain ⟨c, hc, he⟩ := hR
          obtain ⟨p1, p2, p3, p4, p5, p6⟩ := hbc.2 c (hfbsub hc)
          refine ⟨c.assessment, ?_, ?_, p3, p4, ?_, p6⟩
          · rw [he]; exact p1
          · rw [he]; exact p2
          · intro hm
            exact absurd hm p5
      split at h
      · rename_i hlt
        rw [Option.map_eq_some'] at h
        obtain ⟨r2, h3, h4⟩ := h
        have hlen := selectLoop_length _ _ _ _ _ _ _ h3 hlt
        have hmem2 := selectLoop_mem _ _ _ _ _ _ _ h3
        have hcl2 := selectLoop_cluster _ _ _ _ _ _ _ h3
          hcl1.1 hcl1.2.1 hcl1.2.2.1 hcl1.2.2.2
        rw [← h4]
        refine ⟨hlen, ?_, ?_, ?_⟩
        · intro t ht
          rcases hmem2 t ht with hin | hfrom
          · exact hprops t (Or.inl (hmem1 t hin))
          · exact hprops t (Or.inr hfrom)
        · exact fun k => le_trans (hcl2.1 k) (hcl2.2.1 k)
        · exact fun k => le_trans (hcl2.2.2.1 k) (hcl2.2.2.2 k)
      · rename_i hge
        simp only [Option.some_inj] at h
        rw [← h]
        have hlen := selectLoop_length _ _ _ _ _ _ _ h1
          (by simp; omega)
        refine ⟨hlen, ?_, ?_, ?_⟩
        · intro t ht
          exact hprops t (Or.inl (hmem1 t ht))
        · exact fun k => le_trans (hcl1.1 k) (hcl1.2.1 k)
        · exact fun k => le_trans (hcl1.2.2.1 k) (hcl1.2.2.2 k)

/-- **C1 counterexample.**  With `top_n = 0` the computed cap is 1, which
exceeds `top_n`: the original claim's "the cap never exceeds top-n" fails
for non-positive `top_n` because of the outer `max(1, ...)`. -/
theorem C1_highlight_gate_counterexample :
    highlight_cap 10 0 (45 / 100) 4 = 1 ∧ ¬((1 : ℤ) ≤ 0) := by
  constructor
  · norm_num [highlight_cap, roundHalfEven]
  · norm_num

/-- **C1 witness.**  The cap bounds at the repository's test point
(total 8, top-n 16), and the gate on an empty run returning an empty,
cap-respecting highlight list. -/
theorem C1_highlight_gate_witness :
    (1 ≤ highlight_cap 8 16 (45 / 100) 4 ∧
      highlight_cap 8 16 (45 / 100) 4 ≤ 16) ∧
    ((([] : List TaggedArticle).length : ℤ) ≤
      highlight_cap (scored_pool []).length gate0.top_n gate0.ratioEnv
        gate0.minimumEnv) := by
  have h0 : select_highlights [] [] [] gate0 = some [] := by
    norm_num [select_highlights, scored_pool, buildCandidatesGo,
      reorder_candidates_by_type_preference, selectLoop, highlight_cap,
      roundHalfEven, gate0, counterGet, alookup]
  exact ⟨C1_highlight_gate.1 8 16 (45 / 100) 4 (by norm_num),
    (C1_highlight_gate.2 [] [] [] gate0 [] h0).1⟩

/-! ### Helper lemmas for URL normalization (C5) -/

theorem char_toNat_lt (c : Char) : c.toNat < 1114112 := by
  have h := c.valid
  simp only [Char.toNat]
  rcases h with h | h
  · omega
  · omega

theorem char_not_surrogate (c : Char) :
    ¬(55296 ≤ c.toNat ∧ c.toNat ≤ 57343) := by
  have h := c.valid
  simp only [Char.toNat]
  rcases h with h | h
  · omega
  · omega

theorem toNat_ofNat_valid (n : Nat) (h : n.isValidChar) :
    (Char.ofNat n).toNat = n := by
  rw [Char.ofNat, dif_pos h]
  rfl

theorem pyLowerChar_idem (c : Char) :
    pyLowerChar (pyLowerChar c) = pyLowerChar c := by
  simp only [pyLowerChar]
  by_cases h : 65 ≤ c.toNat ∧ c.toNat ≤ 90
  · rw [if_pos h]
    have hv : (c.toNat + 32).isValidChar := Or.inl (by omega)
    rw [if_neg (by rw [toNat_ofNat_valid _ hv]; omega)]
  · rw [if_neg h, if_neg h]

theorem pyLower_idem (l : List Char) : pyLower (pyLower l) = pyLower l := by
  simp only [pyLower, List.map_map]
  exact List.map_congr_left (fun c _ => pyLowerChar_idem c)

theorem dropWhile_idem (p : Char → Bool) (l : List Char) :
    List.dropWhile p (List.dropWhile p l) = List.dropWhile p l := by
  induction l with
  | nil => simp
  | cons c rest ih =>
    by_cases h : p c
    · simp only [List.dropWhile_cons, h, if_true]
      exact ih
    · simp only [List.dropWhile_cons, h, if_false]
      simp [h]

theorem dropTrailing_idem (p : Char → Bool) (l : List Char) :
    dropTrailing p (dropTrailing p l) = dropTrailing p l := by
  simp only [dropTrailing, List.reverse_reverse, dropWhile_idem]

theorem dropTrailing_pre (p : Char → Bool) (l : List Char) :
    dropTrailing p l <+: l := by
  simp only [dropTrailing]
  have h := List.reverse_prefix.mpr (List.dropWhile_suffix p (l := l.reverse))
  simpa using h

theorem npathOf_idem (path : List Char) : npathOf (npathOf path) = npathOf path := by
  simp only [npathOf]
  by_cases h : rstripSlash path = []
  · rw [if_pos h]
    decide
  · rw [if_neg h]
    rw [show rstripSlash (rstripSlash path) = rstripSlash path from
      dropTrailing_idem _ _]
    rw [if_neg h]

theorem hexVal_hexUpperDigit (n : Nat) (h : n < 16) :
    hexVal (hexUpperDigit n) = some n := by
  simp only [hexUpperDigit]
  by_cases h1 : n < 10
  · rw [if_pos h1]
    have ht := toNat_ofNat_valid (48 + n) (Or.inl (by omega))
    simp only [hexVal, ht]
    rw [if_pos (by omega)]
    congr 1
    omega
  · rw [if_neg h1]
    have ht := toNat_ofNat_valid (55 + n) (Or.inl (by omega))
    simp only [hexVal, ht]
    rw [if_neg (by omega), if_pos (by omega)]
    congr 1
    omega

theorem hexUpperDigit_safe (n : Nat) (h : n < 16) :
    isAlwaysSafe (hexUpperDigit n) = true := by
  simp only [hexUpperDigit]
  by_cases h1 : n < 10
  · rw [if_pos h1]
    have ht := toNat_ofNat_valid (48 + n) (Or.inl (by omega))
    simp only [isAlwaysSafe, isAsciiAlpha, isAsciiDigit, ht]
    simp only [Bool.or_eq_true, Bool.and_eq_true, decide_eq_true_eq]
    omega
  · rw [if_neg h1]
    have ht := toNat_ofNat_valid (55 + n) (Or.inl (by omega))
    simp only [isAlwaysSafe, isAsciiAlpha, isAsciiDigit, ht]
    simp only [Bool.or_eq_true, Bool.and_eq_true, decide_eq_true_eq]
    omega

theorem utf8Bytes_lt (c : Char) : ∀ b ∈ utf8Bytes c, b < 256 := by
  have hlt := char_toNat_lt c
  intro b hb
  simp only [utf8Bytes] at hb
  split_ifs at hb <;> simp at hb <;> omega

theorem quotePlus_chars (s : List Char) :
    ∀ c ∈ quotePlus s, isAlwaysSafe c = true ∨ c = '+' ∨ c = '%' := by
  intro c hc
  simp only [quotePlus, List.mem_flatten] at hc
  obtain ⟨piece, hp, hcp⟩ := hc
  obtain ⟨x, _, he⟩ := List.mem_map.mp hp
  rw [← he] at hcp
  simp only [quotePlusChar] at hcp
  split_ifs at hcp with h1 h2
  · simp only [List.mem_singleton] at hcp
    rw [hcp]
    exact Or.inl h1
  · simp only [List.mem_singleton] at hcp
    exact Or.inr (Or.inl hcp)
  · simp only [List.mem_flatten] at hcp
    obtain ⟨bl, hbl, hcbl⟩ := hcp
    obtain ⟨b, hb, hbe⟩ := List.mem_map.mp hbl
    rw [← hbe] at hcbl
    have hblt := utf8Bytes_lt x b hb
    simp only [percentEncodeByte, List.mem_cons, List.not_mem_nil] at hcbl
    rcases hcbl with h | h | h | h
    · exact Or.inr (Or.inr h)
    · rw [h]
      exact Or.inl (hexUpperDigit_safe (b / 16) (by omega))
    · rw [h]
      exact Or.inl (hexUpperDigit_safe (b % 16) (by omega))
    · exact h.elim

theorem intercalate_amp_cons_cons (x y : List Char) (t : List (List Char)) :
    List.intercalate ['&'] (x :: y :: t) =
      x ++ '&' :: List.intercalate ['&'] (y :: t) := by
  simp [List.intercalate, List.intersperse_cons_cons]

theorem urlencode_chars (pairs : List (List Char × List Char)) :
    ∀ c ∈ urlencodePairs pairs,
      isAlwaysSafe c = true ∨ c = '+' ∨ c = '%' ∨ c = '&' ∨ c = '=' := by
  induction pairs with
  | nil => intro c hc; simp [urlencodePairs, List.intercalate] at hc
  | cons kv t ih =>
    intro c hc
    cases t with
    | nil =>
      simp only [urlencodePairs, List.intercalate, List.intersperse_singleton,
        List.flatten] at hc
      simp only [List.append_nil, List.mem_append, List.mem_cons] at hc
      rcases hc with h | h | h
      · rcases quotePlus_chars kv.1 c h with h2 | h2 | h2
        · exact Or.inl h2
        · exact Or.inr (Or.inl h2)
        · exact Or.inr (Or.inr (Or.inl h2))
      · exact Or.inr (Or.inr (Or.inr (Or.inr h)))
      · rcases quotePlus_chars kv.2 c h with h2 | h2 | h2
        · exact Or.inl h2
        · exact Or.inr (Or.inl h2)
        · exact Or.inr (Or.inr (Or.inl h2))
    | cons kv2 t2 =>
      rw [show urlencodePairs (kv :: kv2 :: t2) =
        (quotePlus kv.1 ++ '=' :: quotePlus kv.2) ++ '&' ::
          urlencodePairs (kv2 :: t2) from by
        simp only [urlencodePairs, List.map_cons]
        exact intercalate_amp_cons_cons _ _ _] at hc
      simp only [List.mem_append, List.mem_cons] at hc
      rcases hc with (h | h | h) | h | h
      · rcases quotePlus_chars kv.1 c h with h2 | h2 | h2
        · exact Or.inl h2
        · exact Or.inr (Or.inl h2)
        · exact Or.inr (Or.inr (Or.inl h2))
      · exact Or.inr (Or.inr (Or.inr (Or.inr h)))
      · rcases quotePlus_chars kv.2 c h with h2 | h2 | h2
        · exact Or.inl h2
        · exact Or.inr (Or.inl h2)
        · exact Or.inr (Or.inr (Or.inl h2))
      · exact Or.inr (Or.inr (Or.inr (Or.inl h)))
      · exact ih c h

/-- No character of a `urlencode` output is one of the URL delimiters
`?`, `#`, `/`, `[`, `]` or `=`-free specials used by the reparse. -/
theorem urlencode_no_delim (pairs : List (List Char × List Char))
    (d : Char) (hd : d = '?' ∨ d = '#' ∨ d = '/' ∨ d = '[' ∨ d = ']') :
    d ∉ urlencodePairs pairs := by
  intro hmem
  rcases urlencode_chars pairs d hmem with h | h | h | h | h <;>
    rcases hd with h2 | h2 | h2 | h2 | h2 <;> subst h2 <;>
      revert h <;> decide

theorem takeWhile_append_stop (p : Char → Bool) (a : List Char) (c : Char)
    (b : List Char) (ha : ∀ x ∈ a, p x = true) (hc : p c = false) :
    (a ++ c :: b).takeWhile p = a := by
  induction a with
  | nil => simp [List.takeWhile_cons, hc]
  | cons x t ih =>
    simp only [List.cons_append, List.takeWhile_cons, ha x (by simp),
      if_true]
    rw [ih (fun y hy => ha y (by simp [hy]))]

theorem pySplitFirst_not_mem (ch : Char) (l : List Char) (h : ch ∉ l) :
    pySplitFirst ch l = (l, none) := by
  simp only [pySplitFirst]
  have h1 : l.takeWhile (fun c => c != ch) = l := by
    rw [List.takeWhile_eq_self_iff]
    intro a ha
    simp only [bne_iff_ne, ne_eq]
    intro he
    exact h (he ▸ ha)
  rw [h1, if_pos rfl]

theorem pySplitFirst_append (ch : Char) (a b : List Char) (h : ch ∉ a) :
    pySplitFirst ch (a ++ ch :: b) = (a, some b) := by
  simp only [pySplitFirst]
  have h1 : (a ++ ch :: b).takeWhile (fun c => c != ch) = a := by
    refine takeWhile_append_stop _ a ch b ?_ (by simp)
    intro x hx
    simp only [bne_iff_ne, ne_eq]
    intro he
    exact h (he ▸ hx)
  rw [h1]
  have h2 : ¬a.length = (a ++ ch :: b).length := by
    simp only [List.length_append, List.length_cons]
    omega
  rw [if_neg h2]
  have h3 : (a ++ ch :: b).drop (a.length + 1) = b := by
    rw [show a ++ ch :: b = (a ++ [ch]) ++ b by simp]
    exact List.drop_left' (by simp)
  rw [h3]

theorem decode_cons (st : Option PendingUtf8) (x : Char ⊕ Nat)
    (l : List (Char ⊕ Nat)) :
    decodeStreamGo st (x :: l) =
      (stepStream st x).1 ++ decodeStreamGo (stepStream st x).2 l := rfl

theorem classifyLead_two (b : Nat) (h1 : 194 ≤ b) (h2 : b < 224) :
    classifyLead b = Sum.inr ⟨1, b - 192, 128, 191⟩ := by
  simp only [classifyLead]
  rw [if_neg (by omega), if_neg (by omega), if_pos h2]

theorem classifyLead_three (b : Nat) (h1 : 225 ≤ b) (h2 : b < 240)
    (h3 : b ≠ 237) :
    classifyLead b = Sum.inr ⟨2, b - 224, 128, 191⟩ := by
  simp only [classifyLead]
  rw [if_neg (by omega), if_neg (by omega), if_neg (by omega),
    if_neg (by omega), if_neg h3, if_pos h2]

theorem classifyLead_four (b : Nat) (h1 : 241 ≤ b) (h2 : b < 244) :
    classifyLead b = Sum.inr ⟨3, b - 240, 128, 191⟩ := by
  simp only [classifyLead]
  rw [if_neg (by omega), if_neg (by omega), if_neg (by omega),
    if_neg (by omega), if_neg (by omega), if_neg (by omega),
    if_neg (by omega), if_pos h2]

theorem stepUtf8_last (need acc lo hi b : Nat) (hlo : lo ≤ b)
    (hhi : b ≤ hi) (hn : need = 1) :
    stepUtf8 (some ⟨need, acc, lo, hi⟩) b =
      ([Char.ofNat (acc * 64 + (b - 128))], none) := by
  simp only [stepUtf8]
  rw [if_pos ⟨hlo, hhi⟩, if_pos hn]

theorem stepUtf8_mid (need acc lo hi b : Nat) (hlo : lo ≤ b)
    (hhi : b ≤ hi) (hn : need ≠ 1) :
    stepUtf8 (some ⟨need, acc, lo, hi⟩) b =
      ([], some ⟨need - 1, acc * 64 + (b - 128), 128, 191⟩) := by
  simp only [stepUtf8]
  rw [if_pos ⟨hlo, hhi⟩, if_neg hn]

theorem stepStream_finish (acc2 b n : Nat) (hlo : 128 ≤ b)
    (hhi : b ≤ 191) (harith : acc2 * 64 + (b - 128) = n) :
    stepStream (some ⟨1, acc2, 128, 191⟩) (Sum.inr b) =
      ([Char.ofNat n], none) := by
  simp only [stepStream]
  have hs := stepUtf8_last 1 acc2 128 191 b hlo hhi rfl
  rw [harith] at hs
  exact hs

theorem decode_utf8Bytes (c : Char) (rest : List (Char ⊕ Nat)) :
    decodeStreamGo none ((utf8Bytes c).map Sum.inr ++ rest) =
      c :: decodeStreamGo none rest := by
  have hlt := char_toNat_lt c
  have hns := char_not_surrogate c
  simp only [utf8Bytes]
  by_cases h1 : c.toNat < 128
  · rw [if_pos h1]
    simp only [List.map_cons, List.map_nil, List.cons_append,
      List.nil_append, decode_cons]
    rw [show stepStream none (Sum.inr c.toNat) =
      ([Char.ofNat c.toNat], none) from by
        simp only [stepStream, stepUtf8, classifyLead]
        rw [if_pos h1]]
    simp [Char.ofNat_toNat]
  · rw [if_neg h1]
    by_cases h2 : c.toNat < 2048
    · rw [if_pos h2]
      simp only [List.map_cons, List.map_nil, List.cons_append,
        List.nil_append, decode_cons]
      rw [show stepStream none (Sum.inr (192 + c.toNat / 64)) =
        ([], some ⟨1, 192 + c.toNat / 64 - 192, 128, 191⟩) from by
          simp only [stepStream, stepUtf8]
          rw [classifyLead_two _ (by omega) (by omega)]]
      simp only [List.nil_append, decode_cons]
      rw [show stepStream (some ⟨1, 192 + c.toNat / 64 - 192, 128, 191⟩)
          (Sum.inr (128 + c.toNat % 64)) =
        ([Char.ofNat c.toNat], none) from by
          exact stepStream_finish _ _ _ (by omega) (by omega) (by omega)]
      simp [Char.ofNat_toNat]
    · rw [if_neg h2]
      by_cases h3 : c.toNat < 65536
      · rw [if_pos h3]
        simp only [List.map_cons, List.map_nil, List.cons_append,
          List.nil_append, decode_cons]
        by_cases h4 : c.toNat < 4096
        · rw [show (224 + c.toNat / 4096) = 224 from by omega]
          rw [show stepStream none (Sum.inr 224) =
            ([], some ⟨2, 0, 160, 191⟩) from by
              simp only [stepStream, stepUtf8]
              rw [show classifyLead 224 = Sum.inr ⟨2, 0, 160, 191⟩ from
                by decide]]
          simp only [List.nil_append, decode_cons]
          rw [show stepStream (some ⟨2, 0, 160, 191⟩)
              (Sum.inr (128 + c.toNat / 64 % 64)) =
            ([], some ⟨1, 0 * 64 + (128 + c.toNat / 64 % 64 - 128), 128,
              191⟩) from by
              simp only [stepStream]
              exact stepUtf8_mid _ _ _ _ _ (by omega) (by omega) (by omega)]
          simp only [List.nil_append, decode_cons]
          rw [show stepStream (some ⟨1,
              0 * 64 + (128 + c.toNat / 64 % 64 - 128), 128, 191⟩)
              (Sum.inr (128 + c.toNat % 64)) =
            ([Char.ofNat c.toNat], none) from by
              exact stepStream_finish _ _ _ (by omega) (by omega) (by omega)]
          simp [Char.ofNat_toNat]
        · by_cases h5 : c.toNat / 4096 = 13
          · rw [show (224 + c.toNat / 4096) = 237 from by omega]
            rw [show stepStream none (Sum.inr 237) =
              ([], some ⟨2, 13, 128, 159⟩) from by
                simp only [stepStream, stepUtf8]
                rw [show classifyLead 237 = Sum.inr ⟨2, 13, 128, 159⟩ from
                  by decide]]
            simp only [List.nil_append, decode_cons]
            rw [show stepStream (some ⟨2, 13, 128, 159⟩)
                (Sum.inr (128 + c.toNat / 64 % 64)) =
              ([], some ⟨1, 13 * 64 + (128 + c.toNat / 64 % 64 - 128), 128,
                191⟩) from by
                simp only [stepStream]
                exact stepUtf8_mid _ _ _ _ _ (by omega) (by omega) (by omega)]
            simp only [List.nil_append, decode_cons]
            rw [show stepStream (some ⟨1,
                13 * 64 + (128 + c.toNat / 64 % 64 - 128), 128, 191⟩)
                (Sum.inr (128 + c.toNat % 64)) =
              ([Char.ofNat c.toNat], none) from by
                exact stepStream_finish _ _ _ (by omega) (by omega) (by omega)]
            simp [Char.ofNat_toNat]
          · rw [show stepStream none (Sum.inr (224 + c.toNat / 4096)) =
              ([], some ⟨2, 224 + c.toNat / 4096 - 224, 128, 191⟩) from by
                simp only [stepStream, stepUtf8]
                rw [classifyLead_three _ (by omega) (by omega) (by omega)]]
            simp only [List.nil_append, decode_cons]
            rw [show stepStream (some ⟨2, 224 + c.toNat / 4096 - 224, 128,
                191⟩) (Sum.inr (128 + c.toNat / 64 % 64)) =
              ([], some ⟨1, (224 + c.toNat / 4096 - 224) * 64 +
                (128 + c.toNat / 64 % 64 - 128), 128, 191⟩) from by
                simp only [stepStream]
                exact stepUtf8_mid _ _ _ _ _ (by omega) (by omega) (by omega)]
            simp only [List.nil_append, decode_cons]
            rw [show stepStream (some ⟨1, (224 + c.toNat / 4096 - 224) * 64
                + (128 + c.toNat / 64 % 64 - 128), 128, 191⟩)
                (Sum.inr (128 + c.toNat % 64)) =
              ([Char.ofNat c.toNat], none) from by
                exact stepStream_finish _ _ _ (by omega) (by omega) (by omega)]
            simp [Char.ofNat_toNat]
      · rw [if_neg h3]
        simp only [List.map_cons, List.map_nil, List.cons_append,
          List.nil_append, decode_cons]
        by_cases h4 : c.toNat < 262144
        · rw [show (240 + c.toNat / 262144) = 240 from by omega]
          rw [show stepStream none (Sum.inr 240) =
            ([], some ⟨3, 0, 144, 191⟩) from by
              simp only [stepStream, stepUtf8]
              rw [show classifyLead 240 = Sum.inr ⟨3, 0, 144, 191⟩ from
                by decide]]
          simp only [List.nil_append, decode_cons]
          rw [show stepStream (some ⟨3, 0, 144, 191⟩)
              (Sum.inr (128 + c.toNat / 4096 % 64)) =
            ([], some ⟨2, 0 * 64 + (128 + c.toNat / 4096 % 64 - 128), 128,
              191⟩) from by
              simp only [stepStream]
              exact stepUtf8_mid _ _ _ _ _ (by omega) (by omega) (by omega)]
          simp only [List.nil_append, decode_cons]
          rw [show stepStream (some ⟨2,
              0 * 64 + (128 + c.toNat / 4096 % 64 - 128), 128, 191⟩)
              (Sum.inr (128 + c.toNat / 64 % 64)) =
            ([], some ⟨1, (0 * 64 + (128 + c.toNat / 4096 % 64 - 128)) * 64
              + (128 + c.toNat / 64 % 64 - 128), 128, 191⟩) from by
              simp only [stepStream]
              exact stepUtf8_mid _ _ _ _ _ (by omega) (by omega) (by omega)]
          simp only [List.nil_append, decode_cons]
          rw [show stepStream (some ⟨1,
              (0 * 64 + (128 + c.toNat / 4096 % 64 - 128)) * 64 +
                (128 + c.toNat / 64 % 64 - 128), 128, 191⟩)
              (Sum.inr (128 + c.toNat % 64)) =
            ([Char.ofNat c.toNat], none) from by
              exact stepStream_finish _ _ _ (by omega) (by omega) (by omega)]
          simp [Char.ofNat_toNat]
        · by_cases h5 : c.toNat < 1048576
          · rw [show stepStream none (Sum.inr (240 + c.toNat / 262144)) =
              ([], some ⟨3, 240 + c.toNat / 262144 - 240, 128, 191⟩) from by
                simp only [stepStream, stepUtf8]
                rw [classifyLead_four _ (by omega) (by omega)]]
            simp only [List.nil_append, decode_cons]
            rw [show stepStream (some ⟨3, 240 + c.toNat / 262144 - 240, 128,
                191⟩) (Sum.inr (128 + c.toNat / 4096 % 64)) =
              ([], some ⟨2, (240 + c.toNat / 262144 - 240) * 64 +
                (128 + c.toNat / 4096 % 64 - 128), 128, 191⟩) from by
                simp only [stepStream]
                exact stepUtf8_mid _ _ _ _ _ (by omega) (by omega) (by omega)]
            simp only [List.nil_append, decode_cons]
            rw [show stepStream (some ⟨2, (240 + c.toNat / 262144 - 240) *
                64 + (128 + c.toNat / 4096 % 64 - 128), 128, 191⟩)
                (Sum.inr (128 + c.toNat / 64 % 64)) =
              ([], some ⟨1, ((240 + c.toNat / 262144 - 240) * 64 +
                (128 + c.toNat / 4096 % 64 - 128)) * 64 +
                (128 + c.toNat / 64 % 64 - 128), 128, 191⟩) from by
                simp only [stepStream]
                exact stepUtf8_mid _ _ _ _ _ (by omega) (by omega) (by omega)]
            simp only [List.nil_append, decode_cons]
            rw [show stepStream (some ⟨1, ((240 + c.toNat / 262144 - 240) *
                64 + (128 + c.toNat / 4096 % 64 - 128)) * 64 +
                (128 + c.toNat / 64 % 64 - 128), 128, 191⟩)
                (Sum.inr (128 + c.toNat % 64)) =
              ([Char.ofNat c.toNat], none) from by
                exact stepStream_finish _ _ _ (by omega) (by omega) (by omega)]
            simp [Char.ofNat_toNat]
          · rw [show (240 + c.toNat / 262144) = 244 from by omega]
            rw [show stepStream none (Sum.inr 244) =
              ([], some ⟨3, 4, 128, 143⟩) from by
                simp only [stepStream, stepUtf8]
                rw [show classifyLead 244 = Sum.inr ⟨3, 4, 128, 143⟩ from
                  by decide]]
            simp only [List.nil_append, decode_cons]
            rw [show stepStream (some ⟨3, 4, 128, 143⟩)
                (Sum.inr (128 + c.toNat / 4096 % 64)) =
              ([], some ⟨2, 4 * 64 + (128 + c.toNat / 4096 % 64 - 128), 128,
                191⟩) from by
                simp only [stepStream]
                exact stepUtf8_mid _ _ _ _ _ (by omega) (by omega) (by omega)]
            simp only [List.nil_append, decode_cons]
            rw [show stepStream (some ⟨2,
                4 * 64 + (128 + c.toNat / 4096 % 64 - 128), 128, 191⟩)
                (Sum.inr (128 + c.toNat / 64 % 64)) =
              ([], some ⟨1, (4 * 64 + (128 + c.toNat / 4096 % 64 - 128)) *
                64 + (128 + c.toNat / 64 % 64 - 128), 128, 191⟩) from by
                simp only [stepStream]
                exact stepUtf8_mid _ _ _ _ _ (by omega) (by omega) (by omega)]
            simp only [List.nil_append, decode_cons]
            rw [show stepStream (some ⟨1,
                (4 * 64 + (128 + c.toNat / 4096 % 64 - 128)) * 64 +
                (128 + c.toNat / 64 % 64 - 128), 128, 191⟩)
                (Sum.inr (128 + c.toNat % 64)) =
              ([Char.ofNat c.toNat], none) from by
                exact stepStream_finish _ _ _ (by omega) (by omega) (by omega)]
            simp [Char.ofNat_toNat]

theorem collectPercents_inl (c : Char) (rest : List Char) (h : c ≠ '%') :
    collectPercents (c :: rest) = Sum.inl c :: collectPercents rest := by
  rw [collectPercents.eq_def]
  split <;> simp_all

theorem collectPercents_triple0 (x y : Char) (a b : Nat)
    (hx : hexVal x = some a) (hy : hexVal y = some b) (rest : List Char) :
    collectPercents ('%' :: x :: y :: rest) =
      Sum.inr (16 * a + b) :: collectPercents rest := by
  rw [collectPercents.eq_def]
  split
  · simp_all
  · rename_i h1 h2 r heq
    obtain ⟨rfl, rfl, rfl⟩ : h1 = x ∧ h2 = y ∧ r = rest := by
      simpa using heq.symm
    rw [hx, hy]
  · rename_i r hno heq
    injection heq with e1 e2
    exact absurd e2.symm (hno x y rest)
  · rename_i c r hne heq
    injection heq with e1 e2
    exact absurd e1.symm hne

theorem collectPercents_triple (b : Nat) (hb : b < 256) (rest : List Char) :
    collectPercents (percentEncodeByte b ++ rest) =
      Sum.inr b :: collectPercents rest := by
  simp only [percentEncodeByte, List.cons_append, List.nil_append]
  rw [collectPercents_triple0 _ _ (b / 16) (b % 16)
    (hexVal_hexUpperDigit _ (by omega)) (hexVal_hexUpperDigit _ (by omega))]
  rw [show 16 * (b / 16) + b % 16 = b from by omega]

theorem collectPercents_bytes (bs : List Nat) (hb : ∀ b ∈ bs, b < 256)
    (rest : List Char) :
    collectPercents (List.flatten (bs.map percentEncodeByte) ++ rest) =
      bs.map Sum.inr ++ collectPercents rest := by
  induction bs with
  | nil => simp
  | cons b t ih =>
    simp only [List.map_cons, List.flatten_cons, List.append_assoc,
      List.cons_append]
    rw [collectPercents_triple b (hb b (by simp))]
    rw [ih (fun x hx => hb x (by simp [hx]))]

theorem decode_inl (c : Char) (rest : List (Char ⊕ Nat)) :
    decodeStreamGo none (Sum.inl c :: rest) =
      c :: decodeStreamGo none rest := by
  rw [decode_cons]
  rfl

theorem isAlwaysSafe_ne_special (c : Char) (h : isAlwaysSafe c = true) :
    c ≠ '+' ∧ c ≠ '%' ∧ c ≠ ' ' ∧ c ≠ '=' ∧ c ≠ '&' := by
  refine ⟨?_, ?_, ?_, ?_, ?_⟩ <;> rintro rfl <;> revert h <;> decide

theorem plusToSpace_id (l : List Char) (h : '+' ∉ l) : plusToSpace l = l := by
  unfold plusToSpace
  induction l with
  | nil => rfl
  | cons x t ih =>
    simp only [List.map_cons]
    have hx : ¬x = '+' := fun e => h (by simp [e])
    rw [if_neg (by simpa using hx)]
    rw [ih (fun hm => h (by simp [hm]))]

theorem plus_not_in_enc (c : Char) :
    '+' ∉ List.flatten ((utf8Bytes c).map percentEncodeByte) := by
  intro hm
  simp only [List.mem_flatten] at hm
  obtain ⟨piece, hp, hcm⟩ := hm
  obtain ⟨b, hb, rfl⟩ := List.mem_map.mp hp
  have hb256 := utf8Bytes_lt c b hb
  simp only [percentEncodeByte, List.mem_cons, List.not_mem_nil] at hcm
  rcases hcm with h | h | h | h
  · exact absurd h (by decide)
  · exact absurd h.symm
      (isAlwaysSafe_ne_special _ (hexUpperDigit_safe (b / 16) (by omega))).1
  · exact absurd h.symm
      (isAlwaysSafe_ne_special _ (hexUpperDigit_safe (b % 16) (by omega))).1
  · exact h

theorem percent_not_in_tail (c : Char) (hne : isAlwaysSafe c = false) :
    ∀ x ∈ List.flatten ((utf8Bytes c).map percentEncodeByte),
      x = '%' ∨ isAlwaysSafe x = true := by
  intro x hm
  simp only [List.mem_flatten] at hm
  obtain ⟨piece, hp, hcm⟩ := hm
  obtain ⟨b, hb, rfl⟩ := List.mem_map.mp hp
  have hb256 := utf8Bytes_lt c b hb
  simp only [percentEncodeByte, List.mem_cons, List.not_mem_nil] at hcm
  rcases hcm with h | h | h | h
  · exact Or.inl h
  · exact Or.inr (h ▸ hexUpperDigit_safe (b / 16) (by omega))
  · exact Or.inr (h ▸ hexUpperDigit_safe (b % 16) (by omega))
  · exact absurd h (by simp)

theorem unquote_quote_go (s : List Char) :
    decodeStreamGo none (collectPercents (plusToSpace (quotePlus s))) = s := by
  induction s with
  | nil => rfl
  | cons c t ih =>
    have hsplit : plusToSpace (quotePlus (c :: t)) =
        plusToSpace (quotePlusChar c) ++ plusToSpace (quotePlus t) := by
      simp [quotePlus, plusToSpace]
    rw [hsplit]
    by_cases hs : isAlwaysSafe c
    · obtain ⟨hp, hpc, -, -, -⟩ := isAlwaysSafe_ne_special c hs
      have h1 : plusToSpace (quotePlusChar c) = [c] := by
        simp only [quotePlusChar, if_pos hs, plusToSpace, List.map_cons,
          List.map_nil]
        rw [if_neg (by simpa using hp)]
      rw [h1, List.singleton_append, collectPercents_inl c _ hpc,
        decode_inl, ih]
    · by_cases hsp : c = ' '
      · subst hsp
        have h1 : plusToSpace (quotePlusChar ' ') = [' '] := by decide
        rw [h1, List.singleton_append,
          collectPercents_inl _ _ (by decide), decode_inl, ih]
      · have h1 : plusToSpace (quotePlusChar c) =
            List.flatten ((utf8Bytes c).map percentEncodeByte) := by
          simp only [quotePlusChar, if_neg hs]
          rw [if_neg (by simpa using hsp)]
          exact plusToSpace_id _ (plus_not_in_enc c)
        rw [h1, collectPercents_bytes _ (utf8Bytes_lt c),
          decode_utf8Bytes, ih]

theorem unquotePlus_quotePlus (s : List Char) :
    unquotePlus (quotePlus s) = s := by
  unfold unquotePlus unquoteChars
  exact unquote_quote_go s

theorem classifyLead_inl_ne (b : Nat) (out : List Char)
    (h : classifyLead b = Sum.inl out) : out ≠ [] := by
  intro hc
  subst hc
  simp only [classifyLead] at h
  split_ifs at h <;> simp at h

theorem stepStream_progress (st : Option PendingUtf8) (x : Char ⊕ Nat) :
    (stepStream st x).1 ≠ [] ∨ (stepStream st x).2.isSome = true := by
  rcases x with c | b
  · rcases st with _ | p <;> simp [stepStream]
  · rcases st with _ | p
    · simp only [stepStream, stepUtf8]
      rcases hcl : classifyLead b with out | p2
      · exact Or.inl (classifyLead_inl_ne b out hcl)
      · simp
    · simp only [stepStream, stepUtf8]
      by_cases hin : p.nextLo ≤ b ∧ b ≤ p.nextHi
      · rw [if_pos hin]
        by_cases h1 : p.need = 1
        · rw [if_pos h1]; simp
        · rw [if_neg h1]; simp
      · rw [if_neg hin]
        rcases hcl : classifyLead b with out | p2 <;> simp

theorem decode_ne_nil (l : List (Char ⊕ Nat)) : ∀ st : Option PendingUtf8,
    st.isSome = true ∨ l ≠ [] → decodeStreamGo st l ≠ [] := by
  induction l with
  | nil =>
    intro st h
    rcases st with _ | p
    · rcases h with h | h
      · simp at h
      · exact absurd rfl h
    · simp [decodeStreamGo]
  | cons x rest ih =>
    intro st h
    rw [decode_cons]
    rcases hr : (stepStream st x).1 with _ | ⟨y, ys⟩
    · rcases stepStream_progress st x with h1 | h1
      · exact absurd hr h1
      · simpa using ih _ (Or.inl h1)
    · simp

theorem collectPercents_ne_nil (l : List Char) (h : l ≠ []) :
    collectPercents l ≠ [] := by
  rcases l with _ | ⟨c, rest⟩
  · exact absurd rfl h
  · rw [collectPercents.eq_def]
    split <;> first | (split <;> simp) | simp_all

theorem unquotePlus_ne_nil (v : List Char) (h : v ≠ []) :
    unquotePlus v ≠ [] := by
  unfold unquotePlus unquoteChars
  refine decode_ne_nil _ none (Or.inr ?_)
  refine collectPercents_ne_nil _ ?_
  rcases v with _ | ⟨c, t⟩
  · exact absurd rfl h
  · simp [plusToSpace]

theorem quotePlusChar_ne_nil (c : Char) : quotePlusChar c ≠ [] := by
  simp only [quotePlusChar, utf8Bytes]
  split_ifs <;> simp [percentEncodeByte]

theorem quotePlus_ne_nil (s : List Char) (h : s ≠ []) : quotePlus s ≠ [] := by
  rcases s with _ | ⟨c, t⟩
  · exact absurd rfl h
  · simp only [quotePlus, List.map_cons, List.flatten_cons]
    rcases hq : quotePlusChar c with _ | ⟨y, ys⟩
    · exact absurd hq (quotePlusChar_ne_nil c)
    · simp

theorem eq_not_in_quotePlus (s : List Char) : '=' ∉ quotePlus s := by
  intro hm
  rcases quotePlus_chars s '=' hm with h | h | h
  · exact (isAlwaysSafe_ne_special _ h).2.2.2.1 rfl
  · exact absurd h (by decide)
  · exact absurd h (by decide)

theorem amp_not_in_piece (k v : List Char) :
    '&' ∉ quotePlus k ++ '=' :: quotePlus v := by
  intro hm
  rcases List.mem_append.mp hm with h | h
  · rcases quotePlus_chars k '&' h with h1 | h1 | h1
    · exact (isAlwaysSafe_ne_special _ h1).2.2.2.2 rfl
    · exact absurd h1 (by decide)
    · exact absurd h1 (by decide)
  · rcases List.mem_cons.mp h with h1 | h1
    · exact absurd h1 (by decide)
    · rcases quotePlus_chars v '&' h1 with h2 | h2 | h2
      · exact (isAlwaysSafe_ne_special _ h2).2.2.2.2 rfl
      · exact absurd h2 (by decide)
      · exact absurd h2 (by decide)

theorem parseQslPair_enc (k v : List Char) (hv : v ≠ []) :
    parseQslPair (quotePlus k ++ '=' :: quotePlus v) = some (k, v) := by
  have hne : quotePlus k ++ '=' :: quotePlus v ≠ [] := by simp
  simp only [parseQslPair, if_neg hne]
  rw [pySplitFirst_append '=' _ _ (eq_not_in_quotePlus k)]
  dsimp only
  rw [if_neg (quotePlus_ne_nil v hv)]
  rw [unquotePlus_quotePlus, unquotePlus_quotePlus]

theorem filterMap_some_of (l : List (List Char × List Char))
    (g : List Char × List Char → Option (List Char × List Char))
    (h : ∀ x ∈ l, g x = some x) : l.filterMap g = l := by
  induction l with
  | nil => rfl
  | cons x t ih =>
    rw [List.filterMap_cons_some (h x (by simp))]
    rw [ih (fun y hy => h y (by simp [hy]))]

theorem parseQsl_urlencode (pairs : List (List Char × List Char))
    (hv : ∀ kv ∈ pairs, kv.2 ≠ []) :
    parseQsl (urlencodePairs pairs) = pairs := by
  rcases pairs with _ | ⟨kv0, rest⟩
  · decide
  · have hsplit : (urlencodePairs (kv0 :: rest)).splitOn '&' =
        (kv0 :: rest).map (fun kv => quotePlus kv.1 ++ '=' :: quotePlus kv.2) := by
      rw [urlencodePairs]
      refine List.splitOn_intercalate _ '&' ?_ (by simp)
      intro l hl
      obtain ⟨kv, -, rfl⟩ := List.mem_map.mp hl
      exact amp_not_in_piece kv.1 kv.2
    rw [parseQsl, hsplit, List.filterMap_map]
    refine filterMap_some_of _ _ ?_
    intro kv hkv
    simp only [Function.comp_apply]
    exact parseQslPair_enc kv.1 kv.2 (hv kv hkv)

theorem parseQsl_values_ne (qs : List Char) :
    ∀ kv ∈ parseQsl qs, kv.2 ≠ [] := by
  intro kv hkv
  simp only [parseQsl, List.mem_filterMap] at hkv
  obtain ⟨piece, -, hp⟩ := hkv
  simp only [parseQslPair] at hp
  by_cases h0 : piece = []
  · rw [if_pos h0] at hp
    simp at hp
  · rw [if_neg h0] at hp
    split at hp
    · simp at hp
    · rename_i name value heq
      by_cases h1 : value = []
      · rw [if_pos h1] at hp
        simp at hp
      · rw [if_neg h1] at hp
        obtain ⟨-, rfl⟩ : (unquotePlus name, unquotePlus value) = kv := by
          simpa using hp
        exact unquotePlus_ne_nil value h1

theorem filteredQuery_roundtrip (q : List Char) :
    filteredQueryOf (urlencodePairs (filteredQueryOf q)) =
      filteredQueryOf q := by
  have hv : ∀ kv ∈ filteredQueryOf q, kv.2 ≠ [] := by
    intro kv hkv
    exact parseQsl_values_ne q kv (List.mem_of_mem_filter hkv)
  rw [filteredQueryOf, parseQsl_urlencode _ hv]
  refine List.filter_eq_self.mpr ?_
  intro kv hkv
  exact (List.mem_filter.mp hkv).2

theorem findIdx_colon (s rest : List Char)
    (h : ∀ c ∈ s, (c == ':') = false) : ∀ i,
    List.findIdx? (fun c => c == ':') (s ++ ':' :: rest) i =
      some (i + s.length) := by
  induction s with
  | nil => intro i; simp [List.findIdx?_cons]
  | cons x t ih =>
    intro i
    rw [List.cons_append, List.findIdx?_cons, if_neg (by simp [h x (by simp)])]
    rw [ih (fun c hc => h c (by simp [hc])) (i + 1)]
    congr 1
    rw [List.length_cons]
    omega

theorem takeWhile_append_all (p : Char → Bool) (a b : List Char)
    (h : ∀ x ∈ a, p x = true) :
    (a ++ b).takeWhile p = a ++ b.takeWhile p := by
  induction a with
  | nil => simp
  | cons x t ih =>
    simp only [List.cons_append, List.takeWhile_cons, h x (by simp),
      if_true]
    rw [ih (fun y hy => h y (by simp [hy]))]

theorem pyLower_eq_nil (l : List Char) : pyLower l = [] ↔ l = [] := by
  simp [pyLower]

theorem splitScheme_append (s rest : List Char) (hs : s ≠ [])
    (hall : s.all isSchemeChar = true)
    (hhead : isAsciiAlpha (s.headD ' ') = true) :
    splitScheme (s ++ ':' :: rest) = (pyLower s, rest) := by
  have hnc : ∀ c ∈ s, (c == ':') = false := by
    intro c hc
    have h2 := List.all_eq_true.mp hall c hc
    rw [beq_eq_false_iff_ne]
    intro he
    rw [he] at h2
    exact absurd h2 (by decide)
  simp only [splitScheme]
  rw [show (s ++ ':' :: rest).findIdx? (fun c => c == ':') =
    some (0 + s.length) from findIdx_colon s rest hnc 0]
  dsimp only
  have hlen : 0 < s.length := by
    rcases s with _ | ⟨c, t⟩
    · exact absurd rfl hs
    · simp
  have htake : (s ++ ':' :: rest).take (0 + s.length) = s := by
    rw [Nat.zero_add]; exact List.take_left s _
  have hhd : (s ++ ':' :: rest).headD ' ' = s.headD ' ' := by
    rcases s with _ | ⟨c, t⟩
    · exact absurd rfl hs
    · rfl
  rw [if_pos ⟨by omega, by rw [hhd]; exact hhead, by rw [htake]; exact hall⟩]
  rw [htake]
  have hdrop : (s ++ ':' :: rest).drop (0 + s.length + 1) = rest := by
    rw [Nat.zero_add]
    rw [show s ++ ':' :: rest = (s ++ [':']) ++ rest by simp]
    rw [List.drop_left' (by simp)]
  rw [hdrop]

theorem splitNetlocAt_append (n m : List Char)
    (hn : ∀ c ∈ n, (c == '/' || c == '?' || c == '#') = false) :
    splitNetlocAt (n ++ '/' :: m) = (n, '/' :: m) := by
  simp only [splitNetlocAt]
  have ht : (n ++ '/' :: m).takeWhile
      (fun c => !(c == '/' || c == '?' || c == '#')) = n := by
    refine takeWhile_append_stop _ n '/' m ?_ (by decide)
    intro x hx
    simp [hn x hx]
  rw [ht, List.drop_left n _]

theorem afterLastSlash_subset (l : List Char) :
    ∀ c ∈ afterLastSlash l, c ∈ l := by
  intro c hc
  simp only [afterLastSlash, List.mem_reverse] at hc
  have := (List.takeWhile_prefix (fun c => c != '/')).subset hc
  exact List.mem_reverse.mp this

theorem afterLastSlash_append (l m : List Char) (h : '/' ∉ m) :
    afterLastSlash (l ++ m) = afterLastSlash l ++ m := by
  simp only [afterLastSlash, List.reverse_append]
  rw [takeWhile_append_all _ m.reverse l.reverse
    (by intro x hx
        simp only [bne_iff_ne, ne_eq]
        intro he
        exact h (by rw [← he]; exact List.mem_reverse.mp hx))]
  simp

theorem npathOf_ne_nil (path : List Char) : npathOf path ≠ [] := by
  simp only [npathOf]
  split_ifs with h
  · simp
  · exact h

theorem npathOf_take_one (path : List Char)
    (h : path = [] ∨ path.take 1 = ['/']) :
    (npathOf path).take 1 = ['/'] := by
  rcases h with h | h
  · subst h; decide
  · rcases path with _ | ⟨c, t⟩
    · simp at h
    · have hc : c = '/' := by simpa using h
      subst hc
      simp only [npathOf]
      split_ifs with h0
      · rfl
      · rcases hr : rstripSlash ('/' :: t) with _ | ⟨y, ys⟩
        · exact absurd hr h0
        · obtain ⟨t', ht⟩ := dropTrailing_pre (fun c => c == '/') ('/' :: t)
          rw [show rstripSlash ('/' :: t) =
            dropTrailing (fun c => c == '/') ('/' :: t) from rfl] at hr
          rw [hr] at ht
          have hy : y = '/' := by
            have h3 := congrArg (fun l => l.headD ' ') ht
            simpa using h3
          rw [hy]
          rfl

theorem npathOf_subset (path : List Char) :
    ∀ c ∈ npathOf path, c = '/' ∨ c ∈ path := by
  intro c hc
  simp only [npathOf] at hc
  split_ifs at hc with h
  · simp at hc
    exact Or.inl hc
  · exact Or.inr ((dropTrailing_pre _ path).subset hc)

theorem npathOf_cons_slash (path : List Char)
    (h : path = [] ∨ path.take 1 = ['/']) :
    ∃ t, npathOf path = '/' :: t := by
  have h1 := npathOf_take_one path h
  rcases hn : npathOf path with _ | ⟨c, t⟩
  · exact absurd hn (npathOf_ne_nil path)
  · rw [hn] at h1
    simp only [List.take_succ_cons, List.take_zero] at h1
    exact ⟨t, by rw [show c = '/' from by simpa using h1]⟩

theorem semi_not_mem_npath (path : List Char) (h7 : ';' ∉ path) :
    ';' ∉ npathOf path := by
  intro hm
  rcases npathOf_subset path ';' hm with h | h
  · exact absurd h (by decide)
  · exact h7 h

theorem splitParams_npath (path : List Char)
    (h6 : path = [] ∨ path.take 1 = ['/']) (h7 : ';' ∉ path) :
    splitParams (npathOf path) = (npathOf path, []) := by
  obtain ⟨t, ht⟩ := npathOf_cons_slash path h6
  have hcont : (npathOf path).contains '/' = true := by
    rw [ht]
    simp [List.contains]
  simp only [splitParams]
  rw [if_pos hcont]
  have hsuf : ';' ∉ afterLastSlash (npathOf path) := by
    intro hm
    exact semi_not_mem_npath path h7 (afterLastSlash_subset _ ';' hm)
  rw [pySplitFirst_not_mem ';' _ hsuf]

theorem splitParams_npath_params (path par : List Char)
    (h6 : path = [] ∨ path.take 1 = ['/']) (h7 : ';' ∉ path)
    (hpar : par ≠ []) (h10 : '/' ∉ par) :
    splitParams (npathOf path ++ ';' :: par) = (npathOf path, par) := by
  obtain ⟨t, ht⟩ := npathOf_cons_slash path h6
  have hcont : (npathOf path ++ ';' :: par).contains '/' = true := by
    rw [ht]
    simp [List.contains]
  simp only [splitParams]
  rw [if_pos hcont]
  have hsl : '/' ∉ ';' :: par := by
    intro hm
    rcases List.mem_cons.mp hm with h | h
    · exact absurd h (by decide)
    · exact h10 h
  rw [afterLastSlash_append _ _ hsl]
  have hsuf : ';' ∉ afterLastSlash (npathOf path) := by
    intro hm
    exact semi_not_mem_npath path h7 (afterLastSlash_subset _ ';' hm)
  rw [pySplitFirst_append ';' _ _ hsuf]
  dsimp only
  have hlen : (npathOf path ++ ';' :: par).length - 1 - par.length =
      (npathOf path).length := by
    simp only [List.length_append, List.length_cons]
    omega
  rw [hlen, List.take_left (npathOf path) _]

theorem urlunsplit_shape (S N P0 query' : List Char) (hS : S ≠ [])
    (hN : N ≠ []) (hP : P0.take 1 = ['/']) :
    urlunsplitModel S N P0 query' [] =
      S ++ ':' :: (('/' :: '/' :: N ++ P0) ++
        (if query' ≠ [] then '?' :: query' else [])) := by
  simp only [urlunsplitModel]
  rw [if_pos (Or.inl hN),
    if_neg (show ¬(P0 ≠ [] ∧ P0.take 1 ≠ ['/']) from
      fun hcon => hcon.2 hP), if_pos hS]
  by_cases hq0 : query' = []
  · subst hq0
    rw [if_neg (by simp), if_neg (by simp)]
    simp
  · rw [if_pos hq0, if_neg (by simp)]
    simp [hq0]

theorem urlsplit_rebuilt_noq (S N Pt : List Char) (hS : S ≠ [])
    (hall : S.all isSchemeChar = true)
    (hhead : isAsciiAlpha (S.headD ' ') = true)
    (hSlow : pyLower S = S) (hNne : N ≠ [])
    (hN : ∀ c ∈ N, (c == '/' || c == '?' || c == '#') = false)
    (hNb : N.any (fun c => c == '[' || c == ']') = false)
    (hP8 : '#' ∉ '/' :: Pt) (hP9 : '?' ∉ '/' :: Pt)
    (hclean : removeUnsafeBytes (whatwgLStrip
        (S ++ ':' :: ('/' :: '/' :: N ++ '/' :: Pt))) =
      S ++ ':' :: ('/' :: '/' :: N ++ '/' :: Pt)) :
    urlsplitModel (S ++ ':' :: ('/' :: '/' :: N ++ '/' :: Pt)) =
      some ⟨S, N, '/' :: Pt, [], []⟩ := by
  simp only [urlsplitModel]
  rw [hclean]
  rw [splitScheme_append S _ hS hall hhead, hSlow]
  dsimp only
  rw [if_pos (show ('/' :: '/' :: N ++ '/' :: Pt).take 2 = ['/', '/'] from
    by simp)]
  rw [show ('/' :: '/' :: N ++ '/' :: Pt).drop 2 = N ++ '/' :: Pt from
    by simp]
  rw [splitNetlocAt_append N Pt hN]
  dsimp only
  rw [if_neg (show ¬(N.any (fun c => c == '[' || c == ']') = true) from
    by simp [hNb])]
  rw [pySplitFirst_not_mem '#' _ hP8]
  dsimp only
  rw [pySplitFirst_not_mem '?' _ hP9]
  rfl

theorem urlsplit_rebuilt_q (S N Pt query' : List Char) (hS : S ≠ [])
    (hall : S.all isSchemeChar = true)
    (hhead : isAsciiAlpha (S.headD ' ') = true)
    (hSlow : pyLower S = S) (hNne : N ≠ [])
    (hN : ∀ c ∈ N, (c == '/' || c == '?' || c == '#') = false)
    (hNb : N.any (fun c => c == '[' || c == ']') = false)
    (hP8 : '#' ∉ '/' :: Pt) (hP9 : '?' ∉ '/' :: Pt)
    (hq8 : '#' ∉ query')
    (hclean : removeUnsafeBytes (whatwgLStrip
        (S ++ ':' :: (('/' :: '/' :: N ++ '/' :: Pt) ++ '?' :: query'))) =
      S ++ ':' :: (('/' :: '/' :: N ++ '/' :: Pt) ++ '?' :: query')) :
    urlsplitModel
        (S ++ ':' :: (('/' :: '/' :: N ++ '/' :: Pt) ++ '?' :: query')) =
      some ⟨S, N, '/' :: Pt, query', []⟩ := by
  simp only [urlsplitModel]
  rw [hclean]
  rw [splitScheme_append S _ hS hall hhead, hSlow]
  dsimp only
  rw [if_pos (show (('/' :: '/' :: N ++ '/' :: Pt) ++ '?' :: query').take 2
    = ['/', '/'] from by simp)]
  rw [show (('/' :: '/' :: N ++ '/' :: Pt) ++ '?' :: query').drop 2 =
    N ++ '/' :: (Pt ++ '?' :: query') from by simp]
  rw [splitNetlocAt_append N _ hN]
  dsimp only
  rw [if_neg (show ¬(N.any (fun c => c == '[' || c == ']') = true) from
    by simp [hNb])]
  have hP8' : '#' ∉ '/' :: (Pt ++ '?' :: query') := by
    intro hm
    rcases List.mem_cons.mp hm with h | h
    · exact absurd h (by decide)
    · rcases List.mem_append.mp h with h | h
      · exact hP8 (by simp [h])
      · rcases List.mem_cons.mp h with h | h
        · exact absurd h (by decide)
        · exact hq8 h
  rw [pySplitFirst_not_mem '#' _ hP8']
  dsimp only
  rw [show '/' :: (Pt ++ '?' :: query') = ('/' :: Pt) ++ '?' :: query' from
    by simp]
  rw [pySplitFirst_append '?' _ _ hP9]
  rfl

/-- C5: `normalize_url` lower-cases scheme and host, strips the
tracking-prefixed query parameters, and - on the class of URLs actually
produced by the rebuild (non-empty scheme and netloc of the usual shape,
absolute delimiter-free path, and a rebuilt string free of strippable
whitespace and unsafe bytes) - is idempotent.  The unconditional
idempotency claim is refuted by `C5_normalize_url_counterexample`. -/
theorem C5_normalize_url (u r : List Char) (p : UrlParseResult)
    (hp : urlparseModel (pyStrip u) = some p)
    (hr : r = urlunparseModel (normalizeParts p))
    (h1 : p.scheme ≠ [])
    (h2 : (pyLower p.scheme).all isSchemeChar = true)
    (h3 : isAsciiAlpha ((pyLower p.scheme).headD ' ') = true)
    (h4 : p.netloc ≠ [])
    (h5 : ∀ c ∈ pyLower p.netloc,
      (c == '/' || c == '?' || c == '#') = false)
    (h5b : (pyLower p.netloc).any (fun c => c == '[' || c == ']') = false)
    (h6 : p.path = [] ∨ p.path.take 1 = ['/'])
    (h7 : ';' ∉ p.path) (h8 : '#' ∉ p.path) (h9 : '?' ∉ p.path)
    (h10 : '/' ∉ p.params) (h11 : '#' ∉ p.params) (h12 : '?' ∉ p.params)
    (hc1 : pyStrip r = r) (hc2 : whatwgLStrip r = r)
    (hc3 : removeUnsafeBytes r = r) :
    normalize_url u = some r ∧
    urlparseModel (pyStrip r) = some (normalizeParts p) ∧
    (∀ kv ∈ filteredQueryOf p.query, isTrackingKey kv.1 = false) ∧
    normalize_url r = some r := by
  obtain ⟨t, ht⟩ := npathOf_cons_slash p.path h6
  have hSne : pyLower p.scheme ≠ [] := by
    rw [Ne, pyLower_eq_nil]; exact h1
  have hNne : pyLower p.netloc ≠ [] := by
    rw [Ne, pyLower_eq_nil]; exact h4
  have hSlow := pyLower_idem p.scheme
  have hmem : ∀ c : Char, c ≠ '/' → c ≠ ';' → c ∉ p.path → c ∉ p.params →
      (c ∉ '/' :: t ∧ c ∉ '/' :: (t ++ ';' :: p.params)) := by
    intro c hsl hsc hpp hppar
    have hnp : c ∉ npathOf p.path := by
      intro hm
      rcases npathOf_subset p.path c hm with h | h
      · exact hsl h
      · exact hpp h
    rw [ht] at hnp
    refine ⟨hnp, ?_⟩
    intro hm
    rcases List.mem_cons.mp hm with h | h
    · exact hsl h
    · rcases List.mem_append.mp h with h | h
      · exact hnp (by simp [h])
      · rcases List.mem_cons.mp h with h | h
        · exact hsc h
        · exact hppar h
  obtain ⟨h8a, h8b⟩ := hmem '#' (by decide) (by decide) h8 h11
  obtain ⟨h9a, h9b⟩ := hmem '?' (by decide) (by decide) h9 h12
  have hq8 : '#' ∉ urlencodePairs (filteredQueryOf p.query) :=
    urlencode_no_delim _ '#' (Or.inr (Or.inl rfl))
  have hconc1 : normalize_url u = some r := by
    simp only [normalize_url]
    rw [hp]
    simp [hr]
  have htrack : ∀ kv ∈ filteredQueryOf p.query,
      isTrackingKey kv.1 = false := by
    intro kv hkv
    simp only [filteredQueryOf] at hkv
    simpa using (List.mem_filter.mp hkv).2
  have hnorm_idem : normalizeParts (normalizeParts p) = normalizeParts p := by
    simp only [normalizeParts]
    rw [pyLower_idem, pyLower_idem, npathOf_idem, filteredQuery_roundtrip]
  have hparse : urlparseModel (pyStrip r) = some (normalizeParts p) := by
    rw [hc1]
    by_cases hpar : p.params = []
    · have hu : urlunparseModel (normalizeParts p) =
          urlunsplitModel (pyLower p.scheme) (pyLower p.netloc)
            (npathOf p.path) (urlencodePairs (filteredQueryOf p.query))
            [] := by
        simp only [urlunparseModel, normalizeParts]
        rw [hpar, if_neg (by simp)]
      by_cases hq0 : urlencodePairs (filteredQueryOf p.query) = []
      · have hstr : r = pyLower p.scheme ++ ':' ::
            ('/' :: '/' :: pyLower p.netloc ++ '/' :: t) := by
          rw [hr, hu, urlunsplit_shape _ _ _ _ hSne hNne
            (npathOf_take_one p.path h6)]
          rw [hq0, if_neg (by simp), List.append_nil, ht]
        rw [hstr]
        have hclean : removeUnsafeBytes (whatwgLStrip
            (pyLower p.scheme ++ ':' ::
              ('/' :: '/' :: pyLower p.netloc ++ '/' :: t))) =
            pyLower p.scheme ++ ':' ::
              ('/' :: '/' :: pyLower p.netloc ++ '/' :: t) := by
          rw [← hstr, hc2, hc3]
        simp only [urlparseModel]
        rw [urlsplit_rebuilt_noq _ _ _ hSne h2 h3 hSlow hNne h5 h5b
          h8a h9a hclean]
        simp only [Option.map_some']
        rw [show ('/' :: t) = npathOf p.path from ht.symm]
        rw [splitParams_npath p.path h6 h7]
        simp [normalizeParts, hpar, hq0]
      · have hstr : r = pyLower p.scheme ++ ':' ::
            (('/' :: '/' :: pyLower p.netloc ++ '/' :: t) ++
              '?' :: urlencodePairs (filteredQueryOf p.query)) := by
          rw [hr, hu, urlunsplit_shape _ _ _ _ hSne hNne
            (npathOf_take_one p.path h6)]
          rw [if_pos hq0, ht]
        rw [hstr]
        have hclean : removeUnsafeBytes (whatwgLStrip
            (pyLower p.scheme ++ ':' ::
              (('/' :: '/' :: pyLower p.netloc ++ '/' :: t) ++
                '?' :: urlencodePairs (filteredQueryOf p.query)))) =
            pyLower p.scheme ++ ':' ::
              (('/' :: '/' :: pyLower p.netloc ++ '/' :: t) ++
                '?' :: urlencodePairs (filteredQueryOf p.query)) := by
          rw [← hstr, hc2, hc3]
        simp only [urlparseModel]
        rw [urlsplit_rebuilt_q _ _ _ _ hSne h2 h3 hSlow hNne h5 h5b
          h8a h9a hq8 hclean]
        simp only [Option.map_some']
        rw [show ('/' :: t) = npathOf p.path from ht.symm]
        rw [splitParams_npath p.path h6 h7]
        simp [normalizeParts, hpar]
    · have hP0r : npathOf p.path ++ ';' :: p.params =
          '/' :: (t ++ ';' :: p.params) := by
        rw [ht]; simp
      have hu : urlunparseModel (normalizeParts p) =
          urlunsplitModel (pyLower p.scheme) (pyLower p.netloc)
            (npathOf p.path ++ ';' :: p.params)
            (urlencodePairs (filteredQueryOf p.query)) [] := by
        simp only [urlunparseModel, normalizeParts]
        rw [if_pos (by simpa using hpar)]
      have htk : (npathOf p.path ++ ';' :: p.params).take 1 = ['/'] := by
        rw [hP0r]
        rfl
      by_cases hq0 : urlencodePairs (filteredQueryOf p.query) = []
      · have hstr : r = pyLower p.scheme ++ ':' ::
            ('/' :: '/' :: pyLower p.netloc ++
              '/' :: (t ++ ';' :: p.params)) := by
          rw [hr, hu, urlunsplit_shape _ _ _ _ hSne hNne htk]
          rw [hq0, if_neg (by simp), List.append_nil, hP0r]
        rw [hstr]
        have hclean : removeUnsafeBytes (whatwgLStrip
            (pyLower p.scheme ++ ':' ::
              ('/' :: '/' :: pyLower p.netloc ++
                '/' :: (t ++ ';' :: p.params)))) =
            pyLower p.scheme ++ ':' ::
              ('/' :: '/' :: pyLower p.netloc ++
                '/' :: (t ++ ';' :: p.params)) := by
          rw [← hstr, hc2, hc3]
        simp only [urlparseModel]
        rw [urlsplit_rebuilt_noq _ _ _ hSne h2 h3 hSlow hNne h5 h5b
          h8b h9b hclean]
        simp only [Option.map_some']
        rw [show '/' :: (t ++ ';' :: p.params) =
          npathOf p.path ++ ';' :: p.params from hP0r.symm]
        rw [splitParams_npath_params p.path p.params h6 h7 hpar h10]
        simp [normalizeParts, hq0]
      · have hstr : r = pyLower p.scheme ++ ':' ::
            (('/' :: '/' :: pyLower p.netloc ++
              '/' :: (t ++ ';' :: p.params)) ++
              '?' :: urlencodePairs (filteredQueryOf p.query)) := by
          rw [hr, hu, urlunsplit_shape _ _ _ _ hSne hNne htk]
          rw [if_pos hq0, hP0r]
        rw [hstr]
        have hclean : removeUnsafeBytes (whatwgLStrip
            (pyLower p.scheme ++ ':' ::
              (('/' :: '/' :: pyLower p.netloc ++
                '/' :: (t ++ ';' :: p.params)) ++
                '?' :: urlencodePairs (filteredQueryOf p.query)))) =
            pyLower p.scheme ++ ':' ::
              (('/' :: '/' :: pyLower p.netloc ++
                '/' :: (t ++ ';' :: p.params)) ++
                '?' :: urlencodePairs (filteredQueryOf p.query)) := by
          rw [← hstr, hc2, hc3]
        simp only [urlparseModel]
        rw [urlsplit_rebuilt_q _ _ _ _ hSne h2 h3 hSlow hNne h5 h5b
          h8b h9b hq8 hclean]
        simp only [Option.map_some']
        rw [show '/' :: (t ++ ';' :: p.params) =
          npathOf p.path ++ ';' :: p.params from hP0r.symm]
        rw [splitParams_npath_params p.path p.params h6 h7 hpar h10]
        simp [normalizeParts]
  have hconc4 : normalize_url r = some r := by
    simp only [normalize_url]
    rw [hparse]
    simp only [Option.map_some']
    rw [hnorm_idem, ← hr]
  exact ⟨hconc1, hparse, htrack, hconc4⟩

set_option maxRecDepth 4000 in
/-- C5 counterexample: `normalize_url` is not idempotent on all inputs.
`"http://h/a #f"` rebuilds to `"http://h/a "` (the fragment split exposes
a trailing space that `urlparse`'s entry `strip()` then removes on the
second application), so re-normalizing yields the different string
`"http://h/a"`. -/
theorem C5_normalize_url_counterexample :
    normalize_url (("http://h/a #f").toList) =
      some (("http://h/a ").toList) ∧
    normalize_url (("http://h/a ").toList) =
      some (("http://h/a").toList) ∧
    ("http://h/a ").toList ≠ ("http://h/a").toList := by
  refine ⟨by decide, by decide, by decide⟩

set_option maxRecDepth 8000 in
/-- C5 witness: a concrete URL with upper-case scheme and host, a
tracking parameter, a trailing slash and a fragment normalizes as claimed
and the result is a fixed point of `normalize_url`. -/
theorem C5_normalize_url_witness :
    normalize_url
        (("HTTPS://Example.COM/Path/?utm_source=x&b=2#frag").toList) =
      some (("https://example.com/Path?b=2").toList) ∧
    normalize_url (("https://example.com/Path?b=2").toList) =
      some (("https://example.com/Path?b=2").toList) := by
  have h := C5_normalize_url
    (("HTTPS://Example.COM/Path/?utm_source=x&b=2#frag").toList)
    (("https://example.com/Path?b=2").toList)
    ⟨("https").toList, ("Example.COM").toList, ("/Path/").toList, [],
      ("utm_source=x&b=2").toList, ("frag").toList⟩
    (by decide) (by decide) (by decide) (by decide) (by decide)
    (by decide) (by decide) (by decide) (by decide) (by decide)
    (by decide) (by decide) (by decide) (by decide) (by decide)
    (by decide) (by decide) (by decide)
  exact ⟨h.1, h.2.2.2⟩
